import Mathlib

/-!
# hugo-to-directus: front-matter validation, slug generation and batch processing

A shallow embedding of `main.go`.  Go strings are byte sequences, so a string is a
`List Nat` of byte values; the rune-aware library routines the program calls
(`strings.TrimSpace`, `strings.ToLower`, `regexp`, `encoding/json`) work on the
UTF-8 decoding of those bytes, exactly as the Go standard library does (an
invalid byte decodes to U+FFFD with width 1).
-/

set_option autoImplicit false

namespace HugoToDirectus

/-! ## Go strings and UTF-8 -/

/-- A Go string: a sequence of bytes, not necessarily valid UTF-8. -/
abbrev GoString := List Nat

/-- UTF-8 encoding of a rune, as `utf8.AppendRune`: surrogates and values above
U+10FFFF are written as U+FFFD. -/
def encodeRune (r : Nat) : GoString :=
  if r < 0x80 then [r]
  else if r < 0x800 then [0xC0 + r / 64, 0x80 + r % 64]
  else if (0xD800 ≤ r ∧ r ≤ 0xDFFF) ∨ 0x10FFFF < r then [0xEF, 0xBF, 0xBD]
  else if r < 0x10000 then [0xE0 + r / 4096, 0x80 + r / 64 % 64, 0x80 + r % 64]
  else [0xF0 + r / 262144, 0x80 + r / 4096 % 64, 0x80 + r / 64 % 64, 0x80 + r % 64]

/-- The bytes of a string constant of the Go source (Go source text is UTF-8). -/
def str (s : String) : GoString :=
  s.toList.flatMap (fun c => encodeRune c.toNat)

/-- The rune written for undecodable input, `utf8.RuneError`. -/
def RuneError : Nat := 0xFFFD

/-- A UTF-8 continuation byte. -/
def isCont (b : Nat) : Bool := decide (0x80 ≤ b) && decide (b ≤ 0xBF)

/-- Decoding of the first rune of a string, as `utf8.DecodeRuneInString`: the rune
and its width in bytes.  Overlong forms, surrogates, values above U+10FFFF and
truncated sequences give `(RuneError, 1)`; the empty string gives `(RuneError, 0)`. -/
def decodeRune : GoString → Nat × Nat
  | [] => (RuneError, 0)
  | b0 :: rest =>
    if b0 < 0x80 then (b0, 1)
    else if 0xC2 ≤ b0 ∧ b0 ≤ 0xDF then
      match rest with
      | b1 :: _ =>
        if isCont b1 then ((b0 - 0xC0) * 64 + (b1 - 0x80), 2) else (RuneError, 1)
      | [] => (RuneError, 1)
    else if 0xE0 ≤ b0 ∧ b0 ≤ 0xEF then
      match rest with
      | b1 :: b2 :: _ =>
        if (if b0 = 0xE0 then 0xA0 else 0x80) ≤ b1 ∧ b1 ≤ (if b0 = 0xED then 0x9F else 0xBF)
            ∧ isCont b2 = true then
          ((b0 - 0xE0) * 4096 + (b1 - 0x80) * 64 + (b2 - 0x80), 3)
        else (RuneError, 1)
      | _ => (RuneError, 1)
    else if 0xF0 ≤ b0 ∧ b0 ≤ 0xF4 then
      match rest with
      | b1 :: b2 :: b3 :: _ =>
        if (if b0 = 0xF0 then 0x90 else 0x80) ≤ b1 ∧ b1 ≤ (if b0 = 0xF4 then 0x8F else 0xBF)
            ∧ isCont b2 = true ∧ isCont b3 = true then
          ((b0 - 0xF0) * 262144 + (b1 - 0x80) * 4096 + (b2 - 0x80) * 64 + (b3 - 0x80), 4)
        else (RuneError, 1)
      | _ => (RuneError, 1)
    else (RuneError, 1)

/-- One decoded rune together with the bytes it was decoded from. -/
structure Tok where
  rune : Nat
  src : GoString

/-- Left-to-right decoding of a string; the first argument counts bytes still
belonging to the rune decoded last. -/
def runesAux : Nat → GoString → List Tok
  | _, [] => []
  | k + 1, _ :: rest => runesAux k rest
  | 0, b :: rest =>
    ⟨(decodeRune (b :: rest)).1, (b :: rest).take (decodeRune (b :: rest)).2⟩
      :: runesAux ((decodeRune (b :: rest)).2 - 1) rest

/-- The runes of a string, in order (what `for _, c := range s` visits). -/
def runes (s : GoString) : List Tok := runesAux 0 s

/-- The bytes a sequence of decoded runes came from. -/
def unrunes (ts : List Tok) : GoString := ts.flatMap Tok.src

/-! ## package `strings` -/

/-- White space as `unicode.IsSpace`. -/
def isSpace (r : Nat) : Bool :=
  r == 9 || r == 10 || r == 11 || r == 12 || r == 13 || r == 32 || r == 0x85 || r == 0xA0
    || r == 0x1680 || (decide (0x2000 ≤ r) && decide (r ≤ 0x200A)) || r == 0x2028 || r == 0x2029
    || r == 0x202F || r == 0x205F || r == 0x3000

/-- Removal of leading and trailing white-space runes, as `strings.TrimSpace`. -/
def TrimSpace (s : GoString) : GoString :=
  unrunes (((runes s).dropWhile (fun t => isSpace t.rune)).reverse.dropWhile
    (fun t => isSpace t.rune)).reverse

/-- Removal of leading and trailing bytes contained in an ASCII cutset, as
`strings.Trim` does for cutsets made of ASCII bytes. -/
def Trim (s cutset : GoString) : GoString :=
  (((s.dropWhile (fun b => decide (b ∈ cutset))).reverse.dropWhile
    (fun b => decide (b ∈ cutset)))).reverse

/-- Suffix test, `strings.HasSuffix`. -/
def HasSuffix (s suffix : GoString) : Bool :=
  decide (suffix.length ≤ s.length) && (s.drop (s.length - suffix.length) == suffix)

/-- Whether `p` occurs at the start of `s` (`strings.HasPrefix`). -/
def startsWith : GoString → GoString → Bool
  | [], _ => true
  | _ :: _, [] => false
  | a :: p, b :: s => a == b && startsWith p s

/-- Worker of `Split` for a non-empty separator: the first argument counts bytes of
a separator occurrence still to be passed over, the second holds the bytes of the
current piece in reverse. -/
def splitAux (sep : GoString) : Nat → GoString → GoString → List GoString
  | _, cur, [] => [cur.reverse]
  | k + 1, cur, _ :: rest => splitAux sep k cur rest
  | 0, cur, b :: rest =>
    if startsWith sep (b :: rest) then cur.reverse :: splitAux sep (sep.length - 1) [] rest
    else splitAux sep 0 (b :: cur) rest

/-- Splitting at every non-overlapping occurrence of the separator, as
`strings.Split`; an empty separator splits after each UTF-8 sequence. -/
def Split (s sep : GoString) : List GoString :=
  if sep = [] then (runes s).map Tok.src else splitAux sep 0 [] s

/-- Concatenation with a separator between elements, `strings.Join`. -/
def Join : List GoString → GoString → GoString
  | [], _ => []
  | [a], _ => a
  | a :: b :: rest, sep => a ++ sep ++ Join (b :: rest) sep

/-- Worker of `ReplaceAll` for a non-empty `old`. -/
def replaceAux (old new : GoString) : Nat → GoString → GoString
  | _, [] => []
  | k + 1, _ :: rest => replaceAux old new k rest
  | 0, b :: rest =>
    if startsWith old (b :: rest) then new ++ replaceAux old new (old.length - 1) rest
    else b :: replaceAux old new 0 rest

/-- Replacement of every non-overlapping occurrence of `old` by `new`, as
`strings.ReplaceAll`; an empty `old` matches before every rune and at the end. -/
def ReplaceAll (s old new : GoString) : GoString :=
  if old = [] then new ++ (runes s).flatMap (fun t => t.src ++ new)
  else replaceAux old new 0 s

/-- Lower-case mapping of one rune, `unicode.ToLower`: the ASCII range is handled
directly, every other rune goes through the Unicode case tables of the standard
library, which are taken as the parameter `caseTable`. -/
def unicodeToLower (caseTable : Nat → Nat) (r : Nat) : Nat :=
  if r ≤ 0x7F then (if 65 ≤ r ∧ r ≤ 90 then r + 32 else r) else caseTable r

/-- Lower-casing of a string, `strings.ToLower`: a byte-wise pass for pure-ASCII
strings, otherwise `strings.Map(unicode.ToLower, s)`, which re-encodes every
decoded rune (an invalid byte becomes the encoding of the mapped U+FFFD). -/
def ToLower (caseTable : Nat → Nat) (s : GoString) : GoString :=
  if s.all (fun b => decide (b < 0x80)) then
    s.map (fun b => if 65 ≤ b ∧ b ≤ 90 then b + 32 else b)
  else (runes s).flatMap (fun t => encodeRune (unicodeToLower caseTable t.rune))

/-! ## package `regexp`

The patterns of the program only apply repetition operators to single-rune
classes, so the syntax tree has repetition of a class as a primitive.  Matching is
by backtracking in preference order (leftmost-first, greedy repetition), the match
semantics of Go's `regexp`. -/

/-- Syntax of the regular expressions used by the program. -/
inductive Re where
  /-- The empty pattern. -/
  | empty : Re
  /-- One rune satisfying a class. -/
  | cls : (Nat → Bool) → Re
  /-- Greedy repetition `c*` of a class. -/
  | many : (Nat → Bool) → Re
  /-- Concatenation. -/
  | cat : Re → Re → Re
  /-- Alternation, preferring the left branch. -/
  | alt : Re → Re → Re
  /-- Capturing group with its number. -/
  | group : Nat → Re → Re
  /-- Beginning of text, `^`. -/
  | bot : Re
  /-- End of text, `$`. -/
  | eot : Re

/-- A literal rune. -/
def Re.lit (c : Nat) : Re := Re.cls (fun r => r == c)

/-- Greedy `c+`. -/
def Re.many1 (p : Nat → Bool) : Re := Re.cat (Re.cls p) (Re.many p)

/-- Greedy `x?`. -/
def Re.opt (a : Re) : Re := Re.alt a Re.empty

/-- A literal word followed by `rest`. -/
def Re.word : List Nat → Re → Re
  | [], rest => rest
  | c :: cs, rest => Re.cat (Re.lit c) (Re.word cs rest)

/-- Number of capturing groups of a pattern. -/
def Re.numGroups : Re → Nat
  | .cat a b => a.numGroups + b.numGroups
  | .alt a b => a.numGroups + b.numGroups
  | .group _ a => a.numGroups + 1
  | _ => 0

/-- Greedy repetition of a class with backtracking: the longest run is tried
first, then shorter ones. -/
def manyK {R : Type} (p : Nat → Bool) (k : List Tok → Option R) : List Tok → Option R
  | [] => k []
  | t :: ts =>
    if p t.rune then (manyK p k ts).orElse (fun _ => k (t :: ts)) else k (t :: ts)

/-- Backtracking matcher in continuation-passing style.  `n` is the number of
runes of the whole text (so that `^` can recognise position 0), the list is the
text from the current position on, and the association list holds the groups
captured so far, most recent first. -/
def Re.run {R : Type} (n : Nat) :
    Re → List Tok → List (Nat × GoString) →
      (List Tok → List (Nat × GoString) → Option R) → Option R
  | .empty, s, c, k => k s c
  | .cls _, [], _, _ => none
  | .cls p, t :: ts, c, k => if p t.rune then k ts c else none
  | .many p, s, c, k => manyK p (fun s1 => k s1 c) s
  | .cat a b, s, c, k => a.run n s c (fun s1 c1 => b.run n s1 c1 k)
  | .alt a b, s, c, k => (a.run n s c k).orElse (fun _ => b.run n s c k)
  | .group i a, s, c, k =>
    a.run n s c (fun s1 c1 => k s1 ((i, unrunes (s.take (s.length - s1.length))) :: c1))
  | .bot, s, c, k => if s.length = n then k s c else none
  | .eot, s, c, k => if s.isEmpty then k s c else none

/-- The preferred match of a pattern starting exactly at the current position:
the text after the match and the captured groups. -/
def Re.matchHere (re : Re) (n : Nat) (s : List Tok) :
    Option (List Tok × List (Nat × GoString)) :=
  re.run n s [] (fun s1 c1 => some (s1, c1))

/-- The submatch slice of a match that starts at `s` and ends at `m.1`: the whole
match followed by the groups 1, 2, ... (an unset group is the empty string). -/
def submatches (re : Re) (s : List Tok) (m : List Tok × List (Nat × GoString)) :
    List GoString :=
  unrunes (s.take (s.length - m.1.length)) ::
    (List.range re.numGroups).map (fun i => ((m.2.lookup (i + 1)).getD []))

/-- Leftmost match search over the start positions of the text. -/
def Re.findFrom (re : Re) (n : Nat) : List Tok → List GoString
  | [] =>
    match re.matchHere n [] with
    | some m => submatches re [] m
    | none => []
  | t :: ts =>
    match re.matchHere n (t :: ts) with
    | some m => submatches re (t :: ts) m
    | none => re.findFrom n ts

/-- The leftmost match and its groups, as `(*Regexp).FindStringSubmatch`; the empty
list stands for the nil slice returned when there is no match. -/
def Re.FindStringSubmatch (re : Re) (s : GoString) : List GoString :=
  re.findFrom (runes s).length (runes s)

/-- Worker of `ReplaceAllString`.  The counter is the number of runes of the
current match still to be passed over; the flag records that the previous match
ended at the current position (an empty match there is not replaced again). -/
def Re.replaceFrom (re : Re) (n : Nat) (repl : GoString) :
    Nat → Bool → List Tok → GoString
  | _, prevEnd, [] =>
    match re.matchHere n [] with
    | some _ => if prevEnd then [] else repl
    | none => []
  | k + 1, prevEnd, _ :: ts => re.replaceFrom n repl k prevEnd ts
  | 0, prevEnd, t :: ts =>
    match re.matchHere n (t :: ts) with
    | none => t.src ++ re.replaceFrom n repl 0 false ts
    | some m =>
      if (t :: ts).length - m.1.length = 0 then
        (if prevEnd then [] else repl) ++ t.src ++ re.replaceFrom n repl 0 false ts
      else repl ++ re.replaceFrom n repl ((t :: ts).length - m.1.length - 1) true ts

/-- Replacement of every match by a template without `$` references, as
`(*Regexp).ReplaceAllString`. -/
def Re.ReplaceAllString (re : Re) (src repl : GoString) : GoString :=
  re.replaceFrom (runes src).length repl 0 false (runes src)

/-- The class `\w` of Go's `regexp` syntax: `[0-9A-Za-z_]`. -/
def isWordChar (r : Nat) : Bool :=
  (decide (48 ≤ r) && decide (r ≤ 57)) || (decide (65 ≤ r) && decide (r ≤ 90))
    || (decide (97 ≤ r) && decide (r ≤ 122)) || r == 95

/-- The class `\s` of Go's `regexp` syntax: `[\t\n\f\r ]`. -/
def isPerlSpace (r : Nat) : Bool :=
  r == 9 || r == 10 || r == 12 || r == 13 || r == 32

/-! ## packages `fmt` and `encoding/json` -/

/-- Decimal digits of a natural number as ASCII bytes. -/
def natDigits (n : Nat) : GoString := (Nat.toDigits 10 n).map Char.toNat

/-- Decimal rendering of an integer, what `fmt.Sprint` prints for an `int64`. -/
def Sprint (x : Int) : GoString :=
  if x < 0 then 45 :: natDigits x.natAbs else natDigits x.natAbs

/-- Lower-case hexadecimal digit as an ASCII byte. -/
def hexDigit (n : Nat) : Nat := if n < 10 then 48 + n else 87 + n

/-- The escaped form of one decoded rune inside a JSON string, following
`appendString` of `encoding/json` with HTML escaping on (the default of
`json.Marshal`): ASCII bytes other than `"`, `&`, `<`, `>`, `\` and the control
characters are copied, the named control characters get their two-byte escape,
the remaining ASCII bytes become a `u00XX` escape, an undecodable byte becomes the
escape `ufffd`, U+2028 and U+2029 become the escapes `u2028` and `u2029` (each
escape preceded by a backslash), every other rune is copied.  Backspace and form
feed get the short escapes of Go 1.22 and later. -/
def escapeTok (t : Tok) : GoString :=
  match t.src with
  | [b] =>
    if b < 0x80 then
      if 0x20 ≤ b ∧ b ≠ 34 ∧ b ≠ 38 ∧ b ≠ 60 ∧ b ≠ 62 ∧ b ≠ 92 then [b]
      else if b = 92 ∨ b = 34 then [92, b]
      else if b = 8 then [92, 98]
      else if b = 12 then [92, 102]
      else if b = 10 then [92, 110]
      else if b = 13 then [92, 114]
      else if b = 9 then [92, 116]
      else [92, 117, 48, 48, hexDigit (b / 16), hexDigit (b % 16)]
    else [92, 117, 102, 102, 102, 100]
  | bs =>
    if t.rune = 0x2028 ∨ t.rune = 0x2029 then [92, 117, 50, 48, 50, hexDigit (t.rune % 16)]
    else bs

/-- JSON encoding of a Go string value, `json.Marshal(s)`: the escaped runes between
two double quotes.  Encoding a string has no failure case, the result is always
`Except.ok`. -/
def Marshal (s : GoString) : Except GoString GoString :=
  Except.ok ([34] ++ (runes s).flatMap escapeTok ++ [34])

/-! ## package `time` -/

/-- A `time.Time`: the instant as seconds and nanoseconds since the Unix epoch, and
the offset east of UTC (in seconds) that the value's location has at that instant. -/
structure Time where
  sec : Int
  nsec : Nat
  offset : Int
deriving DecidableEq

/-- Milliseconds since the Unix epoch, `Time.UnixMilli`. -/
def Time.UnixMilli (t : Time) : Int := t.sec * 1000 + (t.nsec / 1000000 : Nat)

/-- Leap years of the proleptic Gregorian calendar. -/
def isLeap (year : Int) : Bool :=
  decide (year % 4 = 0) && (decide (year % 100 ≠ 0) || decide (year % 400 = 0))

/-- Number of days of a month, `daysIn`. -/
def daysIn (month : Nat) (year : Int) : Nat :=
  if month = 2 then (if isLeap year then 29 else 28)
  else if month = 4 ∨ month = 6 ∨ month = 9 ∨ month = 11 then 30
  else 31

/-- Days from 1970-01-01 to the given civil date of the proleptic Gregorian
calendar. -/
def daysFromCivil (year : Int) (month day : Nat) : Int :=
  let y : Int := if month ≤ 2 then year - 1 else year
  let era : Int := y / 400
  let yoe : Int := y - era * 400
  let mp : Int := if 2 < month then (month : Int) - 3 else (month : Int) + 9
  let doy : Int := (153 * mp + 2) / 5 + (day : Int) - 1
  let doe : Int := yoe * 365 + yoe / 4 - yoe / 100 + doy
  era * 146097 + doe - 719468

/-- Civil date (year, month, day) of a day number counted from 1970-01-01. -/
def civilFromDays (days : Int) : Int × Nat × Nat :=
  let z : Int := days + 719468
  let era : Int := z / 146097
  let doe : Int := z - era * 146097
  let yoe : Int := (doe - doe / 1460 + doe / 36524 - doe / 146096) / 365
  let doy : Int := doe - (365 * yoe + yoe / 4 - yoe / 100)
  let mp : Int := (5 * doy + 2) / 153
  let d : Int := doy - (153 * mp + 2) / 5 + 1
  let m : Int := if mp < 10 then mp + 3 else mp - 9
  ((if m ≤ 2 then yoe + era * 400 + 1 else yoe + era * 400), m.toNat, d.toNat)

/-- The instant of a civil date and time of day at a given offset east of UTC,
`time.Date` for in-range fields. -/
def Date (year : Int) (month day hour min sec nsec : Nat) (offset : Int) : Time :=
  { sec := daysFromCivil year month day * 86400 + (hour * 3600 + min * 60 + sec : Nat) - offset
    nsec := nsec
    offset := offset }

/-- Decimal rendering padded with zeros to a minimal width, `appendInt`. -/
def appendInt (x : Int) (width : Nat) : GoString :=
  (if x < 0 then [45] else []) ++
    List.replicate (width - (natDigits x.natAbs).length) 48 ++ natDigits x.natAbs

/-- Rendering of a time with the layout `2006-01-02`, `Time.Format`: year, month
and day of the date the instant has in the value's location. -/
def Time.Format (t : Time) : GoString :=
  let c := civilFromDays ((t.sec + t.offset) / 86400)
  appendInt c.1 4 ++ [45] ++ appendInt c.2.1 2 ++ [45] ++ appendInt c.2.2 2

/-- The elements of a parse layout, as cut out by `nextStdChunk`. -/
inductive Chunk where
  /-- Literal text between two elements. -/
  | lit : GoString → Chunk
  /-- `2006`. -/
  | stdLongYear : Chunk
  /-- `01`. -/
  | stdZeroMonth : Chunk
  /-- `02`. -/
  | stdZeroDay : Chunk
  /-- `15`. -/
  | stdHour : Chunk
  /-- `04`. -/
  | stdZeroMinute : Chunk
  /-- `05`. -/
  | stdZeroSecond : Chunk
  /-- `-0700`. -/
  | stdNumTZ : Chunk
  /-- `-07:00`. -/
  | stdNumColonTZ : Chunk
  /-- `Z07:00`. -/
  | stdISO8601ColonTZ : Chunk

/-- The fields collected while parsing; `zoneOffset` is `none` until a zone
element has been read. -/
structure Fields where
  year : Nat := 0
  month : Nat := 0
  day : Nat := 0
  hour : Nat := 0
  min : Nat := 0
  sec : Nat := 0
  nsec : Nat := 0
  zoneOffset : Option Int := none

/-- An ASCII decimal digit. -/
def isDigit (b : Nat) : Bool := decide (48 ≤ b) && decide (b ≤ 57)

/-- One or two leading digits as a number, with the rest of the text; `fixed`
demands two digits (`getnum`). -/
def getnum (s : GoString) (fixed : Bool) : Option (Nat × GoString) :=
  match s with
  | a :: b :: rest =>
    if isDigit a then
      if isDigit b then some ((a - 48) * 10 + (b - 48), rest)
      else if fixed then none else some (a - 48, b :: rest)
    else none
  | [a] => if isDigit a && !fixed then some (a - 48, []) else none
  | [] => none

/-- Value of a string of decimal digits, `none` if it is empty or has another byte
(`atoi` on unsigned text). -/
def atoiDigits (s : GoString) : Option Nat :=
  if s ≠ [] ∧ s.all isDigit = true then some (s.foldl (fun acc b => acc * 10 + (b - 48)) 0)
  else none

/-- Matching of literal layout text against the value (`skip`): a run of spaces
in the layout matches a run of spaces in the value, which may only be empty at the
end of the value; any other byte must match exactly.  The flag tells that the
preceding layout byte was a space. -/
def skipAux : Bool → GoString → GoString → Option GoString
  | _, [], v => some v
  | sp, p :: ps, v =>
    if p = 32 then
      if sp then skipAux true ps v
      else
        match v with
        | c :: _ => if c ≠ 32 then none else skipAux true ps (v.dropWhile (fun b => b == 32))
        | [] => skipAux true ps []
    else
      match v with
      | c :: vs => if c = p then skipAux false ps vs else none
      | [] => none

/-- Nanoseconds of a fractional second `value[0:nbytes]` that starts with a period
or comma followed by digits (`parseNanoseconds`). -/
def parseNanoseconds (value : GoString) (nbytes : Nat) : Option Nat :=
  let nb := if 10 < nbytes then 10 else nbytes
  match atoiDigits ((value.take nb).drop 1) with
  | some ns => some (ns * 10 ^ (10 - nb))
  | none => none

/-- A numeric zone offset `±hh` `mm`, in seconds; hours up to 24 and minutes up to
60 are accepted. -/
def zoneOffsetOf (sign : Nat) (hour min : GoString) : Option Int :=
  match getnum hour true, getnum min true with
  | some (hr, _), some (mm, _) =>
    if 24 < hr ∨ 60 < mm then none
    else if sign = 43 then some (((hr * 60 + mm) * 60 : Nat) : Int)
    else if sign = 45 then some (-(((hr * 60 + mm) * 60 : Nat) : Int))
    else none
  | _, _ => none

/-- Parsing of one layout element at the head of the value (the body of the loop of
`parse`): the updated fields and the rest of the value, or `none` on any error.
A fractional second after the seconds is accepted although the layouts have none,
with a period or a comma as in Go 1.17 and later. -/
def parseChunk (c : Chunk) (value : GoString) (f : Fields) : Option (Fields × GoString) :=
  match c with
  | .lit p => (skipAux false p value).map (fun v => (f, v))
  | .stdLongYear =>
    if value.length < 4 then none
    else (atoiDigits (value.take 4)).map (fun y => ({ f with year := y }, value.drop 4))
  | .stdZeroMonth =>
    match getnum value true with
    | some (m, v) => if m = 0 ∨ 12 < m then none else some ({ f with month := m }, v)
    | none => none
  | .stdZeroDay => (getnum value true).map (fun r => ({ f with day := r.1 }, r.2))
  | .stdHour =>
    match getnum value false with
    | some (h, v) => if 24 ≤ h then none else some ({ f with hour := h }, v)
    | none => none
  | .stdZeroMinute =>
    match getnum value true with
    | some (m, v) => if 60 ≤ m then none else some ({ f with min := m }, v)
    | none => none
  | .stdZeroSecond =>
    match getnum value true with
    | some (s, v) =>
      if 60 ≤ s then none
      else
        match v with
        | c0 :: c1 :: _ =>
          if (c0 = 46 ∨ c0 = 44) ∧ isDigit c1 = true then
            let n := 1 + ((v.drop 1).takeWhile isDigit).length
            (parseNanoseconds v n).map (fun ns => ({ f with sec := s, nsec := ns }, v.drop n))
          else some ({ f with sec := s }, v)
        | _ => some ({ f with sec := s }, v)
    | none => none
  | .stdNumTZ =>
    if value.length < 5 then none
    else
      (zoneOffsetOf (value.headD 0) ((value.drop 1).take 2) ((value.drop 3).take 2)).map
        (fun z => ({ f with zoneOffset := some z }, value.drop 5))
  | .stdNumColonTZ =>
    if value.length < 6 then none
    else if (value.drop 3).headD 0 ≠ 58 then none
    else
      (zoneOffsetOf (value.headD 0) ((value.drop 1).take 2) ((value.drop 4).take 2)).map
        (fun z => ({ f with zoneOffset := some z }, value.drop 6))
  | .stdISO8601ColonTZ =>
    if value.headD 0 = 90 ∧ value ≠ [] then some ({ f with zoneOffset := some 0 }, value.drop 1)
    else if value.length < 6 then none
    else if (value.drop 3).headD 0 ≠ 58 then none
    else
      (zoneOffsetOf (value.headD 0) ((value.drop 1).take 2) ((value.drop 4).take 2)).map
        (fun z => ({ f with zoneOffset := some z }, value.drop 6))

/-- The loop of `parse` over the elements of the layout; at the end of the layout
no text may be left over. -/
def parseChunks : List Chunk → GoString → Fields → Option Fields
  | [], value, f => if value = [] then some f else none
  | c :: cs, value, f =>
    match parseChunk c value f with
    | some (f1, v1) => parseChunks cs v1 f1
    | none => none

/-- Parsing of a time under a layout, `time.Parse`: the fields are read element by
element, the day is validated against the month, and the instant is the civil time
read minus the zone offset read (UTC when the layout has no zone element). -/
def Parse (layout : List Chunk) (value : GoString) : Option Time :=
  match parseChunks layout value {} with
  | some f =>
    if f.day < 1 ∨ daysIn f.month f.year < f.day then none
    else some (Date f.year f.month f.day f.hour f.min f.sec f.nsec (f.zoneOffset.getD 0))
  | none => none

/-- The date part `2006-01-02T15:04:05` and variants share these elements. -/
def dateTimeChunks (dateSep : Nat) : List Chunk :=
  [.stdLongYear, .lit [45], .stdZeroMonth, .lit [45], .stdZeroDay, .lit [dateSep],
   .stdHour, .lit [58], .stdZeroMinute, .lit [58], .stdZeroSecond]

/-- The layout `time.RFC3339`, `2006-01-02T15:04:05Z07:00`. -/
def RFC3339 : List Chunk := dateTimeChunks 84 ++ [.stdISO8601ColonTZ]

/-- The layout `2006-01-02 15:04:05 -0700 CET`. -/
def layoutCET : List Chunk := dateTimeChunks 32 ++ [.lit [32], .stdNumTZ, .lit (str " CET")]

/-- The layout `2006-01-02 15:04:05 -0700 CEST`. -/
def layoutCEST : List Chunk := dateTimeChunks 32 ++ [.lit [32], .stdNumTZ, .lit (str " CEST")]

/-- The layout `2006-01-02T15:04:05-07:00`. -/
def layoutOffset : List Chunk := dateTimeChunks 84 ++ [.stdNumColonTZ]

/-! ## `main.go` -/

/-- The constant `DIRECTORY`. -/
def DIRECTORY : GoString := str "./content/content"

/-- The constant `USE_FILENAME_AS_URL`. -/
def USE_FILENAME_AS_URL : Bool := false

/-- The struct `PostRequest`; its zero value has every field empty. -/
structure PostRequest where
  filename : GoString := []
  date : GoString := []
  title : GoString := []
  content : GoString := []
  status : GoString := []
  url : GoString := []
deriving DecidableEq

/-- The slice expression `s[lo:hi]`. -/
def slice (s : GoString) (lo hi : Nat) : GoString := (s.take hi).drop lo

/-- The pattern `[^\w\s-]`. -/
def whitespaceRegex : Re := Re.cls (fun r => !(isWordChar r || isPerlSpace r || r == 45))

/-- The pattern `[\s_-]+`. -/
def hyphenRegex : Re := Re.many1 (fun r => isPerlSpace r || r == 95 || r == 45)

/-- The pattern `^-+|-+$`. -/
def duplicateRegex : Re :=
  Re.alt (Re.cat Re.bot (Re.many1 (fun r => r == 45))) (Re.cat (Re.many1 (fun r => r == 45)) Re.eot)

/-- The slug computed by the title branch of `generateUrl` before the length test
(source lines 53 to 61). -/
def cleanSlug (caseTable : Nat → Nat) (title : GoString) : GoString :=
  let slug := ToLower caseTable title
  let slug := TrimSpace slug
  let slug := ReplaceAll slug (str "ü") (str "ue")
  let slug := ReplaceAll slug (str "ä") (str "ae")
  let slug := ReplaceAll slug (str "ö") (str "öe")
  let slug := ReplaceAll slug (str "ß") (str "ss")
  let slug := whitespaceRegex.ReplaceAllString slug []
  let slug := hyphenRegex.ReplaceAllString slug (str "-")
  duplicateRegex.ReplaceAllString slug []

/-- The function `generateUrl`, with the constant `USE_FILENAME_AS_URL` it reads
passed as the first argument. -/
def generateUrlWith (useFilenameAsUrl : Bool) (caseTable : Nat → Nat)
    (time : Time) (title filename : GoString) : GoString :=
  if useFilenameAsUrl then
    let splitFilename := Split filename (str ".")
    let splitFilename := splitFilename.take (splitFilename.length - 1)
    Join splitFilename (str ".")
  else
    let slug := cleanSlug caseTable title
    if slug.length < 40 then
      time.Format ++ str "-" ++ slug
    else
      let splitSlug := Split (slice slug 0 40) (str "-")
      let splitSlug := splitSlug.take (splitSlug.length - 1)
      time.Format ++ str "-" ++ Join splitSlug (str "-")

/-- The function `generateUrl` as compiled, with `USE_FILENAME_AS_URL = false`. -/
def generateUrl (caseTable : Nat → Nat) (time : Time) (title filename : GoString) : GoString :=
  generateUrlWith USE_FILENAME_AS_URL caseTable time title filename

/-- The pattern `date *= *"?([^"\n]+)"?`. -/
def dateRegex : Re :=
  Re.word (str "date") (Re.cat (Re.many (fun r => r == 32)) (Re.cat (Re.lit 61)
    (Re.cat (Re.many (fun r => r == 32)) (Re.cat (Re.opt (Re.lit 34))
      (Re.cat (Re.group 1 (Re.many1 (fun r => !(r == 34 || r == 10)))) (Re.opt (Re.lit 34)))))))

/-- The pattern `title *= *"([^"]+)"`. -/
def titleRegex : Re :=
  Re.word (str "title") (Re.cat (Re.many (fun r => r == 32)) (Re.cat (Re.lit 61)
    (Re.cat (Re.many (fun r => r == 32)) (Re.cat (Re.lit 34)
      (Re.cat (Re.group 1 (Re.many1 (fun r => !(r == 34)))) (Re.lit 34))))))

/-- The pattern `draft *= *([^\n]+)`. -/
def draftRegex : Re :=
  Re.word (str "draft") (Re.cat (Re.many (fun r => r == 32)) (Re.cat (Re.lit 61)
    (Re.cat (Re.many (fun r => r == 32)) (Re.group 1 (Re.many1 (fun r => !(r == 10)))))))

/-- The file system as the program sees it: the listing of `DIRECTORY` (entry
names in listing order) and the content of a file by path, each with the error
text of a failed call. -/
structure FileSystem where
  ReadDir : GoString → Except GoString (List GoString)
  ReadFile : GoString → Except GoString GoString

/-- A line written by `fmt.Println`: the operands separated by single spaces. -/
def Println (args : List GoString) : GoString := Join args (str " ")

/-- The result of `validateItem`: the returned `PostRequest`, the returned error
(`none` for nil) and the lines printed during the call. -/
structure Validated where
  post : PostRequest
  err : Option GoString
  out : List GoString
deriving DecidableEq

/-- The date parsing step of `validateItem` (source lines 125 to 133): the layout is
chosen by the suffix of the matched text. -/
def parseDate (d : GoString) : Option Time :=
  if HasSuffix d (str "Z") then Parse RFC3339 d
  else if HasSuffix d (str "CET") then Parse layoutCET d
  else if HasSuffix d (str "CEST") then Parse layoutCEST d
  else Parse layoutOffset d

/-- The function `validateItem`; the directory entry is given by its name. -/
def validateItem (fs : FileSystem) (caseTable : Nat → Nat) (item : GoString) : Validated :=
  let postRequest : PostRequest := { filename := item }
  match fs.ReadFile (str "./content/content/" ++ item) with
  | .error e => ⟨postRequest, some e, []⟩
  | .ok file =>
    let fileContent := TrimSpace (Trim (TrimSpace file) (str "+"))
    let split := Split fileContent (str "+++")
    let header := split.headD []
    let body := split.drop 1
    let titleMatch := titleRegex.FindStringSubmatch header
    if titleMatch.length < 2 then
      -- `return postRequest, err` with the nil `err` left by `os.ReadFile`
      ⟨postRequest, none, [Println [str "Could not match title for", item]]⟩
    else
      let title := TrimSpace (titleMatch.getD 1 [])
      if title = [] then ⟨postRequest, some (str "Could not read title"), []⟩
      else
        let draftMatch := draftRegex.FindStringSubmatch header
        let status :=
          if 1 < draftMatch.length ∧ draftMatch.getD 1 [] = str "true" then str "draft"
          else str "published"
        let dateMatch := dateRegex.FindStringSubmatch header
        if dateMatch.length < 2 then ⟨postRequest, some (str "Could not match date"), []⟩
        else
          match parseDate (dateMatch.getD 1 []) with
          | none => ⟨postRequest, some (str "Could not parse time"), []⟩
          | some t =>
            if t.UnixMilli < 1000 then ⟨postRequest, some (str "Could not parse time"), []⟩
            else
              match Marshal title with
              | .error _ => ⟨postRequest, some (str "Could not marshal title"), []⟩
              | .ok titleMarshal =>
                match Marshal (TrimSpace (Join body (str "+++"))) with
                | .error _ => ⟨postRequest, some (str "Could not marshal content"), []⟩
                | .ok contentMarshal =>
                  let title := titleMarshal
                  let content := contentMarshal
                  let postRequest := { postRequest with title := slice title 1 (title.length - 1) }
                  let postRequest :=
                    { postRequest with content := slice content 1 (content.length - 1) }
                  let postRequest := { postRequest with status := status }
                  let postRequest := { postRequest with date := Sprint t.UnixMilli }
                  let postRequest :=
                    { postRequest with
                      url := generateUrl caseTable t postRequest.title postRequest.filename }
                  ⟨postRequest, none, []⟩

/-- What `client.Do` returned: a nil error, or a non-nil error together with the
response, which is nil (`none`) or has a body that `io.ReadAll` reads or fails on. -/
inductive DoResult where
  | ok : DoResult
  | failed : Option (Except GoString GoString) → DoResult

/-- The network and the JSON indenter as the program sees them: whether
`http.NewRequest` fails for a body, what the `n`-th call of `client.Do` returns for
a body, and the result of `json.Indent` (`none` for an error). -/
structure Net where
  NewRequestFails : GoString → Bool
  Do : Nat → GoString → DoResult
  Indent : GoString → Option GoString

/-- The function `formatJSON`. -/
def formatJSON (net : Net) (data : GoString) : Except GoString GoString :=
  match net.Indent data with
  | none => .error (str "invalid JSON")
  | some out => .ok out

/-- The request body assembled for a record (source lines 190 to 195). -/
def payload (p : PostRequest) : GoString :=
  str "\x7b\n\t\t\t\"title\": \"" ++ p.title ++ str "\",\n\t\t\t\"status\": \"" ++ p.status
    ++ str "\",\n\t\t\t\"date\": " ++ p.date ++ str ",\n\t\t\t\"url\": \"" ++ p.url
    ++ str "\"\n\t\t\x7d"

/-- The observable behaviour of a run of the program: exit code (2 for a run-time
panic), the lines printed, the bodies of the requests built by `http.NewRequest`
and of those handed to `client.Do`, in order. -/
structure Run where
  exit : Nat
  out : List GoString
  built : List GoString
  sent : List GoString
deriving DecidableEq

/-- State of the first loop of `main`. -/
structure Scan where
  hasError : Bool := false
  postRequests : List PostRequest := []
  out : List GoString := []

/-- The first loop of `main` (source lines 174 to 183). -/
def scanLoop (fs : FileSystem) (caseTable : Nat → Nat) : List GoString → Scan → Scan
  | [], st => st
  | item :: items, st =>
    let v := validateItem fs caseTable item
    match v.err with
    | some err =>
      scanLoop fs caseTable items
        { st with
          hasError := true
          out := st.out ++ v.out ++ [Println [str "Error in file", v.post.filename, err]] }
    | none =>
      scanLoop fs caseTable items
        { st with postRequests := st.postRequests ++ [v.post], out := st.out ++ v.out }

/-- The second loop of `main` (source lines 189 to 223), started from the run
observed so far.  Reading the body of a nil response is a nil dereference, which
ends the program. -/
def submitLoop (net : Net) : List PostRequest → Run → Run
  | [], r => r
  | p :: ps, r =>
    if net.NewRequestFails (payload p) then
      submitLoop net ps { r with out := r.out ++ [Println [str "Could not create request for", p.filename]] }
    else
      let r := { r with built := r.built ++ [payload p] }
      let res := net.Do r.sent.length (payload p)
      let r := { r with sent := r.sent ++ [payload p] }
      match res with
      | .ok => submitLoop net ps r
      | .failed none => { r with exit := 2 }
      | .failed (some (.error _)) =>
        submitLoop net ps { r with out := r.out ++ [Println [str "Could not POST for", p.filename]] }
      | .failed (some (.ok responseBody)) =>
        match formatJSON net responseBody with
        | .error _ =>
          submitLoop net ps
            { r with out := r.out ++ [Println [str "Could not parse response body for", p.filename]] }
        | .ok formattedData =>
          submitLoop net ps
            { r with out := r.out ++ [Println [str "Response for", p.filename, formattedData]] }

/-- The function `main`. -/
def main (fs : FileSystem) (caseTable : Nat → Nat) (net : Net) : Run :=
  match fs.ReadDir DIRECTORY with
  | .error _ => ⟨1, [Println [str "Could not read directory", DIRECTORY]], [], []⟩
  | .ok items =>
    let st := scanLoop fs caseTable items {}
    if st.hasError then ⟨1, st.out, [], []⟩
    else submitLoop net st.postRequests ⟨0, st.out, [], []⟩

/-! ## Intermediate values of `validateItem`, named for the statements below -/

/-- The cleaned file content (source lines 88 to 91). -/
def cleanContent (file : GoString) : GoString := TrimSpace (Trim (TrimSpace file) (str "+"))

/-- The header, `split[0]` (source lines 94 and 95). -/
def headerOf (file : GoString) : GoString := (Split (cleanContent file) (str "+++")).headD []

/-- The trimmed body that is marshalled (source line 147). -/
def bodyOf (file : GoString) : GoString :=
  TrimSpace (Join ((Split (cleanContent file) (str "+++")).drop 1) (str "+++"))

/-- The result of the title pattern on the header (source line 98). -/
def titleMatchOf (file : GoString) : List GoString := titleRegex.FindStringSubmatch (headerOf file)

/-- The trimmed title (source line 104). -/
def titleOf (file : GoString) : GoString := TrimSpace ((titleMatchOf file).getD 1 [])

/-- The result of the draft pattern on the header (source line 110). -/
def draftMatchOf (file : GoString) : List GoString := draftRegex.FindStringSubmatch (headerOf file)

/-- The result of the date pattern on the header (source line 118). -/
def dateMatchOf (file : GoString) : List GoString := dateRegex.FindStringSubmatch (headerOf file)

/-- The text between the quotes of a marshalled string (source lines 154 and 155). -/
def jsonEscape (s : GoString) : GoString := (runes s).flatMap escapeTok

/-- The status computed on source lines 112 to 115. -/
def statusOf (file : GoString) : GoString :=
  if 1 < (draftMatchOf file).length ∧ (draftMatchOf file).getD 1 [] = str "true" then str "draft"
  else str "published"

/-! ## Concrete inputs used by the statements below -/

/-- A file system whose directory holds the single entry `f` with the given content. -/
def oneFile (content : GoString) : FileSystem :=
  ⟨fun _ => .ok [str "f"], fun _ => .ok content⟩

/-- The example file of the specification. -/
def helloFile : GoString :=
  str "+++\ntitle = \"Hello World\"\ndate = \"2023-05-01T12:00:00Z\"\ndraft = false\n+++\nSome content"

/-- A well-formed file without a title field. -/
def untitledFile : GoString :=
  str "+++\ndate = \"2023-05-01T12:00:00Z\"\ndraft = false\n+++\nSome content"

/-- A well-formed file whose title contains an ampersand. -/
def ampersandFile : GoString :=
  str "+++\ntitle = \"Tom & Jerry\"\ndate = \"2023-05-01T12:00:00Z\"\n+++\nSome content"

/-- A well-formed file dated one second after the epoch. -/
def epochFile : GoString :=
  str "+++\ntitle = \"Early\"\ndate = \"1970-01-01T00:00:01Z\"\n+++\nSome content"

/-- The case table that leaves every rune unchanged. -/
def noCase : Nat → Nat := fun r => r

/-- The lines the first loop of `main` prints for one entry: those of
`validateItem`, then the error line if the call returned an error. -/
def scanLines (fs : FileSystem) (caseTable : Nat → Nat) (item : GoString) : List GoString :=
  (validateItem fs caseTable item).out ++
    (match (validateItem fs caseTable item).err with
     | some err => [Println [str "Error in file", (validateItem fs caseTable item).post.filename, err]]
     | none => [])

/-- A file with a title and no date field. -/
def undatedFile : GoString := str "+++\ntitle = \"No date\"\n+++\nSome content"

/-- A directory with the entries `a`, `b`, `c`: `b` has no date field, the other two
hold the example file. -/
def threeFiles : FileSystem :=
  ⟨fun _ => .ok [str "a", str "b", str "c"],
   fun p => if p = str "./content/content/b" then .ok undatedFile else .ok helloFile⟩

/-- A directory with the entries `a` and `c`, both holding the example file. -/
def twoFiles : FileSystem :=
  ⟨fun _ => .ok [str "a", str "c"], fun _ => .ok helloFile⟩

/-- A network on which every request is built and answered without error. -/
def quietNet : Net := ⟨fun _ => false, fun _ _ => .ok, fun _ => none⟩

/-- The year of the date a time has in its location, the one `Format` prints. -/
def Time.year (t : Time) : Int := (civilFromDays ((t.sec + t.offset) / 86400)).1

/-- The bytes allowed in a slug: `a` to `z`, `0` to `9` and the hyphen. -/
def isSlugByte (b : Nat) : Bool :=
  (decide (97 ≤ b) && decide (b ≤ 122)) || (decide (48 ≤ b) && decide (b ≤ 57)) || b == 45

/-- A fragment of the Unicode case tables: the Latin-1 capitals, the Kelvin sign and
the dotted capital I; every other rune is left unchanged. -/
def latin1Case : Nat → Nat := fun r =>
  if (0xC0 ≤ r ∧ r ≤ 0xDE) ∧ r ≠ 0xD7 then r + 32
  else if r = 0x212A then 0x6B
  else if r = 0x130 then 0x69
  else r

/-- A network on which every call of `client.Do` fails without a response, as it
does for an unreachable host or for the empty `ENDPOINT`. -/
def refusingNet : Net := ⟨fun _ => false, fun _ _ => .failed none, fun _ => none⟩

/-- The record `validateItem` returns for the example file under a given name. -/
def helloRecord (name : GoString) : PostRequest :=
  { filename := name
    title := str "Hello World"
    status := str "published"
    date := str "1682942400000"
    url := str "2023-05-01-hello-world"
    content := str "Some content" }

/-- A well-formed fenced file whose body ends in `C++`. -/
def cppFile : GoString :=
  str "+++\ntitle = \"Languages\"\ndate = \"2023-05-01T12:00:00Z\"\n+++\nI like C++"

/-- The part of a title-mode url after the date and its hyphen (source lines 63
to 70). -/
def slugPart (caseTable : Nat → Nat) (title : GoString) : GoString :=
  if (cleanSlug caseTable title).length < 40 then cleanSlug caseTable title
  else
    Join ((Split (slice (cleanSlug caseTable title) 0 40) (str "-")).take
      ((Split (slice (cleanSlug caseTable title) 0 40) (str "-")).length - 1)) (str "-")

/-- The two decimal digits of a number below 100. -/
def pad2 (n : Nat) : GoString := [48 + n / 10, 48 + n % 10]

/-- The four decimal digits of a number below 10000. -/
def pad4 (n : Nat) : GoString := [48 + n / 1000, 48 + n / 100 % 10, 48 + n / 10 % 10, 48 + n % 10]

/-- The date text `YYYY-MM-DD HH:MM:SS ±HHMM ZONE` written from its field values. -/
def zonedText (y mo d h mi s : Nat) (minus : Bool) (oh om : Nat) (zone : GoString) : GoString :=
  pad4 y ++ [45] ++ pad2 mo ++ [45] ++ pad2 d ++ [32] ++ pad2 h ++ [58] ++ pad2 mi ++ [58]
    ++ pad2 s ++ [32] ++ [if minus then 45 else 43] ++ pad2 oh ++ pad2 om ++ [32] ++ zone

/-- The offset in seconds east of UTC written as `±HHMM`. -/
def writtenOffset (minus : Bool) (oh om : Nat) : Int :=
  if minus then -(((oh * 60 + om) * 60 : Nat) : Int) else (((oh * 60 + om) * 60 : Nat) : Int)

/-- A text without its leading white-space runes (`strings.TrimLeftFunc` with
`unicode.IsSpace`). -/
def trimLeftSpace (s : GoString) : GoString :=
  unrunes ((runes s).dropWhile (fun t => isSpace t.rune))

/-- A text without its trailing white-space runes. -/
def trimRightSpace (s : GoString) : GoString :=
  unrunes (((runes s).reverse.dropWhile (fun t => isSpace t.rune)).reverse)

/-- The file content `+++` H `+++` B. -/
def fenced (H B : GoString) : GoString := str "+++" ++ H ++ str "+++" ++ B

/-- The rune `+` as decoded from its byte. -/
def plusTok : Tok := ⟨43, [43]⟩

/-- The text between the fences of the example file. -/
def helloHeader : GoString :=
  str "\ntitle = \"Hello World\"\ndate = \"2023-05-01T12:00:00Z\"\ndraft = false\n"

/-- The text after the closing fence of the example file. -/
def helloBody : GoString := str "\nSome content"

/-- A body that itself contains the delimiter. -/
def nestedBody : GoString := str "\nfirst +++ second +++ third\n"

/-! ## Reading a JSON string literal (RFC 8259, section 7) -/

/-- Value of a hexadecimal digit of either case. -/
def hexVal (b : Nat) : Option Nat :=
  if 48 ≤ b ∧ b ≤ 57 then some (b - 48)
  else if 97 ≤ b ∧ b ≤ 102 then some (b - 87)
  else if 65 ≤ b ∧ b ≤ 70 then some (b - 55)
  else none

/-- The escape that follows a backslash: the bytes it stands for and the number of
bytes it takes.  A `uXXXX` escape stands for the UTF-8 encoding of that code point;
surrogate pairs, which `json.Marshal` never writes for a string, are not combined. -/
def unescapeAt : GoString → Option (GoString × Nat)
  | [] => none
  | c :: rest =>
    if c = 117 then
      match rest with
      | a :: b :: x :: d :: _ =>
        match hexVal a, hexVal b, hexVal x, hexVal d with
        | some p, some q, some u, some v => some (encodeRune (((p * 16 + q) * 16 + u) * 16 + v), 5)
        | _, _, _, _ => none
      | _ => none
    else if c = 34 ∨ c = 92 ∨ c = 47 then some ([c], 1)
    else if c = 98 then some ([8], 1)
    else if c = 102 then some ([12], 1)
    else if c = 110 then some ([10], 1)
    else if c = 114 then some ([13], 1)
    else if c = 116 then some ([9], 1)
    else none

/-- Worker of `jsonUnquote`; the counter is the number of bytes of the current
escape still to be passed over. -/
def jsonUnquoteAux : Nat → GoString → Option GoString
  | 0, [] => some []
  | _ + 1, [] => none
  | k + 1, _ :: rest => jsonUnquoteAux k rest
  | 0, b :: rest =>
    if b = 92 then
      match unescapeAt rest with
      | some (out, k) => (jsonUnquoteAux k rest).map (fun r => out ++ r)
      | none => none
    else if b < 0x20 ∨ b = 34 then none
    else (jsonUnquoteAux 0 rest).map (fun r => b :: r)

/-- The string a JSON string literal denotes, given the text between its quotes:
raw bytes stand for themselves, escapes are decoded.  The result is `none` when the
text is not well formed: a raw control character (below 0x20), a raw double quote
or a malformed escape. -/
def jsonUnquote (s : GoString) : Option GoString := jsonUnquoteAux 0 s

/-- Valid UTF-8: no byte of the text decodes to the error rune of width 1. -/
def validUTF8 (s : GoString) : Bool :=
  (runes s).all (fun t => !(t.rune == RuneError && t.src.length == 1))

/-! # Verification -/

/-! ## Splitting and joining -/

theorem splitAux_ne_nil (sep : GoString) (k : Nat) (cur s : GoString) :
    splitAux sep k cur s ≠ [] := by
  induction s generalizing k cur with
  | nil => simp [splitAux]
  | cons b rest ih =>
    cases k with
    | zero =>
      simp only [splitAux]
      split
      · simp
      · exact ih _ _
    | succ k => simpa [splitAux] using ih k cur

theorem Join_cons_of_ne_nil (a : GoString) (l : List GoString) (sep : GoString) (h : l ≠ []) :
    Join (a :: l) sep = a ++ sep ++ Join l sep := by
  cases l with
  | nil => exact absurd rfl h
  | cons b rest => rfl

/-- Joining the pieces of a split at a single byte gives the text back. -/
theorem Join_splitAux_byte (c : Nat) (cur s : GoString) :
    Join (splitAux [c] 0 cur s) [c] = cur.reverse ++ s := by
  induction s generalizing cur with
  | nil => simp [splitAux, Join]
  | cons b rest ih =>
    simp only [splitAux, startsWith]
    by_cases hb : c = b
    · subst hb
      simp [Join_cons_of_ne_nil _ _ _ (splitAux_ne_nil _ _ _ _), ih]
    · simp [hb, ih]

/-- The last piece of a split at a single byte does not contain that byte. -/
theorem getLast_splitAux_byte (c : Nat) (cur s : GoString) (hcur : c ∉ cur) :
    c ∉ (splitAux [c] 0 cur s).getLastD [] := by
  induction s generalizing cur with
  | nil => simpa [splitAux] using hcur
  | cons b rest ih =>
    simp only [splitAux, startsWith]
    by_cases hb : c = b
    · subst hb
      have h := ih [] (by simp)
      have hne := splitAux_ne_nil [c] 0 [] rest
      simp only [List.length_singleton, Nat.sub_self, beq_self_eq_true, Bool.and_self, ↓reduceIte]
      rw [List.getLastD_cons]
      cases hs : splitAux [c] 0 [] rest with
      | nil => exact absurd hs hne
      | cons x xs => rw [hs] at h; simpa using h
    · simp only [hb, beq_iff_eq, Bool.and_true, ↓reduceIte]
      apply ih
      simp [hcur, hb]

theorem splitAux_byte_cons (c b : Nat) (cur rest : GoString) :
    splitAux [c] 0 cur (b :: rest) =
      if c = b then cur.reverse :: splitAux [c] 0 [] rest else splitAux [c] 0 (b :: cur) rest := by
  by_cases hb : c = b <;> simp [splitAux, startsWith, hb]

/-- A split at a byte that occurs in the text has at least two pieces. -/
theorem length_splitAux_byte (c : Nat) (cur s : GoString) (hc : c ∈ s) :
    2 ≤ (splitAux [c] 0 cur s).length := by
  induction s generalizing cur with
  | nil => simp at hc
  | cons b rest ih =>
    rw [splitAux_byte_cons]
    by_cases hb : c = b
    · have h0 : 0 < (splitAux [c] 0 [] rest).length :=
        List.length_pos.mpr (splitAux_ne_nil [c] 0 [] rest)
      rw [if_pos hb, List.length_cons]
      omega
    · rw [if_neg hb]
      apply ih
      simpa [hb] using hc

/-- Joining all pieces is joining all but the last, then the separator, then the
last piece. -/
theorem Join_dropLast (sep : GoString) (l : List GoString) (a : GoString) (h : l ≠ []) :
    Join (a :: l) sep = Join (a :: l).dropLast sep ++ sep ++ (a :: l).getLastD [] := by
  induction l generalizing a with
  | nil => exact absurd rfl h
  | cons b rest ih =>
    cases rest with
    | nil => simp [Join]
    | cons d r =>
      have ih2 := ih b (by simp)
      have e1 : Join (a :: b :: d :: r) sep = a ++ sep ++ Join (b :: d :: r) sep := rfl
      have e2 : (a :: b :: d :: r).dropLast = a :: b :: (d :: r).dropLast := rfl
      have e3 : (b :: d :: r).dropLast = b :: (d :: r).dropLast := rfl
      have e4 : Join (a :: b :: (d :: r).dropLast) sep
          = a ++ sep ++ Join (b :: (d :: r).dropLast) sep := rfl
      rw [e1, e2, e4, ih2, e3]
      simp [List.getLastD_cons]

theorem Join_take_getLast (l : List GoString) (sep : GoString) (h : 2 ≤ l.length) :
    Join l sep = Join (l.take (l.length - 1)) sep ++ sep ++ l.getLastD [] := by
  cases l with
  | nil => simp at h
  | cons a rest =>
    have hne : rest ≠ [] := by
      intro h0
      simp [h0] at h
    rw [← List.dropLast_eq_take]
    exact Join_dropLast sep rest a hne

/-- C10: with filename mode enabled, for a filename that contains a dot the
result of `generateUrl` is the filename without its last dot and what follows it:
the result, a dot and a dot-free last segment make up the filename again, whatever
the title and the instant are. -/
theorem generateUrl_filename_mode (caseTable : Nat → Nat) (time : Time)
    (title filename : GoString) (hdot : 46 ∈ filename) :
    ∃ ext : GoString, 46 ∉ ext ∧
      generateUrlWith true caseTable time title filename ++ str "." ++ ext = filename := by
  refine ⟨(Split filename (str ".")).getLastD [], ?_, ?_⟩
  · have : Split filename (str ".") = splitAux [46] 0 [] filename := by
      simp [Split, str, encodeRune]
    rw [this]
    exact getLast_splitAux_byte 46 [] filename (by simp)
  · have hs : Split filename (str ".") = splitAux [46] 0 [] filename := by
      simp [Split, str, encodeRune]
    have hstr : str "." = [46] := by simp [str, encodeRune]
    rw [hstr] at hs
    simp only [generateUrlWith, if_true, hstr]
    rw [hs, ← Join_take_getLast _ _ (length_splitAux_byte 46 [] filename hdot)]
    simpa using Join_splitAux_byte 46 [] filename

theorem generateUrl_filename_mode_witness :
    46 ∈ str "my-post.md" ∧ ∃ ext : GoString, 46 ∉ ext ∧
      generateUrlWith true id ⟨0, 0, 0⟩ (str "Any title") (str "my-post.md") ++ str "." ++ ext
        = str "my-post.md" :=
  ⟨by decide, generateUrl_filename_mode id ⟨0, 0, 0⟩ (str "Any title") (str "my-post.md") (by decide)⟩

/-! ## Unfolding `validateItem` -/

theorem Marshal_eq (s : GoString) : Marshal s = Except.ok ([34] ++ jsonEscape s ++ [34]) := rfl

theorem slice_quoted (e : GoString) :
    slice ([34] ++ e ++ [34]) 1 (([34] ++ e ++ [34]).length - 1) = e := by
  simp [slice]

theorem validateItem_readError (fs : FileSystem) (caseTable : Nat → Nat) (item e : GoString)
    (h : fs.ReadFile (str "./content/content/" ++ item) = .error e) :
    validateItem fs caseTable item = ⟨{ filename := item }, some e, []⟩ := by
  unfold validateItem
  simp only [h]

theorem validateItem_noTitle (fs : FileSystem) (caseTable : Nat → Nat) (item file : GoString)
    (h : fs.ReadFile (str "./content/content/" ++ item) = .ok file)
    (ht : (titleMatchOf file).length < 2) :
    validateItem fs caseTable item =
      ⟨{ filename := item }, none, [Println [str "Could not match title for", item]]⟩ := by
  simp only [titleMatchOf, headerOf, cleanContent] at ht
  unfold validateItem
  rw [h]
  dsimp only
  rw [if_pos ht]

theorem validateItem_emptyTitle (fs : FileSystem) (caseTable : Nat → Nat) (item file : GoString)
    (h : fs.ReadFile (str "./content/content/" ++ item) = .ok file)
    (ht : ¬ (titleMatchOf file).length < 2) (he : titleOf file = []) :
    validateItem fs caseTable item =
      ⟨{ filename := item }, some (str "Could not read title"), []⟩ := by
  simp only [titleOf, titleMatchOf, headerOf, cleanContent] at ht he
  unfold validateItem
  rw [h]
  dsimp only
  rw [if_neg ht, if_pos he]

theorem validateItem_noDate (fs : FileSystem) (caseTable : Nat → Nat) (item file : GoString)
    (h : fs.ReadFile (str "./content/content/" ++ item) = .ok file)
    (ht : ¬ (titleMatchOf file).length < 2) (he : titleOf file ≠ [])
    (hd : (dateMatchOf file).length < 2) :
    validateItem fs caseTable item =
      ⟨{ filename := item }, some (str "Could not match date"), []⟩ := by
  simp only [titleOf, dateMatchOf, titleMatchOf, headerOf, cleanContent] at ht he hd
  unfold validateItem
  rw [h]
  dsimp only
  rw [if_neg ht, if_neg he, if_pos hd]

theorem validateItem_badDate (fs : FileSystem) (caseTable : Nat → Nat) (item file : GoString)
    (h : fs.ReadFile (str "./content/content/" ++ item) = .ok file)
    (ht : ¬ (titleMatchOf file).length < 2) (he : titleOf file ≠ [])
    (hd : ¬ (dateMatchOf file).length < 2)
    (hp : ∀ t, parseDate ((dateMatchOf file).getD 1 []) = some t → t.UnixMilli < 1000) :
    validateItem fs caseTable item =
      ⟨{ filename := item }, some (str "Could not parse time"), []⟩ := by
  simp only [titleOf, dateMatchOf, titleMatchOf, headerOf, cleanContent] at ht he hd hp
  unfold validateItem
  rw [h]
  dsimp only
  rw [if_neg ht, if_neg he, if_neg hd]
  cases hpd : parseDate ((dateRegex.FindStringSubmatch
      ((Split (TrimSpace (Trim (TrimSpace file) (str "+"))) (str "+++")).headD [])).getD 1 []) with
  | none => rfl
  | some t =>
    dsimp only
    rw [if_pos (hp t hpd)]

theorem validateItem_accept (fs : FileSystem) (caseTable : Nat → Nat) (item file : GoString)
    (t : Time)
    (h : fs.ReadFile (str "./content/content/" ++ item) = .ok file)
    (ht : ¬ (titleMatchOf file).length < 2) (he : titleOf file ≠ [])
    (hd : ¬ (dateMatchOf file).length < 2)
    (hp : parseDate ((dateMatchOf file).getD 1 []) = some t) (hm : ¬ t.UnixMilli < 1000) :
    validateItem fs caseTable item =
      ⟨{ filename := item
         date := Sprint t.UnixMilli
         title := jsonEscape (titleOf file)
         content := jsonEscape (bodyOf file)
         status := statusOf file
         url := generateUrl caseTable t (jsonEscape (titleOf file)) item }, none, []⟩ := by
  simp only [titleOf, dateMatchOf, titleMatchOf, headerOf, cleanContent] at ht he hd hp
  unfold validateItem
  rw [h]
  dsimp only
  rw [if_neg ht, if_neg he, if_neg hd, hp]
  dsimp only
  rw [if_neg hm]
  simp only [Marshal_eq, slice_quoted]
  rfl

/-! ## Evaluation at concrete files -/

theorem ToLower_of_ascii (c d : Nat → Nat) (s : GoString)
    (h : s.all (fun b => decide (b < 0x80)) = true) : ToLower c s = ToLower d s := by
  simp only [ToLower, h, if_true]

theorem generateUrl_of_ascii (c d : Nat → Nat) (t : Time) (title f g : GoString)
    (h : title.all (fun b => decide (b < 0x80)) = true) :
    generateUrl c t title f = generateUrl d t title g := by
  simp only [generateUrl, generateUrlWith, USE_FILENAME_AS_URL, cleanSlug,
    ToLower_of_ascii c d title h, Bool.false_eq_true, if_false]

set_option maxRecDepth 100000 in
/-- C1: a well-formed file that has no title field is returned with a nil error:
the record, holding only the file name, goes into the batch. -/
theorem validateItem_untitled_nil_error :
    validateItem (oneFile untitledFile) noCase (str "f") =
      ⟨{ filename := str "f" }, none, [str "Could not match title for f"]⟩ := by
  decide

set_option maxRecDepth 100000 in
/-- C3: the example file of the specification is accepted with title `Hello World`,
status `published`, date `1682942400000`, url `2023-05-01-hello-world` and content
`Some content`, whatever the file is called. -/
theorem validateItem_hello (fs : FileSystem) (caseTable : Nat → Nat) (f : GoString)
    (h : fs.ReadFile (str "./content/content/" ++ f) = .ok helloFile) :
    validateItem fs caseTable f =
      ⟨{ filename := f
         title := str "Hello World"
         status := str "published"
         date := str "1682942400000"
         url := str "2023-05-01-hello-world"
         content := str "Some content" }, none, []⟩ := by
  rw [validateItem_accept fs caseTable f helloFile ⟨1682942400, 0, 0⟩ h (by decide) (by decide)
    (by decide) (by decide) (by decide)]
  have e1 : jsonEscape (titleOf helloFile) = str "Hello World" := by decide
  have e2 : jsonEscape (bodyOf helloFile) = str "Some content" := by decide
  have e3 : statusOf helloFile = str "published" := by decide
  have e4 : Sprint (Time.UnixMilli ⟨1682942400, 0, 0⟩) = str "1682942400000" := by decide
  have e5 : generateUrl caseTable ⟨1682942400, 0, 0⟩ (str "Hello World") f
      = str "2023-05-01-hello-world" := by
    rw [generateUrl_of_ascii caseTable noCase _ _ f [] (by decide)]
    decide
  rw [e1, e2, e3, e4, e5]

theorem validateItem_hello_witness :
    (oneFile helloFile).ReadFile (str "./content/content/" ++ str "f") = .ok helloFile ∧
      validateItem (oneFile helloFile) noCase (str "f") =
        ⟨{ filename := str "f"
           title := str "Hello World"
           status := str "published"
           date := str "1682942400000"
           url := str "2023-05-01-hello-world"
           content := str "Some content" }, none, []⟩ :=
  ⟨rfl, validateItem_hello (oneFile helloFile) noCase (str "f") rfl⟩

set_option maxRecDepth 100000 in
/-- C7: for the accepted file with title `Tom & Jerry` the url of the record is
`2023-05-01-tom-u0026-jerry`, the slug of the JSON-escaped title, while the slug of
the extracted title itself is `2023-05-01-tom-jerry`. -/
theorem validateItem_ampersand_url :
    (validateItem (oneFile ampersandFile) noCase (str "f")).err = none ∧
      titleOf ampersandFile = str "Tom & Jerry" ∧
      parseDate ((dateMatchOf ampersandFile).getD 1 []) = some ⟨1682942400, 0, 0⟩ ∧
      (validateItem (oneFile ampersandFile) noCase (str "f")).post.url
        = str "2023-05-01-tom-u0026-jerry" ∧
      generateUrl noCase ⟨1682942400, 0, 0⟩ (str "Tom & Jerry") (str "f")
        = str "2023-05-01-tom-jerry" := by
  decide

set_option maxRecDepth 100000 in
/-- C8, as stated, fails: a file dated `1970-01-01T00:00:01Z` is accepted and its
record carries the date `1000`, which is not greater than 1000. -/
theorem validateItem_epoch_date_1000 :
    (validateItem (oneFile epochFile) noCase (str "f")).err = none ∧
      parseDate ((dateMatchOf epochFile).getD 1 []) = some ⟨1, 0, 0⟩ ∧
      (validateItem (oneFile epochFile) noCase (str "f")).post.date = Sprint 1000 ∧
      ¬ ((1000 : Int) < Time.UnixMilli ⟨1, 0, 0⟩) := by
  decide

set_option maxRecDepth 100000 in
/-- C9: the file without a title field, whose header says `draft = false`, is
returned with a nil error and an empty status, neither `draft` nor `published`. -/
theorem validateItem_untitled_status :
    (validateItem (oneFile untitledFile) noCase (str "f")).err = none ∧
      (validateItem (oneFile untitledFile) noCase (str "f")).post.status = [] ∧
      (validateItem (oneFile untitledFile) noCase (str "f")).post.status ≠ str "published" ∧
      (validateItem (oneFile untitledFile) noCase (str "f")).post.status ≠ str "draft" := by
  decide

/-! ## The batch processor -/

theorem scanLoop_eq (fs : FileSystem) (caseTable : Nat → Nat) (items : List GoString) (st : Scan) :
    scanLoop fs caseTable items st =
      { hasError := st.hasError || items.any (fun i => (validateItem fs caseTable i).err.isSome)
        postRequests := st.postRequests ++
          (items.filter (fun i => (validateItem fs caseTable i).err.isNone)).map
            (fun i => (validateItem fs caseTable i).post)
        out := st.out ++ items.flatMap (scanLines fs caseTable) } := by
  induction items generalizing st with
  | nil => simp [scanLoop]
  | cons item items ih =>
    rw [scanLoop]
    cases he : (validateItem fs caseTable item).err with
    | none =>
      simp only [he]
      rw [ih]
      simp [he, scanLines]
    | some err =>
      simp only [he]
      rw [ih]
      simp [he, scanLines]

theorem submitLoop_quiet (net : Net) (hnew : ∀ b, net.NewRequestFails b = false)
    (hdo : ∀ n b, net.Do n b = DoResult.ok) (ps : List PostRequest) (r : Run) :
    submitLoop net ps r =
      { r with built := r.built ++ ps.map payload, sent := r.sent ++ ps.map payload } := by
  induction ps generalizing r with
  | nil => simp [submitLoop]
  | cons p ps ih =>
    rw [submitLoop]
    simp only [hnew, hdo, Bool.false_eq_true, if_false]
    rw [ih]
    simp

/-- C2: the first loop of `main` validates every entry of the listing (its output
holds the lines of every entry, the error line of each failing one included, in
listing order); if some entry returned an error, the run ends with exit code 1 and
no request built or sent; if none did, the submission loop runs on exactly the
returned records, one per entry in listing order, and on a network without
failures exactly their payloads are sent, in that order. -/
theorem main_batch (fs : FileSystem) (caseTable : Nat → Nat) (net : Net)
    (items : List GoString) (hdir : fs.ReadDir DIRECTORY = .ok items) :
    (scanLoop fs caseTable items {}).out = items.flatMap (scanLines fs caseTable) ∧
    ((∃ i ∈ items, (validateItem fs caseTable i).err ≠ none) →
      main fs caseTable net = ⟨1, items.flatMap (scanLines fs caseTable), [], []⟩) ∧
    ((∀ i ∈ items, (validateItem fs caseTable i).err = none) →
      main fs caseTable net =
        submitLoop net (items.map (fun i => (validateItem fs caseTable i).post))
          ⟨0, items.flatMap (scanLines fs caseTable), [], []⟩ ∧
      ((∀ b, net.NewRequestFails b = false) → (∀ n b, net.Do n b = DoResult.ok) →
        main fs caseTable net =
          ⟨0, items.flatMap (scanLines fs caseTable),
            items.map (fun i => payload (validateItem fs caseTable i).post),
            items.map (fun i => payload (validateItem fs caseTable i).post)⟩)) := by
  refine ⟨?_, ?_, ?_⟩
  · rw [scanLoop_eq]; simp
  · rintro ⟨i, hi, herr⟩
    have hany : items.any (fun i => (validateItem fs caseTable i).err.isSome) = true := by
      rw [List.any_eq_true]
      refine ⟨i, hi, ?_⟩
      cases h : (validateItem fs caseTable i).err with
      | none => exact absurd h herr
      | some e => rfl
    simp only [main, hdir, scanLoop_eq, hany]
    simp
  · intro hall
    have hany : items.any (fun i => (validateItem fs caseTable i).err.isSome) = false := by
      rw [List.any_eq_false]
      intro i hi
      simp [hall i hi]
    have hfilter : items.filter (fun i => (validateItem fs caseTable i).err.isNone) = items := by
      rw [List.filter_eq_self]
      intro i hi
      simp [hall i hi]
    have hmain : main fs caseTable net =
        submitLoop net (items.map (fun i => (validateItem fs caseTable i).post))
          ⟨0, items.flatMap (scanLines fs caseTable), [], []⟩ := by
      simp only [main, hdir, scanLoop_eq, hany, hfilter]
      simp
    refine ⟨hmain, ?_⟩
    intro hnew hdo
    rw [hmain, submitLoop_quiet net hnew hdo]
    simp [Function.comp_def]

set_option maxRecDepth 100000 in
theorem main_batch_witness :
    threeFiles.ReadDir DIRECTORY = .ok [str "a", str "b", str "c"] ∧
    (∃ i ∈ [str "a", str "b", str "c"], (validateItem threeFiles noCase i).err ≠ none) ∧
    main threeFiles noCase quietNet = ⟨1, [str "Error in file b Could not match date"], [], []⟩ := by
  have h := main_batch threeFiles noCase quietNet [str "a", str "b", str "c"] rfl
  have hex : ∃ i ∈ [str "a", str "b", str "c"], (validateItem threeFiles noCase i).err ≠ none :=
    ⟨str "b", by simp, by decide⟩
  refine ⟨rfl, hex, ?_⟩
  rw [h.2.1 hex]
  decide

/-! ## Errors of `validateItem` once a title has been read -/

/-- C4: when the header has a title match with a non-empty trimmed title,
`validateItem` returns an error exactly when the header has no date match, or the
matched date text does not parse under the layout chosen by its suffix, or the
parsed instant is below 1000 epoch milliseconds; marshalling a string never
returns an error. -/
theorem validateItem_error_iff (fs : FileSystem) (caseTable : Nat → Nat) (item file : GoString)
    (h : fs.ReadFile (str "./content/content/" ++ item) = .ok file)
    (ht : 2 ≤ (titleMatchOf file).length) (he : titleOf file ≠ []) :
    ((validateItem fs caseTable item).err ≠ none ↔
      ((dateMatchOf file).length < 2 ∨
        parseDate ((dateMatchOf file).getD 1 []) = none ∨
        ∃ t, parseDate ((dateMatchOf file).getD 1 []) = some t ∧ t.UnixMilli < 1000)) ∧
    (∀ s : GoString, ∃ r, Marshal s = Except.ok r) := by
  have ht1 : ¬ (titleMatchOf file).length < 2 := by omega
  refine ⟨?_, fun s => ⟨_, Marshal_eq s⟩⟩
  by_cases hd : (dateMatchOf file).length < 2
  · rw [validateItem_noDate fs caseTable item file h ht1 he hd]
    simp [hd]
  · cases hp : parseDate ((dateMatchOf file).getD 1 []) with
    | none =>
      rw [validateItem_badDate fs caseTable item file h ht1 he hd (by intro t1 ht1; rw [hp] at ht1; cases ht1)]
      simp
    | some t =>
      by_cases hm : t.UnixMilli < 1000
      · rw [validateItem_badDate fs caseTable item file h ht1 he hd
          (by intro t1 ht1; rw [hp] at ht1; cases ht1; exact hm)]
        simp [hm]
      · rw [validateItem_accept fs caseTable item file t h ht1 he hd hp hm]
        simp [hd, hm]

set_option maxRecDepth 100000 in
theorem validateItem_error_iff_witness :
    (oneFile undatedFile).ReadFile (str "./content/content/" ++ str "f") = .ok undatedFile ∧
    2 ≤ (titleMatchOf undatedFile).length ∧ titleOf undatedFile ≠ [] ∧
    ((validateItem (oneFile undatedFile) noCase (str "f")).err ≠ none ↔
      ((dateMatchOf undatedFile).length < 2 ∨
        parseDate ((dateMatchOf undatedFile).getD 1 []) = none ∨
        ∃ t, parseDate ((dateMatchOf undatedFile).getD 1 []) = some t ∧ t.UnixMilli < 1000)) :=
  ⟨rfl, by decide, by decide,
    (validateItem_error_iff (oneFile undatedFile) noCase (str "f") undatedFile rfl
      (by decide) (by decide)).1⟩

/-- What `validateItem` returns once the title pattern has matched and no error is
returned: the date text parsed to an instant of at least 1000 epoch milliseconds
and the record is the fully populated one. -/
theorem validateItem_accepted (fs : FileSystem) (caseTable : Nat → Nat) (item file : GoString)
    (h : fs.ReadFile (str "./content/content/" ++ item) = .ok file)
    (ht : 2 ≤ (titleMatchOf file).length)
    (hacc : (validateItem fs caseTable item).err = none) :
    ∃ t, parseDate ((dateMatchOf file).getD 1 []) = some t ∧ 1000 ≤ t.UnixMilli ∧
      (validateItem fs caseTable item).post =
        { filename := item
          date := Sprint t.UnixMilli
          title := jsonEscape (titleOf file)
          content := jsonEscape (bodyOf file)
          status := statusOf file
          url := generateUrl caseTable t (jsonEscape (titleOf file)) item } := by
  have ht1 : ¬ (titleMatchOf file).length < 2 := by omega
  by_cases he : titleOf file = []
  · rw [validateItem_emptyTitle fs caseTable item file h ht1 he] at hacc
    simp at hacc
  by_cases hd : (dateMatchOf file).length < 2
  · rw [validateItem_noDate fs caseTable item file h ht1 he hd] at hacc
    simp at hacc
  cases hp : parseDate ((dateMatchOf file).getD 1 []) with
  | none =>
    rw [validateItem_badDate fs caseTable item file h ht1 he hd (by intro t1 ht1; rw [hp] at ht1; cases ht1)] at hacc
    simp at hacc
  | some t =>
    by_cases hm : t.UnixMilli < 1000
    · rw [validateItem_badDate fs caseTable item file h ht1 he hd
        (by intro t1 ht1; rw [hp] at ht1; cases ht1; exact hm)] at hacc
      simp at hacc
    · refine ⟨t, rfl, by omega, ?_⟩
      rw [validateItem_accept fs caseTable item file t h ht1 he hd hp hm]

/-- C8, amended: when the date field of a file has been parsed and the file is
accepted, the date of the record is the decimal rendering of the parsed instant in
epoch milliseconds, and that value is at least 1000. -/
theorem validateItem_date_ge_1000 (fs : FileSystem) (caseTable : Nat → Nat)
    (item file : GoString)
    (h : fs.ReadFile (str "./content/content/" ++ item) = .ok file)
    (ht : 2 ≤ (titleMatchOf file).length)
    (hacc : (validateItem fs caseTable item).err = none) :
    ∃ t, parseDate ((dateMatchOf file).getD 1 []) = some t ∧
      (validateItem fs caseTable item).post.date = Sprint t.UnixMilli ∧ 1000 ≤ t.UnixMilli := by
  obtain ⟨t, hp, hm, hpost⟩ := validateItem_accepted fs caseTable item file h ht hacc
  exact ⟨t, hp, by rw [hpost], hm⟩

set_option maxRecDepth 100000 in
theorem validateItem_date_ge_1000_witness :
    (oneFile epochFile).ReadFile (str "./content/content/" ++ str "f") = .ok epochFile ∧
    2 ≤ (titleMatchOf epochFile).length ∧
    (validateItem (oneFile epochFile) noCase (str "f")).err = none ∧
    ∃ t, parseDate ((dateMatchOf epochFile).getD 1 []) = some t ∧
      (validateItem (oneFile epochFile) noCase (str "f")).post.date = Sprint t.UnixMilli ∧
      1000 ≤ t.UnixMilli :=
  ⟨rfl, by decide, by decide,
    validateItem_date_ge_1000 (oneFile epochFile) noCase (str "f") epochFile rfl
      (by decide) (by decide)⟩

/-- The draft rule on the path that has read a title: an accepted record has status
`draft` exactly when the draft pattern matched with the value `true`, and
`published` otherwise. -/
theorem validateItem_status (fs : FileSystem) (caseTable : Nat → Nat) (item file : GoString)
    (h : fs.ReadFile (str "./content/content/" ++ item) = .ok file)
    (ht : 2 ≤ (titleMatchOf file).length)
    (hacc : (validateItem fs caseTable item).err = none) :
    ((1 < (draftMatchOf file).length ∧ (draftMatchOf file).getD 1 [] = str "true") →
      (validateItem fs caseTable item).post.status = str "draft") ∧
    (¬ (1 < (draftMatchOf file).length ∧ (draftMatchOf file).getD 1 [] = str "true") →
      (validateItem fs caseTable item).post.status = str "published") := by
  obtain ⟨t, _, _, hpost⟩ := validateItem_accepted fs caseTable item file h ht hacc
  rw [hpost]
  constructor
  · intro hd
    simp only [statusOf, hd, and_self, if_true]
  · intro hd
    simp only [statusOf, hd, if_false]

/-! ## Rendering of dates -/

theorem civilFromDays_month (days : Int) :
    1 ≤ (civilFromDays days).2.1 ∧ (civilFromDays days).2.1 ≤ 12 := by
  simp only [civilFromDays]
  split <;> omega

theorem civilFromDays_day (days : Int) :
    1 ≤ (civilFromDays days).2.2 ∧ (civilFromDays days).2.2 ≤ 31 := by
  simp only [civilFromDays]
  omega


theorem digitChar_toNat (k : Nat) (h : k < 10) : (Nat.digitChar k).toNat = 48 + k := by
  interval_cases k <;> rfl

theorem toDigitsCore_isDigit (f n : Nat) (l : List Char)
    (hl : ∀ c ∈ l, isDigit c.toNat = true) :
    ∀ c ∈ Nat.toDigitsCore 10 f n l, isDigit c.toNat = true := by
  induction f generalizing n l with
  | zero => simpa [Nat.toDigitsCore] using hl
  | succ f ih =>
    have hd : isDigit (Nat.digitChar (n % 10)).toNat = true := by
      rw [digitChar_toNat _ (Nat.mod_lt _ (by decide))]
      have : n % 10 < 10 := Nat.mod_lt _ (by decide)
      simp [isDigit]
      omega
    have hl2 : ∀ c ∈ Nat.digitChar (n % 10) :: l, isDigit c.toNat = true := by
      intro c hc
      rcases List.mem_cons.mp hc with h | h
      · rw [h]; exact hd
      · exact hl c h
    simp only [Nat.toDigitsCore]
    split
    · exact hl2
    · exact ih _ _ hl2

theorem natDigits_isDigit (n : Nat) : ∀ b ∈ natDigits n, isDigit b = true := by
  intro b hb
  simp only [natDigits, Nat.toDigits, List.mem_map] at hb
  obtain ⟨c, hc, rfl⟩ := hb
  exact toDigitsCore_isDigit _ _ [] (by simp) c hc

theorem natDigits_length_le (n e : Nat) (h : n < 10 ^ e) (he : 0 < e) :
    (natDigits n).length ≤ e := by
  simp only [natDigits, Nat.toDigits, List.length_map]
  exact Nat.toDigitsCore_length 10 (by decide) (n + 1) n e h he

/-- A non-negative number below `10 ^ width` is rendered with exactly `width` digits. -/
theorem appendInt_nonneg (x : Int) (width : Nat) (h0 : 0 ≤ x) (h1 : x.natAbs < 10 ^ width)
    (hw : 0 < width) :
    (appendInt x width).length = width ∧ ∀ b ∈ appendInt x width, isDigit b = true := by
  have hlen := natDigits_length_le x.natAbs width h1 hw
  have hneg : ¬ x < 0 := by omega
  constructor
  · simp only [appendInt, hneg, if_false, List.nil_append, List.length_append,
      List.length_replicate]
    omega
  · intro b hb
    simp only [appendInt, hneg, if_false, List.nil_append, List.mem_append,
      List.mem_replicate] at hb
    rcases hb with ⟨_, rfl⟩ | hb
    · rfl
    · exact natDigits_isDigit _ b hb

/-- Every byte `appendInt` writes is a digit or the minus sign. -/
theorem appendInt_bytes (x : Int) (width : Nat) :
    ∀ b ∈ appendInt x width, isSlugByte b = true := by
  intro b hb
  simp only [appendInt, List.mem_append, List.mem_replicate] at hb
  rcases hb with (hb | ⟨_, rfl⟩) | hb
  · split at hb
    · simp at hb; subst hb; rfl
    · simp at hb
  · rfl
  · have := natDigits_isDigit _ b hb
    simp only [isDigit, Bool.and_eq_true, decide_eq_true_eq] at this
    simp [isSlugByte, this]

/-- Every byte of a date rendered by `Format` is a digit or a hyphen. -/
theorem Format_bytes (t : Time) : ∀ b ∈ t.Format, isSlugByte b = true := by
  intro b hb
  simp only [Time.Format, List.mem_append, List.mem_singleton] at hb
  rcases hb with (((hb | rfl) | hb) | rfl) | hb
  · exact appendInt_bytes _ _ b hb
  · rfl
  · exact appendInt_bytes _ _ b hb
  · rfl
  · exact appendInt_bytes _ _ b hb

/-- For a year from 0 to 9999 the rendered date is four digits, a hyphen, two
digits, a hyphen and two digits. -/
theorem Format_shape (t : Time) (hy : 0 ≤ t.year ∧ t.year ≤ 9999) :
    ∃ y m d : GoString,
      t.Format = y ++ [45] ++ m ++ [45] ++ d ∧ y.length = 4 ∧ m.length = 2 ∧ d.length = 2 ∧
        (∀ b ∈ y ++ m ++ d, isDigit b = true) := by
  have hm := civilFromDays_month ((t.sec + t.offset) / 86400)
  have hd := civilFromDays_day ((t.sec + t.offset) / 86400)
  have hY := appendInt_nonneg t.year 4 hy.1 (by have := hy.2; omega) (by decide)
  have hM := appendInt_nonneg ((civilFromDays ((t.sec + t.offset) / 86400)).2.1 : Int) 2
    (by omega) (by simp; omega) (by decide)
  have hD := appendInt_nonneg ((civilFromDays ((t.sec + t.offset) / 86400)).2.2 : Int) 2
    (by omega) (by simp; omega) (by decide)
  refine ⟨_, _, _, rfl, hY.1, hM.1, hD.1, ?_⟩
  intro b hb
  simp only [List.mem_append] at hb
  rcases hb with (hb | hb) | hb
  · exact hY.2 b hb
  · exact hM.2 b hb
  · exact hD.2 b hb

/-- C6: for an instant with a four-digit year and a title whose cleaned slug is
shorter than 40 bytes, the title-mode url is the date as `YYYY-MM-DD` (ten bytes:
four digits, hyphen, two digits, hyphen, two digits), one hyphen, and the cleaned
slug unchanged. -/
theorem generateUrl_short (caseTable : Nat → Nat) (t : Time) (title filename : GoString)
    (hy : 0 ≤ t.year ∧ t.year ≤ 9999) (hs : (cleanSlug caseTable title).length < 40) :
    generateUrl caseTable t title filename = t.Format ++ [45] ++ cleanSlug caseTable title ∧
    t.Format.length = 10 ∧
    ∃ y m d : GoString,
      t.Format = y ++ [45] ++ m ++ [45] ++ d ∧ y.length = 4 ∧ m.length = 2 ∧ d.length = 2 ∧
        (∀ b ∈ y ++ m ++ d, isDigit b = true) := by
  obtain ⟨y, m, d, hf, h4, h2, h2d, hdig⟩ := Format_shape t hy
  refine ⟨?_, ?_, y, m, d, hf, h4, h2, h2d, hdig⟩
  · have hstr : str "-" = [45] := by decide
    simp only [generateUrl, generateUrlWith, USE_FILENAME_AS_URL, Bool.false_eq_true, if_false,
      hs, if_true, hstr]
  · rw [hf]
    simp [h4, h2, h2d]

set_option maxRecDepth 100000 in
theorem generateUrl_short_witness :
    (0 ≤ Time.year ⟨1682942400, 0, 0⟩ ∧ Time.year ⟨1682942400, 0, 0⟩ ≤ 9999) ∧
    (cleanSlug noCase (str "Hello, Wörld & Co_2")).length < 40 ∧
    generateUrl noCase ⟨1682942400, 0, 0⟩ (str "Hello, Wörld & Co_2") (str "f")
      = str "2023-05-01" ++ [45] ++ str "hello-werld-co-2" := by
  have h := generateUrl_short noCase ⟨1682942400, 0, 0⟩ (str "Hello, Wörld & Co_2") (str "f")
    (by decide) (by decide)
  refine ⟨by decide, by decide, ?_⟩
  rw [h.1]
  decide

/-! ## Runes and bytes -/

theorem decodeRune_width_pos (b : Nat) (rest : GoString) : 1 ≤ (decodeRune (b :: rest)).2 := by
  rcases rest with _ | ⟨b1, _ | ⟨b2, _ | ⟨b3, r⟩⟩⟩ <;> simp only [decodeRune] <;>
    split_ifs <;> simp

theorem decodeRune_rune (b : Nat) (rest : GoString) :
    decodeRune (b :: rest) = (b, 1) ∨ 0x80 ≤ (decodeRune (b :: rest)).1 := by
  by_cases hb : b < 0x80
  · left
    simp only [decodeRune, hb, if_true]
  · right
    rcases rest with _ | ⟨b1, _ | ⟨b2, _ | ⟨b3, r⟩⟩⟩ <;> simp only [decodeRune, RuneError, hb] <;>
      split_ifs <;> dsimp only <;> omega

theorem decodeRune_ascii (b : Nat) (rest : GoString) (h : (decodeRune (b :: rest)).1 < 0x80) :
    decodeRune (b :: rest) = (b, 1) := by
  rcases decodeRune_rune b rest with h1 | h1
  · exact h1
  · omega

/-- The decoded runes cover the text: their source bytes concatenate to it. -/
theorem unrunes_runesAux (k : Nat) (s : GoString) : unrunes (runesAux k s) = s.drop k := by
  induction s generalizing k with
  | nil => simp [runesAux, unrunes]
  | cons b rest ih =>
    cases k with
    | succ k => simpa [runesAux] using ih k
    | zero =>
      have hw := decodeRune_width_pos b rest
      have ih2 := ih ((decodeRune (b :: rest)).2 - 1)
      simp only [unrunes] at ih2 ⊢
      simp only [runesAux, List.flatMap_cons, ih2, List.drop_zero]
      obtain ⟨n, hn⟩ : ∃ n, (decodeRune (b :: rest)).2 = n + 1 := ⟨_, (Nat.sub_add_cancel hw).symm⟩
      rw [hn]
      simp

theorem unrunes_runes (s : GoString) : unrunes (runes s) = s := by
  simp [runes, unrunes_runesAux]

/-- A rune below 0x80 was decoded from the single byte of the same value. -/
theorem runesAux_ascii (k : Nat) (s : GoString) :
    ∀ t ∈ runesAux k s, t.rune < 0x80 → t.src = [t.rune] := by
  induction s generalizing k with
  | nil => simp [runesAux]
  | cons b rest ih =>
    cases k with
    | succ k => simpa [runesAux] using ih k
    | zero =>
      intro t ht hlt
      simp only [runesAux, List.mem_cons] at ht
      rcases ht with rfl | ht
      · have h := decodeRune_ascii b rest hlt
        simp [h]
      · exact ih _ t ht hlt

theorem runes_ascii (s : GoString) : ∀ t ∈ runes s, t.rune < 0x80 → t.src = [t.rune] :=
  runesAux_ascii 0 s

theorem mem_of_mem_runes (s : GoString) (t : Tok) (ht : t ∈ runes s) (b : Nat) (hb : b ∈ t.src) :
    b ∈ s := by
  have h : b ∈ unrunes (runes s) := by
    simp only [unrunes, List.mem_flatMap]
    exact ⟨t, ht, hb⟩
  rwa [unrunes_runes] at h

/-! ## Bytes surviving the string operations of the slug pipeline -/

theorem TrimSpace_subset (s : GoString) : ∀ b ∈ TrimSpace s, b ∈ s := by
  intro b hb
  simp only [TrimSpace, unrunes, List.mem_flatMap, List.mem_reverse] at hb
  obtain ⟨t, ht, hbt⟩ := hb
  have h1 := (List.dropWhile_sublist _).subset ht
  rw [List.mem_reverse] at h1
  exact mem_of_mem_runes s t ((List.dropWhile_sublist _).subset h1) b hbt

theorem replaceAux_subset (old new : GoString) (k : Nat) (s : GoString) :
    ∀ b ∈ replaceAux old new k s, b ∈ new ∨ b ∈ s := by
  induction s generalizing k with
  | nil => simp [replaceAux]
  | cons a rest ih =>
    cases k with
    | succ k =>
      intro b hb
      simp only [replaceAux] at hb
      rcases ih k b hb with h | h
      · exact Or.inl h
      · exact Or.inr (List.mem_cons_of_mem _ h)
    | zero =>
      intro b hb
      simp only [replaceAux] at hb
      split at hb
      · rcases List.mem_append.mp hb with h | h
        · exact Or.inl h
        · rcases ih _ b h with h | h
          · exact Or.inl h
          · exact Or.inr (List.mem_cons_of_mem _ h)
      · rcases List.mem_cons.mp hb with h | h
        · exact Or.inr (by simp [h])
        · rcases ih _ b h with h | h
          · exact Or.inl h
          · exact Or.inr (List.mem_cons_of_mem _ h)

theorem ReplaceAll_subset (s old new : GoString) :
    ∀ b ∈ ReplaceAll s old new, b ∈ new ∨ b ∈ s := by
  intro b hb
  simp only [ReplaceAll] at hb
  split at hb
  · rcases List.mem_append.mp hb with h | h
    · exact Or.inl h
    · simp only [List.mem_flatMap, List.mem_append] at h
      obtain ⟨t, ht, h | h⟩ := h
      · exact Or.inr (mem_of_mem_runes s t ht b h)
      · exact Or.inl h
  · exact replaceAux_subset old new 0 s b hb

theorem encodeRune_bytes (r : Nat) : ∀ b ∈ encodeRune r, (r < 0x80 ∧ b = r) ∨ 0x80 ≤ b := by
  intro b hb
  simp only [encodeRune] at hb
  split_ifs at hb with h1 h2 h3 h4
  · simp at hb; exact Or.inl ⟨h1, hb⟩
  all_goals
    right
    simp only [List.mem_cons, List.mem_singleton, List.not_mem_nil, or_false] at hb
    omega

/-- Lower-casing leaves no upper-case ASCII letter, provided the case table maps no
rune above 0x7F to one. -/
theorem ToLower_no_upper (caseTable : Nat → Nat)
    (hc : ∀ r, 0x7F < r → ¬ (65 ≤ caseTable r ∧ caseTable r ≤ 90)) (s : GoString) :
    ∀ b ∈ ToLower caseTable s, ¬ (65 ≤ b ∧ b ≤ 90) := by
  intro b hb
  simp only [ToLower] at hb
  split at hb
  · simp only [List.mem_map] at hb
    obtain ⟨a, _, rfl⟩ := hb
    split_ifs <;> omega
  · simp only [List.mem_flatMap] at hb
    obtain ⟨t, _, hbt⟩ := hb
    rcases encodeRune_bytes _ b hbt with ⟨_, rfl⟩ | h
    · simp only [unicodeToLower]
      split_ifs with h1 h2
      · omega
      · exact h2
      · exact hc _ (by omega)
    · omega

/-! ## Regular-expression replacement -/

theorem manyK_ne_none {R : Type} (p : Nat → Bool) (k : List Tok → Option R)
    (hk : ∀ s, k s ≠ none) (s : List Tok) : manyK p k s ≠ none := by
  induction s with
  | nil => simpa [manyK] using hk []
  | cons t ts ih =>
    simp only [manyK]
    split
    · cases h : manyK p k ts with
      | none => exact absurd h ih
      | some r => simp [Option.orElse]
    · exact hk _

theorem manyK_suffix {R : Type} (p : Nat → Bool) (k : List Tok → Option R) (s : List Tok)
    (r : R) (h : manyK p k s = some r) : ∃ s1, s1.length ≤ s.length ∧ k s1 = some r := by
  induction s with
  | nil => exact ⟨[], le_refl _, by simpa [manyK] using h⟩
  | cons t ts ih =>
    simp only [manyK] at h
    split at h
    · cases h1 : manyK p k ts with
      | none =>
        rw [h1] at h
        exact ⟨t :: ts, le_refl _, by simpa [Option.orElse] using h⟩
      | some r1 =>
        rw [h1] at h
        simp only [Option.orElse, Option.some.injEq] at h
        subst h
        obtain ⟨s1, hl, hs⟩ := ih h1
        exact ⟨s1, by simp only [List.length_cons]; omega, hs⟩
    · exact ⟨t :: ts, le_refl _, h⟩

/-- Every byte of the result of a replacement is a byte of the template or a byte
of a rune of the text at which no non-empty match starts. -/
theorem replaceFrom_mem (re : Re) (n : Nat) (repl : GoString) (Q : Tok → Prop)
    (hQ : ∀ t ts, (re.matchHere n (t :: ts) = none ∨
        ∃ m, re.matchHere n (t :: ts) = some m ∧ (t :: ts).length - m.1.length = 0) → Q t)
    (k : Nat) (pe : Bool) (ts : List Tok) :
    ∀ b ∈ re.replaceFrom n repl k pe ts, b ∈ repl ∨ ∃ t ∈ ts, Q t ∧ b ∈ t.src := by
  induction ts generalizing k pe with
  | nil =>
    intro b hb
    simp only [Re.replaceFrom] at hb
    split at hb
    · split at hb
      · simp at hb
      · exact Or.inl hb
    · simp at hb
  | cons t ts ih =>
    have step : ∀ k pe b, b ∈ re.replaceFrom n repl k pe ts →
        b ∈ repl ∨ ∃ t1 ∈ t :: ts, Q t1 ∧ b ∈ t1.src := by
      intro k pe b hb
      rcases ih k pe b hb with h | ⟨t1, ht1, h⟩
      · exact Or.inl h
      · exact Or.inr ⟨t1, List.mem_cons_of_mem _ ht1, h⟩
    cases k with
    | succ k =>
      intro b hb
      simp only [Re.replaceFrom] at hb
      exact step _ _ b hb
    | zero =>
      intro b hb
      simp only [Re.replaceFrom] at hb
      cases hm : re.matchHere n (t :: ts) with
      | none =>
        rw [hm] at hb
        rcases List.mem_append.mp hb with h | h
        · exact Or.inr ⟨t, List.mem_cons_self _ _, hQ t ts (Or.inl hm), h⟩
        · exact step _ _ b h
      | some m =>
        rw [hm] at hb
        simp only at hb
        split at hb
        · rename_i h0
          simp only [List.mem_append] at hb
          rcases hb with (h | h) | h
          · split at h
            · simp at h
            · exact Or.inl h
          · exact Or.inr ⟨t, List.mem_cons_self _ _, hQ t ts (Or.inr ⟨m, hm, h0⟩), h⟩
          · exact step _ _ b h
        · rcases List.mem_append.mp hb with h | h
          · exact Or.inl h
          · exact step _ _ b h

theorem ReplaceAllString_subset (re : Re) (src repl : GoString) :
    ∀ b ∈ re.ReplaceAllString src repl, b ∈ repl ∨ b ∈ src := by
  intro b hb
  rcases replaceFrom_mem re _ repl (fun _ => True) (fun _ _ _ => trivial) 0 false _ b hb with
    h | ⟨t, ht, _, h⟩
  · exact Or.inl h
  · exact Or.inr (mem_of_mem_runes src t ht b h)

/-- The runes of a pure-ASCII text are its bytes. -/
theorem runesAux_of_ascii (s : GoString) (h : ∀ b ∈ s, b < 0x80) :
    runesAux 0 s = s.map (fun b => ⟨b, [b]⟩) := by
  induction s with
  | nil => rfl
  | cons b rest ih =>
    have hb : b < 0x80 := h b (List.mem_cons_self _ _)
    have hd : decodeRune (b :: rest) = (b, 1) := by simp only [decodeRune, hb, if_true]
    simp only [runesAux, hd, List.map_cons]
    rw [ih (fun x hx => h x (List.mem_cons_of_mem _ hx))]
    simp

/-- After the pattern `[^\w\s-]` has been replaced by the empty string, every byte
left is a word character, white space or a hyphen, and was in the text. -/
theorem strip_bytes (s : GoString) :
    ∀ b ∈ whitespaceRegex.ReplaceAllString s [],
      b ∈ s ∧ (isWordChar b || isPerlSpace b || b == 45) = true := by
  intro b hb
  have h := replaceFrom_mem whitespaceRegex (runes s).length []
    (fun t => (isWordChar t.rune || isPerlSpace t.rune || t.rune == 45) = true)
    (by
      intro t ts h
      rcases h with h | ⟨m, hm, h0⟩
      · simp only [Re.matchHere, whitespaceRegex, Re.run] at h
        split at h
        · simp at h
        · rename_i hp
          show (isWordChar t.rune || isPerlSpace t.rune || t.rune == 45) = true
          cases hx : (isWordChar t.rune || isPerlSpace t.rune || t.rune == 45) with
          | true => rfl
          | false => rw [hx] at hp; simp at hp
      · simp only [Re.matchHere, whitespaceRegex, Re.run] at hm
        split at hm
        · simp only [Option.some.injEq] at hm
          subst hm
          simp at h0
        · simp at hm)
    0 false (runes s) b hb
  rcases h with h | ⟨t, ht, hq, hbt⟩
  · simp at h
  · have hlt : t.rune < 0x80 := by
      simp only [isWordChar, isPerlSpace, Bool.or_eq_true, Bool.and_eq_true, decide_eq_true_eq,
        beq_iff_eq] at hq
      omega
    have hsrc := runes_ascii s t ht hlt
    rw [hsrc, List.mem_singleton] at hbt
    subst hbt
    exact ⟨mem_of_mem_runes s t ht _ (by rw [hsrc]; simp), hq⟩

/-- After runs of the class `[\s_-]` of a pure-ASCII text have been replaced by a
hyphen, every byte is a hyphen or a byte of the text outside the class. -/
theorem collapse_bytes (s : GoString) (hs : ∀ b ∈ s, b < 0x80) :
    ∀ b ∈ hyphenRegex.ReplaceAllString s (str "-"),
      b = 45 ∨ (b ∈ s ∧ (isPerlSpace b || b == 95 || b == 45) = false) := by
  intro b hb
  have h := replaceFrom_mem hyphenRegex (runes s).length (str "-")
    (fun t => (isPerlSpace t.rune || t.rune == 95 || t.rune == 45) = false)
    (by
      intro t ts h
      rcases h with h | ⟨m, hm, h0⟩
      · simp only [Re.matchHere, hyphenRegex, Re.many1, Re.run] at h
        split at h
        · exact absurd h (manyK_ne_none _ _ (fun _ => by simp) _)
        · rename_i hp
          simpa using hp
      · simp only [Re.matchHere, hyphenRegex, Re.many1, Re.run] at hm
        split at hm
        · obtain ⟨s1, hl, hs1⟩ := manyK_suffix _ _ _ _ hm
          simp only [Option.some.injEq] at hs1
          subst hs1
          simp only [List.length_cons] at h0
          omega
        · simp at hm)
    0 false (runes s) b hb
  rcases h with h | ⟨t, ht, hq, hbt⟩
  · left
    have : str "-" = [45] := by decide
    rw [this] at h
    simpa using h
  · right
    simp only [runes, runesAux_of_ascii s hs, List.mem_map] at ht
    obtain ⟨a, ha, rfl⟩ := ht
    simp only [List.mem_singleton] at hbt
    subst hbt
    exact ⟨ha, hq⟩

/-! ## The bytes of a slug -/

theorem splitAux_subset (sep : GoString) (k : Nat) (cur s : GoString) :
    ∀ p ∈ splitAux sep k cur s, ∀ b ∈ p, b ∈ cur ∨ b ∈ s := by
  induction s generalizing k cur with
  | nil =>
    intro p hp b hb
    simp only [splitAux, List.mem_singleton] at hp
    subst hp
    exact Or.inl (by simpa using hb)
  | cons a rest ih =>
    intro p hp b hb
    cases k with
    | succ k =>
      simp only [splitAux] at hp
      rcases ih k cur p hp b hb with h | h
      · exact Or.inl h
      · exact Or.inr (List.mem_cons_of_mem _ h)
    | zero =>
      simp only [splitAux] at hp
      split at hp
      · rcases List.mem_cons.mp hp with h | h
        · subst h
          exact Or.inl (by simpa using hb)
        · rcases ih _ [] p h b hb with h1 | h1
          · simp at h1
          · exact Or.inr (List.mem_cons_of_mem _ h1)
      · rcases ih _ (a :: cur) p hp b hb with h1 | h1
        · rcases List.mem_cons.mp h1 with h2 | h2
          · exact Or.inr (by simp [h2])
          · exact Or.inl h2
        · exact Or.inr (List.mem_cons_of_mem _ h1)

theorem Split_subset (s sep : GoString) : ∀ p ∈ Split s sep, ∀ b ∈ p, b ∈ s := by
  intro p hp b hb
  simp only [Split] at hp
  split at hp
  · simp only [List.mem_map] at hp
    obtain ⟨t, ht, rfl⟩ := hp
    exact mem_of_mem_runes s t ht b hb
  · rcases splitAux_subset sep 0 [] s p hp b hb with h | h
    · simp at h
    · exact h

theorem Join_subset (l : List GoString) (sep : GoString) :
    ∀ b ∈ Join l sep, b ∈ sep ∨ ∃ p ∈ l, b ∈ p := by
  induction l with
  | nil => simp [Join]
  | cons a rest ih =>
    cases rest with
    | nil =>
      intro b hb
      exact Or.inr ⟨a, by simp, by simpa [Join] using hb⟩
    | cons c rest2 =>
      intro b hb
      have e : Join (a :: c :: rest2) sep = a ++ sep ++ Join (c :: rest2) sep := rfl
      rw [e] at hb
      simp only [List.mem_append] at hb
      rcases hb with (h | h) | h
      · exact Or.inr ⟨a, by simp, h⟩
      · exact Or.inl h
      · rcases ih b h with h1 | ⟨p, hp, h1⟩
        · exact Or.inl h1
        · exact Or.inr ⟨p, List.mem_cons_of_mem _ hp, h1⟩

/-- Every byte of the cleaned slug is a lower-case letter, a digit or a hyphen,
provided the case table maps no rune above 0x7F to an upper-case ASCII letter. -/
theorem cleanSlug_bytes (caseTable : Nat → Nat)
    (hc : ∀ r, 0x7F < r → ¬ (65 ≤ caseTable r ∧ caseTable r ≤ 90)) (title : GoString) :
    ∀ b ∈ cleanSlug caseTable title, isSlugByte b = true := by
  intro b hb
  have hue : ∀ x ∈ str "ue", ¬ (65 ≤ x ∧ x ≤ 90) := by decide
  have hae : ∀ x ∈ str "ae", ¬ (65 ≤ x ∧ x ≤ 90) := by decide
  have hoe : ∀ x ∈ str "öe", ¬ (65 ≤ x ∧ x ≤ 90) := by decide
  have hss : ∀ x ∈ str "ss", ¬ (65 ≤ x ∧ x ≤ 90) := by decide
  have h0 := ToLower_no_upper caseTable hc title
  have h1 : ∀ x ∈ TrimSpace (ToLower caseTable title), ¬ (65 ≤ x ∧ x ≤ 90) :=
    fun x hx => h0 x (TrimSpace_subset _ x hx)
  have h2 : ∀ x ∈ ReplaceAll (TrimSpace (ToLower caseTable title)) (str "ü") (str "ue"),
      ¬ (65 ≤ x ∧ x ≤ 90) := fun x hx =>
    (ReplaceAll_subset _ _ _ x hx).elim (hue x) (h1 x)
  have h3 : ∀ x ∈ ReplaceAll (ReplaceAll (TrimSpace (ToLower caseTable title)) (str "ü")
      (str "ue")) (str "ä") (str "ae"), ¬ (65 ≤ x ∧ x ≤ 90) := fun x hx =>
    (ReplaceAll_subset _ _ _ x hx).elim (hae x) (h2 x)
  have h4 : ∀ x ∈ ReplaceAll (ReplaceAll (ReplaceAll (TrimSpace (ToLower caseTable title))
      (str "ü") (str "ue")) (str "ä") (str "ae")) (str "ö") (str "öe"),
      ¬ (65 ≤ x ∧ x ≤ 90) := fun x hx =>
    (ReplaceAll_subset _ _ _ x hx).elim (hoe x) (h3 x)
  have h5 : ∀ x ∈ ReplaceAll (ReplaceAll (ReplaceAll (ReplaceAll
      (TrimSpace (ToLower caseTable title)) (str "ü") (str "ue")) (str "ä") (str "ae"))
      (str "ö") (str "öe")) (str "ß") (str "ss"), ¬ (65 ≤ x ∧ x ≤ 90) := fun x hx =>
    (ReplaceAll_subset _ _ _ x hx).elim (hss x) (h4 x)
  simp only [cleanSlug] at hb
  rcases ReplaceAllString_subset _ _ _ b hb with h | hb2
  · simp at h
  have h6 := strip_bytes (ReplaceAll (ReplaceAll (ReplaceAll (ReplaceAll
      (TrimSpace (ToLower caseTable title)) (str "ü") (str "ue")) (str "ä") (str "ae"))
      (str "ö") (str "öe")) (str "ß") (str "ss"))
  have hascii : ∀ x ∈ whitespaceRegex.ReplaceAllString (ReplaceAll (ReplaceAll (ReplaceAll
      (ReplaceAll (TrimSpace (ToLower caseTable title)) (str "ü") (str "ue")) (str "ä")
      (str "ae")) (str "ö") (str "öe")) (str "ß") (str "ss")) [], x < 0x80 := by
    intro x hx
    have := (h6 x hx).2
    simp only [isWordChar, isPerlSpace, Bool.or_eq_true, Bool.and_eq_true, decide_eq_true_eq,
      beq_iff_eq] at this
    omega
  rcases collapse_bytes _ hascii b hb2 with rfl | ⟨hmem, hq⟩
  · rfl
  · have hw := (h6 b hmem).2
    have hup := h5 b (h6 b hmem).1
    simp only [isWordChar, isPerlSpace, Bool.or_eq_true, Bool.and_eq_true, decide_eq_true_eq,
      beq_iff_eq] at hw
    simp only [isPerlSpace, Bool.or_eq_false_iff, beq_eq_false_iff_ne, ne_eq] at hq
    simp only [isSlugByte, Bool.or_eq_true, Bool.and_eq_true, decide_eq_true_eq, beq_iff_eq]
    omega

/-- C5: the title-mode url consists only of the bytes `a` to `z`, `0` to `9` and
the hyphen, for every title (any byte string) and every instant; the Unicode case
table is any table that maps no rune above 0x7F to an upper-case ASCII letter. -/
theorem generateUrl_bytes (caseTable : Nat → Nat)
    (hc : ∀ r, 0x7F < r → ¬ (65 ≤ caseTable r ∧ caseTable r ≤ 90))
    (t : Time) (title filename : GoString) :
    ∀ b ∈ generateUrl caseTable t title filename, isSlugByte b = true := by
  intro b hb
  have hstr : str "-" = [45] := by decide
  simp only [generateUrl, generateUrlWith, USE_FILENAME_AS_URL, Bool.false_eq_true, if_false,
    hstr] at hb
  split at hb
  · simp only [List.mem_append, List.mem_singleton] at hb
    rcases hb with (h | rfl) | h
    · exact Format_bytes t b h
    · rfl
    · exact cleanSlug_bytes caseTable hc title b h
  · simp only [List.mem_append, List.mem_singleton] at hb
    rcases hb with (h | rfl) | h
    · exact Format_bytes t b h
    · rfl
    · rcases Join_subset _ _ b h with h1 | ⟨p, hp, h1⟩
      · simp only [List.mem_singleton] at h1
        subst h1
        rfl
      · have hp2 := (List.take_sublist _ _).subset hp
        have hb2 := Split_subset _ _ p hp2 b h1
        simp only [slice, List.drop_zero] at hb2
        exact cleanSlug_bytes caseTable hc title b ((List.take_sublist _ _).subset hb2)

set_option maxRecDepth 100000 in
theorem generateUrl_bytes_witness :
    (∀ r, 0x7F < r → ¬ (65 ≤ latin1Case r ∧ latin1Case r ≤ 90)) ∧
    generateUrl latin1Case ⟨1682942400, 0, 0⟩ (str " Ärger_mit  ÖL & Straße: Wie GEHT das? ") (str "f")
      = str "2023-05-01-aerger-mit-el-strasse-wie-geht-das" ∧
    ∀ b ∈ generateUrl latin1Case ⟨1682942400, 0, 0⟩
        (str " Ärger_mit  ÖL & Straße: Wie GEHT das? ") (str "f"), isSlugByte b = true := by
  have hc : ∀ r, 0x7F < r → ¬ (65 ≤ latin1Case r ∧ latin1Case r ≤ 90) := by
    intro r hr
    simp only [latin1Case]
    split_ifs <;> omega
  exact ⟨hc, by decide,
    generateUrl_bytes latin1Case hc ⟨1682942400, 0, 0⟩
      (str " Ärger_mit  ÖL & Straße: Wie GEHT das? ") (str "f")⟩

/-! ## The submission loop under a transport failure -/

set_option maxRecDepth 100000 in
/-- C13: with two valid records and a transport that fails without a response,
the run ends in a run-time panic (exit code 2) after the first `client.Do`: only
the first record is attempted, the second never is, and nothing is logged. -/
theorem main_transport_failure_stops :
    main twoFiles noCase refusingNet =
      ⟨2, [], [payload (helloRecord (str "a"))], [payload (helloRecord (str "a"))]⟩ ∧
    (scanLoop twoFiles noCase [str "a", str "c"] {}).postRequests =
      [helloRecord (str "a"), helloRecord (str "c")] := by
  decide

/-! ## Over-stripping of a body that ends in `+` -/

set_option maxRecDepth 100000 in
/-- C16: the fenced file whose body is `I like C++` is accepted, and the content
of its record is `I like C`: the two trailing `+` are lost, so the content differs
from the JSON-escaped trimmed body as written in the file. -/
theorem validateItem_cpp_body_stripped :
    (validateItem (oneFile cppFile) noCase (str "f")).err = none ∧
    (validateItem (oneFile cppFile) noCase (str "f")).post.content = str "I like C" ∧
    (validateItem (oneFile cppFile) noCase (str "f")).post.content
      ≠ jsonEscape (TrimSpace (str "I like C++")) := by
  decide

/-! ## The truncation branch of `generateUrl` -/

theorem generateUrl_eq_slugPart (caseTable : Nat → Nat) (t : Time) (title filename : GoString) :
    generateUrl caseTable t title filename = t.Format ++ [45] ++ slugPart caseTable title := by
  have hstr : str "-" = [45] := by decide
  simp only [generateUrl, generateUrlWith, USE_FILENAME_AS_URL, Bool.false_eq_true, if_false,
    slugPart, hstr]
  split <;> rfl

theorem Split_hyphen (s : GoString) : Split s (str "-") = splitAux [45] 0 [] s := by
  have hstr : str "-" = [45] := by decide
  simp [Split, hstr]

theorem splitAux_byte_of_not_mem (c : Nat) (cur s : GoString) (h : c ∉ s) :
    splitAux [c] 0 cur s = [cur.reverse ++ s] := by
  induction s generalizing cur with
  | nil => simp [splitAux]
  | cons b rest ih =>
    have hb : c ≠ b := fun e => h (by simp [e])
    rw [splitAux_byte_cons, if_neg hb, ih _ (fun hm => h (List.mem_cons_of_mem _ hm))]
    simp

theorem Format_length (t : Time) (hy : 0 ≤ t.year ∧ t.year ≤ 9999) : t.Format.length = 10 := by
  obtain ⟨y, m, d, hf, h4, h2, h2d, _⟩ := Format_shape t hy
  rw [hf]
  simp [h4, h2, h2d]

/-- C15: for an instant with a four-digit year and a title whose cleaned slug has
at least 40 bytes and no hyphen among the first 40, the title-mode url is the
ten-byte date followed by one hyphen and nothing else. -/
theorem generateUrl_long_no_hyphen (caseTable : Nat → Nat) (t : Time)
    (title filename : GoString) (hy : 0 ≤ t.year ∧ t.year ≤ 9999)
    (hl : 40 ≤ (cleanSlug caseTable title).length)
    (hh : 45 ∉ (cleanSlug caseTable title).take 40) :
    generateUrl caseTable t title filename = t.Format ++ [45] ∧ t.Format.length = 10 := by
  refine ⟨?_, Format_length t hy⟩
  rw [generateUrl_eq_slugPart]
  have hnot : ¬ (cleanSlug caseTable title).length < 40 := by omega
  have hsl : slice (cleanSlug caseTable title) 0 40 = (cleanSlug caseTable title).take 40 := by
    simp [slice]
  simp only [slugPart, hnot, if_false, hsl, Split_hyphen,
    splitAux_byte_of_not_mem 45 [] _ hh]
  simp [Join]

set_option maxRecDepth 100000 in
theorem generateUrl_long_no_hyphen_witness :
    (0 ≤ Time.year ⟨1682942400, 0, 0⟩ ∧ Time.year ⟨1682942400, 0, 0⟩ ≤ 9999) ∧
    40 ≤ (cleanSlug noCase (str "Donaudampfschifffahrtsgesellschaftskapitaenswitwe")).length ∧
    generateUrl noCase ⟨1682942400, 0, 0⟩
      (str "Donaudampfschifffahrtsgesellschaftskapitaenswitwe") (str "f") = str "2023-05-01-" := by
  have h := generateUrl_long_no_hyphen noCase ⟨1682942400, 0, 0⟩
    (str "Donaudampfschifffahrtsgesellschaftskapitaenswitwe") (str "f")
    (by decide) (by decide) (by decide)
  refine ⟨by decide, by decide, ?_⟩
  rw [h.1]
  decide

theorem Join_length_le (l : List GoString) (sep : GoString) (h : 2 ≤ l.length) :
    (Join (l.take (l.length - 1)) sep).length + sep.length ≤ (Join l sep).length := by
  have e := Join_take_getLast l sep h
  have e2 := congrArg List.length e
  simp only [List.length_append] at e2
  omega

theorem slugPart_length (caseTable : Nat → Nat) (title : GoString) :
    (slugPart caseTable title).length ≤ 39 := by
  simp only [slugPart]
  split
  · omega
  · rw [Split_hyphen]
    by_cases h2 : 2 ≤ (splitAux [45] 0 [] (slice (cleanSlug caseTable title) 0 40)).length
    · have h := Join_length_le _ [45] h2
      rw [Join_splitAux_byte] at h
      have hstr : str "-" = [45] := by decide
      rw [hstr]
      have hsl : (slice (cleanSlug caseTable title) 0 40).length ≤ 40 := by
        simp only [slice, List.drop_zero, List.length_take]
        omega
      simp only [List.reverse_nil, List.nil_append, List.length_singleton] at h
      omega
    · have h1 : (splitAux [45] 0 [] (slice (cleanSlug caseTable title) 0 40)).length - 1 = 0 := by
        omega
      rw [h1]
      simp [Join]

/-- C17: for every title and every instant with a four-digit year the title-mode
url has at most 50 bytes: it is the ten-byte date, a hyphen, and a slug part of at
most 39 bytes, in the short branch and in the truncating branch alike. -/
theorem generateUrl_length (caseTable : Nat → Nat) (t : Time) (title filename : GoString)
    (hy : 0 ≤ t.year ∧ t.year ≤ 9999) :
    (generateUrl caseTable t title filename).length ≤ 50 ∧
    generateUrl caseTable t title filename = t.Format ++ [45] ++ slugPart caseTable title ∧
    t.Format.length = 10 ∧ (slugPart caseTable title).length ≤ 39 := by
  have h1 := generateUrl_eq_slugPart caseTable t title filename
  have h2 := Format_length t hy
  have h3 := slugPart_length caseTable title
  refine ⟨?_, h1, h2, h3⟩
  rw [h1]
  simp only [List.length_append, List.length_singleton]
  omega

set_option maxRecDepth 100000 in
theorem generateUrl_length_witness :
    (0 ≤ Time.year ⟨1682942400, 0, 0⟩ ∧ Time.year ⟨1682942400, 0, 0⟩ ≤ 9999) ∧
    (generateUrl noCase ⟨1682942400, 0, 0⟩
      (str "A very long title that goes on and on and on forever") (str "f")).length ≤ 50 ∧
    generateUrl noCase ⟨1682942400, 0, 0⟩
      (str "A very long title that goes on and on and on forever") (str "f")
      = str "2023-05-01-a-very-long-title-that-goes-on-and-on" :=
  ⟨by decide,
    (generateUrl_length noCase ⟨1682942400, 0, 0⟩
      (str "A very long title that goes on and on and on forever") (str "f") (by decide)).1,
    by decide⟩

/-! ## Slice and index operations -/

/-- The cleaned slug is pure ASCII, whatever the case table. -/
theorem cleanSlug_ascii (caseTable : Nat → Nat) (title : GoString) :
    ∀ b ∈ cleanSlug caseTable title, b < 0x80 := by
  intro b hb
  simp only [cleanSlug] at hb
  rcases ReplaceAllString_subset _ _ _ b hb with h | hb2
  · simp at h
  have h6 := strip_bytes (ReplaceAll (ReplaceAll (ReplaceAll (ReplaceAll
      (TrimSpace (ToLower caseTable title)) (str "ü") (str "ue")) (str "ä") (str "ae"))
      (str "ö") (str "öe")) (str "ß") (str "ss"))
  have hascii : ∀ x ∈ whitespaceRegex.ReplaceAllString (ReplaceAll (ReplaceAll (ReplaceAll
      (ReplaceAll (TrimSpace (ToLower caseTable title)) (str "ü") (str "ue")) (str "ä")
      (str "ae")) (str "ö") (str "öe")) (str "ß") (str "ss")) [], x < 0x80 := by
    intro x hx
    have := (h6 x hx).2
    simp only [isWordChar, isPerlSpace, Bool.or_eq_true, Bool.and_eq_true, decide_eq_true_eq,
      beq_iff_eq] at this
    omega
  rcases collapse_bytes _ hascii b hb2 with rfl | ⟨hmem, _⟩
  · decide
  · exact hascii b hmem

theorem unrunes_map_byte (l : GoString) :
    unrunes (l.map (fun b => (⟨b, [b]⟩ : Tok))) = l := by
  induction l with
  | nil => rfl
  | cons a rest ih =>
    simp only [unrunes] at ih
    simp [unrunes, ih]

/-- In a pure-ASCII text a cut after `n` bytes is a cut after `n` runes. -/
theorem take_runes_of_ascii (s : GoString) (h : ∀ b ∈ s, b < 0x80) (n : Nat) :
    unrunes ((runes s).take n) = s.take n := by
  rw [runes, runesAux_of_ascii s h, ← List.map_take, unrunes_map_byte]

theorem findFrom_length (re : Re) (n : Nat) (ts : List Tok) :
    re.findFrom n ts = [] ∨ (re.findFrom n ts).length = re.numGroups + 1 := by
  induction ts with
  | nil =>
    simp only [Re.findFrom]
    split
    · right; simp [submatches]
    · left; rfl
  | cons t ts ih =>
    simp only [Re.findFrom]
    split
    · right; simp [submatches]
    · exact ih

theorem FindStringSubmatch_length (re : Re) (s : GoString) :
    re.FindStringSubmatch s = [] ∨ (re.FindStringSubmatch s).length = re.numGroups + 1 :=
  findFrom_length re _ _

/-- C19: the slice and index operations of `validateItem` and `generateUrl` stay
in range.  The split of the file content, of the first 40 slug bytes and of the
file name each have at least one element (so `split[0]`, `split[1:]` and the two
`[:len-1]` exist); `slug[:40]` is reached only with at least 40 bytes and cuts at a
rune boundary, the cleaned slug being pure ASCII; a marshalled string has at least
two bytes, and `[1:len-1]` of it is the escaped text; each pattern result has no
element or two, so index 1 exists whenever the length guard passes. -/
theorem slices_in_range :
    (∀ file : GoString, 1 ≤ (Split (cleanContent file) (str "+++")).length) ∧
    (∀ (caseTable : Nat → Nat) (title : GoString),
      ¬ (cleanSlug caseTable title).length < 40 →
        (slice (cleanSlug caseTable title) 0 40).length = 40 ∧
        1 ≤ (Split (slice (cleanSlug caseTable title) 0 40) (str "-")).length) ∧
    (∀ (caseTable : Nat → Nat) (title : GoString),
      (∀ b ∈ cleanSlug caseTable title, b < 0x80) ∧
      unrunes ((runes (cleanSlug caseTable title)).take 40)
        = slice (cleanSlug caseTable title) 0 40) ∧
    (∀ filename : GoString, 1 ≤ (Split filename (str ".")).length) ∧
    (∀ s m : GoString, Marshal s = Except.ok m →
      2 ≤ m.length ∧ slice m 1 (m.length - 1) = jsonEscape s) ∧
    (∀ header : GoString,
      ((titleRegex.FindStringSubmatch header).length = 0 ∨
        (titleRegex.FindStringSubmatch header).length = 2) ∧
      ((draftRegex.FindStringSubmatch header).length = 0 ∨
        (draftRegex.FindStringSubmatch header).length = 2) ∧
      ((dateRegex.FindStringSubmatch header).length = 0 ∨
        (dateRegex.FindStringSubmatch header).length = 2)) := by
  have hsplit : ∀ s sep : GoString, sep ≠ [] → 1 ≤ (Split s sep).length := by
    intro s sep hsep
    simp only [Split, hsep, if_false]
    exact List.length_pos.mpr (splitAux_ne_nil sep 0 [] s)
  have hfind : ∀ (re : Re) (k : Nat) (header : GoString), re.numGroups + 1 = k →
      (re.FindStringSubmatch header).length = 0 ∨ (re.FindStringSubmatch header).length = k := by
    intro re k header hk
    rcases FindStringSubmatch_length re header with h | h
    · left; simp [h]
    · right; omega
  refine ⟨fun file => hsplit _ _ (by decide), ?_, ?_, fun f => hsplit _ _ (by decide), ?_, ?_⟩
  · intro caseTable title hlen
    refine ⟨?_, hsplit _ _ (by decide)⟩
    simp only [slice, List.drop_zero, List.length_take]
    omega
  · intro caseTable title
    refine ⟨cleanSlug_ascii caseTable title, ?_⟩
    rw [take_runes_of_ascii _ (cleanSlug_ascii caseTable title)]
    simp [slice]
  · intro s m hm
    rw [Marshal_eq] at hm
    cases hm
    refine ⟨by simp, slice_quoted _⟩
  · intro header
    exact ⟨hfind titleRegex 2 header (by decide), hfind draftRegex 2 header (by decide),
      hfind dateRegex 2 header (by decide)⟩

set_option maxRecDepth 100000 in
theorem slices_in_range_witness :
    ¬ (cleanSlug noCase (str "A very long title that goes on and on and on forever")).length < 40 ∧
    (slice (cleanSlug noCase (str "A very long title that goes on and on and on forever"))
      0 40).length = 40 ∧
    Marshal (str "a\tb") = Except.ok (str "\"a\\tb\"") ∧ 2 ≤ (str "\"a\\tb\"").length := by
  have hm : Marshal (str "a\tb") = Except.ok (str "\"a\\tb\"") := by
    rw [Marshal_eq]
    exact congrArg Except.ok (by decide)
  exact ⟨by decide,
    (slices_in_range.2.1 noCase (str "A very long title that goes on and on and on forever")
      (by decide)).1,
    hm, (slices_in_range.2.2.2.2.1 (str "a\tb") (str "\"a\\tb\"") hm).1⟩

/-! ## Parsing of the `CET` and `CEST` forms -/

theorem isDigit_add (k : Nat) (h : k ≤ 9) : isDigit (48 + k) = true := by
  simp only [isDigit, Bool.and_eq_true, decide_eq_true_eq]
  omega

theorem getnum_pad2 (n : Nat) (h : n < 100) (rest : GoString) (fixed : Bool) :
    getnum ((48 + n / 10) :: (48 + n % 10) :: rest) fixed = some (n, rest) := by
  have h1 : isDigit (48 + n / 10) = true := isDigit_add _ (by omega)
  have h2 : isDigit (48 + n % 10) = true := isDigit_add _ (by omega)
  simp only [getnum, h1, h2, if_true]
  congr 2
  omega

theorem atoiDigits_pad4 (y : Nat) (h : y ≤ 9999) :
    atoiDigits [48 + y / 1000, 48 + y / 100 % 10, 48 + y / 10 % 10, 48 + y % 10] = some y := by
  have h1 : isDigit (48 + y / 1000) = true := isDigit_add _ (by omega)
  have h2 : isDigit (48 + y / 100 % 10) = true := isDigit_add _ (by omega)
  have h3 : isDigit (48 + y / 10 % 10) = true := isDigit_add _ (by omega)
  have h4 : isDigit (48 + y % 10) = true := isDigit_add _ (by omega)
  simp only [atoiDigits, List.all_cons, h1, h2, h3, h4, List.all_nil, Bool.and_self, ne_eq,
    reduceCtorEq, not_false_eq_true, and_self, if_true, List.foldl_cons, List.foldl_nil]
  congr 1
  omega

theorem str_CET : str "CET" = [67, 69, 84] := by decide
theorem str_CEST : str "CEST" = [67, 69, 83, 84] := by decide
theorem str_sp_CET : str " CET" = [32, 67, 69, 84] := by decide
theorem str_sp_CEST : str " CEST" = [32, 67, 69, 83, 84] := by decide
theorem str_Z : str "Z" = [90] := by decide

theorem parseDate_CET_layout (y mo d h mi s oh om : Nat) (minus : Bool) :
    parseDate (zonedText y mo d h mi s minus oh om (str "CET"))
      = Parse layoutCET (zonedText y mo d h mi s minus oh om (str "CET")) := by
  simp [parseDate, zonedText, pad2, pad4, HasSuffix, str_CET, str_Z]

theorem parseDate_CEST_layout (y mo d h mi s oh om : Nat) (minus : Bool) :
    parseDate (zonedText y mo d h mi s minus oh om (str "CEST"))
      = Parse layoutCEST (zonedText y mo d h mi s minus oh om (str "CEST")) := by
  simp [parseDate, zonedText, pad2, pad4, HasSuffix, str_CET, str_CEST, str_Z]


theorem digit_ne_space (k : Nat) : ((48 + k) == 32) = false := by
  simp only [beq_eq_false_iff_ne, ne_eq]
  omega

theorem Parse_zoned (y mo d h mi s oh om : Nat) (minus : Bool) (zone : GoString)
    (hz : zone = [67, 69, 84] ∨ zone = [67, 69, 83, 84])
    (hy : y ≤ 9999) (hmo : 1 ≤ mo ∧ mo ≤ 12) (hd : 1 ≤ d ∧ d ≤ daysIn mo y)
    (hh : h ≤ 23) (hmi : mi ≤ 59) (hs : s ≤ 59) (hoh : oh ≤ 24) (hom : om ≤ 60) :
    Parse (dateTimeChunks 32 ++ [.lit [32], .stdNumTZ, .lit (32 :: zone)])
        (zonedText y mo d h mi s minus oh om zone)
      = some (Date y mo d h mi s 0 (writtenOffset minus oh om)) := by
  have hd31 : d ≤ 31 := by
    have : daysIn mo y ≤ 31 := by
      simp only [daysIn]
      split_ifs <;> omega
    omega
  have g1 := getnum_pad2 mo (by omega)
  have g2 := getnum_pad2 d (by omega)
  have g3 := getnum_pad2 h (by omega)
  have g4 := getnum_pad2 mi (by omega)
  have g5 := getnum_pad2 s (by omega)
  have g6 := getnum_pad2 oh (by omega) []
  have g7 := getnum_pad2 om (by omega) []
  have gy := atoiDigits_pad4 y hy
  have c1 : ¬ (mo = 0 ∨ 12 < mo) := by omega
  have c2 : ¬ 24 ≤ h := by omega
  have c3 : ¬ 60 ≤ mi := by omega
  have c4 : ¬ 60 ≤ s := by omega
  have c5 : ¬ (24 < oh ∨ 60 < om) := by omega
  have c6 : ¬ (d < 1 ∨ daysIn mo y < d) := by omega
  rcases hz with rfl | rfl <;> cases minus <;>
    simp [Parse, dateTimeChunks, parseChunks, parseChunk, zonedText, pad2, pad4, skipAux,
      zoneOffsetOf, writtenOffset, digit_ne_space, g1, g2, g3, g4, g5, g6, g7, gy, c1, c2, c3,
      c4, c5, c6] <;>
    exact ⟨by omega, hd.2⟩

/-- C12: a date text `YYYY-MM-DD HH:MM:SS ±HHMM CET` with valid field values parses
to the instant of the written date and time minus the written offset, and the same
text with `CEST` parses to the same instant: the zone name is only matched as
literal text. -/
theorem parseDate_zoned (y mo d h mi s oh om : Nat) (minus : Bool)
    (hy : y ≤ 9999) (hmo : 1 ≤ mo ∧ mo ≤ 12) (hd : 1 ≤ d ∧ d ≤ daysIn mo y)
    (hh : h ≤ 23) (hmi : mi ≤ 59) (hs : s ≤ 59) (hoh : oh ≤ 24) (hom : om ≤ 60) :
    parseDate (zonedText y mo d h mi s minus oh om (str "CET"))
      = some ⟨daysFromCivil y mo d * 86400 + (h * 3600 + mi * 60 + s : Nat)
          - writtenOffset minus oh om, 0, writtenOffset minus oh om⟩ ∧
    parseDate (zonedText y mo d h mi s minus oh om (str "CEST"))
      = parseDate (zonedText y mo d h mi s minus oh om (str "CET")) ∧
    ∀ t1 t2, parseDate (zonedText y mo d h mi s minus oh om (str "CET")) = some t1 →
      parseDate (zonedText y mo d h mi s minus oh om (str "CEST")) = some t2 →
      t1.UnixMilli = t2.UnixMilli ∧
      t1.UnixMilli = (daysFromCivil y mo d * 86400 + (h * 3600 + mi * 60 + s : Nat)
          - writtenOffset minus oh om) * 1000 := by
  have e1 : parseDate (zonedText y mo d h mi s minus oh om (str "CET"))
      = some (Date y mo d h mi s 0 (writtenOffset minus oh om)) := by
    rw [parseDate_CET_layout, layoutCET, str_sp_CET, str_CET]
    exact Parse_zoned y mo d h mi s oh om minus _ (Or.inl rfl) hy hmo hd hh hmi hs hoh hom
  have e2 : parseDate (zonedText y mo d h mi s minus oh om (str "CEST"))
      = some (Date y mo d h mi s 0 (writtenOffset minus oh om)) := by
    rw [parseDate_CEST_layout, layoutCEST, str_sp_CEST, str_CEST]
    exact Parse_zoned y mo d h mi s oh om minus _ (Or.inr rfl) hy hmo hd hh hmi hs hoh hom
  refine ⟨by rw [e1]; rfl, by rw [e1, e2], ?_⟩
  intro t1 t2 h1 h2
  rw [e1] at h1
  rw [e2] at h2
  cases h1
  cases h2
  refine ⟨rfl, ?_⟩
  simp [Time.UnixMilli, Date]

set_option maxRecDepth 100000 in
theorem parseDate_zoned_witness :
    (1 ≤ 5 ∧ 5 ≤ 12) ∧ (1 ≤ 1 ∧ 1 ≤ daysIn 5 2023) ∧
    zonedText 2023 5 1 12 0 0 false 2 0 (str "CET") = str "2023-05-01 12:00:00 +0200 CET" ∧
    parseDate (str "2023-05-01 12:00:00 +0200 CET") = some ⟨1682935200, 0, 7200⟩ ∧
    parseDate (zonedText 2023 5 1 12 0 0 false 2 0 (str "CEST"))
      = parseDate (zonedText 2023 5 1 12 0 0 false 2 0 (str "CET")) := by
  have h := parseDate_zoned 2023 5 1 12 0 0 2 0 false (by decide) (by decide) (by decide)
    (by decide) (by decide) (by decide) (by decide) (by decide)
  exact ⟨by decide, by decide, by decide, by decide, h.2.1⟩

/-! ## Exact results of the collapsing and trimming replacements -/

/-- Passing over the rest of a match is dropping its runes. -/
theorem replaceFrom_skip (re : Re) (n : Nat) (repl : GoString) (k : Nat) (pe : Bool)
    (ts : List Tok) :
    re.replaceFrom n repl k pe ts = re.replaceFrom n repl 0 pe (ts.drop k) := by
  induction ts generalizing k with
  | nil => cases k <;> simp [Re.replaceFrom]
  | cons t ts ih =>
    cases k with
    | zero => rfl
    | succ k => simpa [Re.replaceFrom] using ih k

/-- Greedy repetition before a continuation that always succeeds takes the longest
run. -/
theorem manyK_total {R : Type} (p : Nat → Bool) (f : List Tok → R) (ts : List Tok) :
    manyK p (fun s => some (f s)) ts = some (f (ts.dropWhile (fun t => p t.rune))) := by
  induction ts with
  | nil => rfl
  | cons t ts ih =>
    by_cases hp : p t.rune = true
    · simp [manyK, hp, ih, Option.orElse]
    · simp [manyK, hp]

/-- Greedy repetition before the end-of-text test succeeds exactly when the run
reaches the end of the text. -/
theorem manyK_eot {R : Type} (p : Nat → Bool) (r : R) (ts : List Tok) :
    manyK p (fun s => if s.isEmpty then some r else none) ts
      = if ts.all (fun t => p t.rune) then some r else none := by
  induction ts with
  | nil => rfl
  | cons t ts ih =>
    by_cases hp : p t.rune = true
    · simp only [manyK, hp, if_true, ih, List.all_cons, Bool.true_and]
      split <;> simp [Option.orElse]
    · simp [manyK, hp]

theorem drop_length_sub_of_append {α : Type} (tw dw l : List α) (h : tw ++ dw = l) :
    l.drop (l.length - dw.length) = dw := by
  subst h
  simp

theorem drop_length_sub_dropWhile {α : Type} (p : α → Bool) (l : List α) :
    l.drop (l.length - (l.dropWhile p).length) = l.dropWhile p :=
  drop_length_sub_of_append _ _ _ (List.takeWhile_append_dropWhile p l)

theorem length_dropWhile_le_length {α : Type} (p : α → Bool) (l : List α) :
    (l.dropWhile p).length ≤ l.length := by
  have h := congrArg List.length (List.takeWhile_append_dropWhile p l)
  simp only [List.length_append] at h
  omega

/-- One step of the replacement for `[\s_-]+`: a rune of the class starts a match
that covers the whole run, any other rune is copied. -/
theorem hyphen_replaceFrom_cons (n : Nat) (pe : Bool) (t : Tok) (ts : List Tok) :
    hyphenRegex.replaceFrom n (str "-") 0 pe (t :: ts) =
      if (isPerlSpace t.rune || t.rune == 95 || t.rune == 45) = true then
        45 :: hyphenRegex.replaceFrom n (str "-") 0 true
          (ts.dropWhile (fun u => isPerlSpace u.rune || u.rune == 95 || u.rune == 45))
      else t.src ++ hyphenRegex.replaceFrom n (str "-") 0 false ts := by
  have hstr : str "-" = [45] := by decide
  by_cases hq : (isPerlSpace t.rune || t.rune == 95 || t.rune == 45) = true
  · have hm : hyphenRegex.matchHere n (t :: ts) =
        some (ts.dropWhile (fun u => isPerlSpace u.rune || u.rune == 95 || u.rune == 45), []) := by
      simp only [Re.matchHere, hyphenRegex, Re.many1, Re.run, hq, if_true]
      exact manyK_total _ (fun s => (s, ([] : List (Nat × GoString)))) ts
    have hle := length_dropWhile_le_length
      (fun u : Tok => isPerlSpace u.rune || u.rune == 95 || u.rune == 45) ts
    have hne : ¬ ((t :: ts).length -
        (ts.dropWhile (fun u => isPerlSpace u.rune || u.rune == 95 || u.rune == 45)).length = 0) := by
      simp only [List.length_cons]
      omega
    rw [if_pos hq]
    simp only [Re.replaceFrom, hm, hne, if_false]
    rw [replaceFrom_skip]
    have e : (t :: ts).length -
        (ts.dropWhile (fun u => isPerlSpace u.rune || u.rune == 95 || u.rune == 45)).length - 1
        = ts.length -
          (ts.dropWhile (fun u => isPerlSpace u.rune || u.rune == 95 || u.rune == 45)).length := by
      simp only [List.length_cons]
      omega
    rw [e, drop_length_sub_dropWhile, hstr]
    rfl
  · have hm : hyphenRegex.matchHere n (t :: ts) = none := by
      simp only [Re.matchHere, hyphenRegex, Re.many1, Re.run, hq]
      rfl
    rw [if_neg hq]
    simp only [Re.replaceFrom, hm]

theorem hyphen_replaceFrom_nil (n : Nat) (pe : Bool) :
    hyphenRegex.replaceFrom n (str "-") 0 pe [] = [] := by
  simp [Re.replaceFrom, Re.matchHere, hyphenRegex, Re.many1, Re.run]

/-- After runs of `[\s_-]` have been replaced by a hyphen in a text of one-byte
runes, no two hyphens are adjacent, and the result starts with a hyphen only if
the text starts with a rune of the class. -/
theorem hyphen_replaceFrom_chain (n m : Nat) (ts : List Tok) (hlen : ts.length ≤ m)
    (hsrc : ∀ t ∈ ts, t.src = [t.rune]) (pe : Bool) :
    List.Chain' (fun a b : Nat => ¬ (a = 45 ∧ b = 45))
        (hyphenRegex.replaceFrom n (str "-") 0 pe ts) ∧
      (∀ x ∈ (hyphenRegex.replaceFrom n (str "-") 0 pe ts).head?, x = 45 →
        ∃ t ∈ ts.head?, (isPerlSpace t.rune || t.rune == 95 || t.rune == 45) = true) := by
  induction m generalizing ts pe with
  | zero =>
    have : ts = [] := List.length_eq_zero.mp (by omega)
    subst this
    simp [hyphen_replaceFrom_nil]
  | succ m ih =>
    cases ts with
    | nil => simp [hyphen_replaceFrom_nil]
    | cons t ts =>
      rw [hyphen_replaceFrom_cons]
      by_cases hq : (isPerlSpace t.rune || t.rune == 95 || t.rune == 45) = true
      · rw [if_pos hq]
        have hle := length_dropWhile_le_length
          (fun u : Tok => isPerlSpace u.rune || u.rune == 95 || u.rune == 45) ts
        have hsub : ∀ u ∈ ts.dropWhile
            (fun u : Tok => isPerlSpace u.rune || u.rune == 95 || u.rune == 45),
            u.src = [u.rune] := fun u hu =>
          hsrc u (List.mem_cons_of_mem _ ((List.dropWhile_sublist _).subset hu))
        obtain ⟨hc, hh⟩ := ih _ (by simp only [List.length_cons] at hlen; omega) hsub true
        refine ⟨?_, ?_⟩
        · rw [List.chain'_cons']
          refine ⟨?_, hc⟩
          intro y hy hboth
          obtain ⟨u, hu, hqu⟩ := hh y hy hboth.2
          have hnot := List.head?_dropWhile_not
            (fun u : Tok => isPerlSpace u.rune || u.rune == 95 || u.rune == 45) ts
          rw [Option.mem_def] at hu
          rw [hu] at hnot
          simp only at hnot
          rw [hnot] at hqu
          exact Bool.noConfusion hqu
        · intro x _ _
          exact ⟨t, by simp, hq⟩
      · rw [if_neg hq]
        have ht : t.src = [t.rune] := hsrc t (List.mem_cons_self _ _)
        have hne : t.rune ≠ 45 := by
          intro e
          rw [e] at hq
          exact hq (by decide)
        obtain ⟨hc, _⟩ := ih ts (by simp only [List.length_cons] at hlen; omega)
          (fun u hu => hsrc u (List.mem_cons_of_mem _ hu)) false
        rw [ht]
        refine ⟨?_, ?_⟩
        · simp only [List.singleton_append]
          rw [List.chain'_cons']
          exact ⟨fun y _ hboth => hne hboth.1, hc⟩
        · intro x hx h45
          simp only [List.singleton_append, List.head?_cons, Option.mem_def,
            Option.some.injEq] at hx
          exact absurd (hx.trans h45) hne

/-! ### The pattern `^-+|-+$` -/

theorem duplicate_matchHere_inner (n : Nat) (t : Tok) (ts : List Tok)
    (hpos : (t :: ts).length ≠ n) :
    duplicateRegex.matchHere n (t :: ts) =
      if (t.rune == 45) = true ∧ ts.all (fun u => u.rune == 45) = true then some ([], [])
      else none := by
  by_cases ht : (t.rune == 45) = true
  · simp only [Re.matchHere, duplicateRegex, Re.many1, Re.run, hpos, if_false, ht, if_true,
      Option.orElse, true_and]
    have h := manyK_eot (fun r => r == 45) (([] : List Tok), ([] : List (Nat × GoString))) ts
    have e : (fun s1 : List Tok =>
        if s1.isEmpty = true then some (s1, ([] : List (Nat × GoString))) else none)
        = (fun s : List Tok => if s.isEmpty = true then some ([], []) else none) := by
      funext s1
      cases s1 <;> rfl
    rw [e]
    exact h
  · simp [Re.matchHere, duplicateRegex, Re.many1, Re.run, hpos, ht, Option.orElse]

theorem duplicate_matchHere_nil (n : Nat) : duplicateRegex.matchHere n [] = none := by
  simp [Re.matchHere, duplicateRegex, Re.many1, Re.run, Option.orElse]

theorem duplicate_matchHere_start (t : Tok) (ts : List Tok) :
    duplicateRegex.matchHere (t :: ts).length (t :: ts) =
      if (t.rune == 45) = true then some (ts.dropWhile (fun u => u.rune == 45), [])
      else none := by
  by_cases ht : (t.rune == 45) = true
  · simp only [Re.matchHere, duplicateRegex, Re.many1, Re.run, if_true, ht]
    rw [manyK_total (fun r => r == 45) (fun s => (s, ([] : List (Nat × GoString)))) ts]
    rfl
  · simp [Re.matchHere, duplicateRegex, Re.many1, Re.run, ht, Option.orElse]

theorem rdropWhile_cons {α : Type} (p : α → Bool) (a : α) (l : List α) :
    (a :: l).rdropWhile p = if l.all p = true ∧ p a = true then [] else a :: l.rdropWhile p := by
  induction l using List.reverseRecOn generalizing a with
  | nil => by_cases h : p a = true <;> simp [List.rdropWhile, h]
  | append_singleton l x ih =>
    rw [← List.cons_append]
    by_cases hx : p x = true
    · rw [List.rdropWhile_concat_pos _ _ _ hx, List.rdropWhile_concat_pos _ _ _ hx, ih]
      simp [hx]
    · rw [List.rdropWhile_concat_neg _ _ _ hx, List.rdropWhile_concat_neg _ _ _ hx]
      simp [hx]

/-- Away from the start of the text the replacement of `^-+|-+$` by nothing removes
the hyphens at the end. -/
theorem duplicate_replaceFrom_inner (n : Nat) (ts : List Tok) (hpos : ts.length < n)
    (pe : Bool) :
    duplicateRegex.replaceFrom n [] 0 pe ts
      = unrunes (ts.rdropWhile (fun u => u.rune == 45)) := by
  induction ts generalizing pe with
  | nil => simp [Re.replaceFrom, duplicate_matchHere_nil, unrunes, List.rdropWhile]
  | cons t ts ih =>
    have hne : (t :: ts).length ≠ n := by omega
    have hts : ts.length < n := by simp only [List.length_cons] at hpos; omega
    rw [rdropWhile_cons]
    by_cases hall : (t.rune == 45) = true ∧ ts.all (fun u => u.rune == 45) = true
    · have hm := duplicate_matchHere_inner n t ts hne
      rw [if_pos hall] at hm
      rw [if_pos ⟨hall.2, hall.1⟩]
      simp only [Re.replaceFrom, hm, List.length_nil, Nat.sub_zero, List.length_cons,
        Nat.add_one_ne_zero, if_false, List.nil_append, Nat.add_sub_cancel]
      rw [replaceFrom_skip, List.drop_length]
      simp [Re.replaceFrom, duplicate_matchHere_nil, unrunes]
    · have hm := duplicate_matchHere_inner n t ts hne
      rw [if_neg hall] at hm
      rw [if_neg (fun h => hall ⟨h.2, h.1⟩)]
      simp only [Re.replaceFrom, hm, ih hts false]
      simp [unrunes]

/-- The replacement of `^-+|-+$` by nothing removes the hyphens at the start and at
the end of the text. -/
theorem duplicate_ReplaceAllString (s : GoString) :
    duplicateRegex.ReplaceAllString s []
      = unrunes (((runes s).dropWhile (fun u => u.rune == 45)).rdropWhile
          (fun u => u.rune == 45)) := by
  simp only [Re.ReplaceAllString]
  generalize runes s = ts
  cases ts with
  | nil => simp [Re.replaceFrom, duplicate_matchHere_nil, unrunes, List.rdropWhile]
  | cons t ts =>
    have hm := duplicate_matchHere_start t ts
    by_cases ht : (t.rune == 45) = true
    · rw [if_pos ht] at hm
      have hle := length_dropWhile_le_length (fun u : Tok => u.rune == 45) ts
      have hne : ¬ ((t :: ts).length - (ts.dropWhile (fun u => u.rune == 45)).length = 0) := by
        simp only [List.length_cons]
        omega
      have e : (t :: ts).length - (ts.dropWhile (fun u => u.rune == 45)).length - 1
          = ts.length - (ts.dropWhile (fun u => u.rune == 45)).length := by
        simp only [List.length_cons]
        omega
      simp only [Re.replaceFrom, hm, hne, if_false, List.nil_append]
      rw [replaceFrom_skip, e, drop_length_sub_dropWhile,
        duplicate_replaceFrom_inner _ _ (by simp only [List.length_cons]; omega)]
      simp [List.dropWhile_cons, ht]
    · rw [if_neg ht] at hm
      simp only [Re.replaceFrom, hm]
      rw [duplicate_replaceFrom_inner _ _ (by simp)]
      simp only [List.dropWhile_cons, ht, if_false, Bool.false_eq_true]
      rw [rdropWhile_cons]
      simp [ht, unrunes]

/-! ## Hyphens of the slug -/

theorem rdropWhile_map {α β : Type} (f : α → β) (p : β → Bool) (l : List α) :
    (l.map f).rdropWhile p = (l.rdropWhile (p ∘ f)).map f := by
  simp only [List.rdropWhile, ← List.map_reverse, List.dropWhile_map]

theorem chain_index (l : GoString) (h : List.Chain' (fun a b : Nat => ¬ (a = 45 ∧ b = 45)) l) :
    ∀ i, ¬ (l[i]? = some 45 ∧ l[i + 1]? = some 45) := by
  induction l with
  | nil => simp
  | cons a rest ih =>
    rw [List.chain'_cons'] at h
    intro i
    cases i with
    | zero =>
      rintro ⟨h0, h1⟩
      simp only [List.getElem?_cons_zero, Option.some.injEq] at h0
      simp only [Nat.zero_add, List.getElem?_cons_succ] at h1
      cases rest with
      | nil => simp at h1
      | cons b r =>
        simp only [List.getElem?_cons_zero, Option.some.injEq] at h1
        exact h.1 b (by simp) ⟨h0, h1⟩
    | succ k =>
      simp only [List.getElem?_cons_succ]
      exact ih h.2 k

/-- The cleaned slug has no two adjacent hyphens and neither starts nor ends with a
hyphen. -/
theorem cleanSlug_hyphens (caseTable : Nat → Nat) (title : GoString) :
    List.Chain' (fun a b : Nat => ¬ (a = 45 ∧ b = 45)) (cleanSlug caseTable title) ∧
    (cleanSlug caseTable title).head? ≠ some 45 ∧
    (cleanSlug caseTable title).getLast? ≠ some 45 := by
  have h6 := strip_bytes (ReplaceAll (ReplaceAll (ReplaceAll (ReplaceAll
      (TrimSpace (ToLower caseTable title)) (str "ü") (str "ue")) (str "ä") (str "ae"))
      (str "ö") (str "öe")) (str "ß") (str "ss"))
  simp only [cleanSlug]
  generalize whitespaceRegex.ReplaceAllString (ReplaceAll (ReplaceAll (ReplaceAll (ReplaceAll
      (TrimSpace (ToLower caseTable title)) (str "ü") (str "ue")) (str "ä") (str "ae"))
      (str "ö") (str "öe")) (str "ß") (str "ss")) [] = s1 at h6 ⊢
  have hascii1 : ∀ x ∈ s1, x < 0x80 := by
    intro x hx
    have := (h6 x hx).2
    simp only [isWordChar, isPerlSpace, Bool.or_eq_true, Bool.and_eq_true, decide_eq_true_eq,
      beq_iff_eq] at this
    omega
  have hascii2 : ∀ x ∈ hyphenRegex.ReplaceAllString s1 (str "-"), x < 0x80 := by
    intro x hx
    rcases collapse_bytes s1 hascii1 x hx with rfl | ⟨hm, _⟩
    · decide
    · exact hascii1 x hm
  have hchain : List.Chain' (fun a b : Nat => ¬ (a = 45 ∧ b = 45))
      (hyphenRegex.ReplaceAllString s1 (str "-")) := by
    simp only [Re.ReplaceAllString]
    refine (hyphen_replaceFrom_chain _ _ (runes s1) (le_refl _) ?_ false).1
    intro t ht
    rw [runes, runesAux_of_ascii s1 hascii1, List.mem_map] at ht
    obtain ⟨a, _, rfl⟩ := ht
    rfl
  generalize hyphenRegex.ReplaceAllString s1 (str "-") = s2 at hascii2 hchain ⊢
  have hres : duplicateRegex.ReplaceAllString s2 []
      = (s2.dropWhile (fun b => b == 45)).rdropWhile (fun b => b == 45) := by
    rw [duplicate_ReplaceAllString, runes, runesAux_of_ascii s2 hascii2, List.dropWhile_map,
      rdropWhile_map, unrunes_map_byte]
    rfl
  rw [hres]
  refine ⟨?_, ?_, ?_⟩
  · exact List.Chain'.prefix (hchain.suffix (List.dropWhile_suffix _)) ( List.rdropWhile_prefix _ _)
  · intro hhead
    have hpre : (s2.dropWhile (fun b => b == 45)).rdropWhile (fun b => b == 45)
        <+: s2.dropWhile (fun b => b == 45) := List.rdropWhile_prefix _ _
    obtain ⟨r, hr⟩ := hpre
    have hnot := List.head?_dropWhile_not (fun b : Nat => b == 45) s2
    rw [← hr] at hnot
    cases hl : (s2.dropWhile (fun b => b == 45)).rdropWhile (fun b => b == 45) with
    | nil => rw [hl] at hhead; simp at hhead
    | cons a l =>
      rw [hl] at hhead hnot
      simp only [List.head?_cons, Option.some.injEq] at hhead
      simp only [List.cons_append, List.head?_cons, beq_eq_false_iff_ne, ne_eq] at hnot
      exact hnot hhead
  · intro hlast
    by_cases hnil : (s2.dropWhile (fun b => b == 45)).rdropWhile (fun b => b == 45) = []
    · rw [hnil] at hlast
      simp at hlast
    · have h := List.rdropWhile_last_not (fun b : Nat => b == 45)
        (s2.dropWhile (fun b => b == 45)) hnil
      rw [List.getLast?_eq_getLast _ hnil, Option.some.injEq] at hlast
      rw [hlast] at h
      exact h (by decide)

theorem getLast?_eq_some_append (l : GoString) (a : Nat) (h : l.getLast? = some a) :
    ∃ init, l = init ++ [a] := by
  induction l using List.reverseRecOn with
  | nil => simp at h
  | append_singleton init x _ =>
    have hx : (init ++ [x]).getLast? = some x := by simp
    rw [hx] at h
    cases h
    exact ⟨init, rfl⟩

/-- The truncation step keeps a slug free of leading, trailing and doubled
hyphens. -/
theorem truncate_hyphens (slug : GoString)
    (h : List.Chain' (fun a b : Nat => ¬ (a = 45 ∧ b = 45)) slug ∧
      slug.head? ≠ some 45 ∧ slug.getLast? ≠ some 45) :
    (if slug.length < 40 then slug
      else Join ((Split (slice slug 0 40) (str "-")).take
        ((Split (slice slug 0 40) (str "-")).length - 1)) (str "-")).head? ≠ some 45 ∧
    (if slug.length < 40 then slug
      else Join ((Split (slice slug 0 40) (str "-")).take
        ((Split (slice slug 0 40) (str "-")).length - 1)) (str "-")).getLast? ≠ some 45 ∧
    ∀ i, ¬ ((if slug.length < 40 then slug
      else Join ((Split (slice slug 0 40) (str "-")).take
        ((Split (slice slug 0 40) (str "-")).length - 1)) (str "-"))[i]? = some 45 ∧
      (if slug.length < 40 then slug
      else Join ((Split (slice slug 0 40) (str "-")).take
        ((Split (slice slug 0 40) (str "-")).length - 1)) (str "-"))[i + 1]? = some 45) := by
  obtain ⟨hchain, hhead, hlast⟩ := h
  split
  · exact ⟨hhead, hlast, chain_index _ hchain⟩
  · rw [Split_hyphen]
    have hstr : str "-" = [45] := by decide
    rw [hstr]
    have hsl : slice slug 0 40 = slug.take 40 := by
      simp [slice]
    rw [hsl]
    by_cases h2 : 2 ≤ (splitAux [45] 0 [] (slug.take 40)).length
    · have hj := Join_take_getLast _ [45] h2
      rw [Join_splitAux_byte] at hj
      simp only [List.reverse_nil, List.nil_append] at hj
      generalize Join ((splitAux [45] 0 [] (slug.take 40)).take
        ((splitAux [45] 0 [] (slug.take 40)).length - 1)) [45] = part
        at hj ⊢
      generalize (splitAux [45] 0 [] (slug.take 40)).getLastD [] = last
        at hj
      have hc40 : List.Chain' (fun a b : Nat => ¬ (a = 45 ∧ b = 45))
          (slug.take 40) := List.Chain'.prefix hchain ( List.take_prefix _ _)
      have hpre : part <+: slug.take 40 := ⟨[45] ++ last, by
        rw [hj]; simp⟩
      refine ⟨?_, ?_, chain_index _ ( List.Chain'.prefix hc40 hpre)⟩
      · intro hp
        apply hhead
        cases part with
        | nil => simp at hp
        | cons a rest =>
          simp only [List.head?_cons, Option.some.injEq] at hp
          subst hp
          have e : slug.take 40 = 45 :: (rest ++ [45] ++ last) := by
            rw [hj]; simp
          have e2 := congrArg List.head? e
          cases hcs : slug with
          | nil => rw [hcs] at e; simp at e
          | cons b r =>
            rw [hcs] at e2
            simpa using e2
      · intro hp
        obtain ⟨init, rfl⟩ := getLast?_eq_some_append part 45 hp
        rw [hj] at hc40
        have hbad : List.Chain' (fun a b : Nat => ¬ (a = 45 ∧ b = 45))
            (init ++ 45 :: 45 :: last) := by
          simp only [List.append_assoc, List.singleton_append] at hc40
          exact hc40
        exact (List.chain'_append_cons_cons.mp hbad).2.1 ⟨rfl, rfl⟩
    · have h1 : (splitAux [45] 0 [] (slug.take 40)).length - 1 = 0 := by
        omega
      rw [h1]
      simp [Join]

/-- C18: the part of the title-mode url after the date and its hyphen never starts
with a hyphen, never ends with one and never has two hyphens in a row, in the short
branch and in the truncating branch alike. -/
theorem slugPart_hyphens (caseTable : Nat → Nat) (t : Time) (title filename : GoString) :
    generateUrl caseTable t title filename = t.Format ++ [45] ++ slugPart caseTable title ∧
    (slugPart caseTable title).head? ≠ some 45 ∧
    (slugPart caseTable title).getLast? ≠ some 45 ∧
    ∀ i, ¬ ((slugPart caseTable title)[i]? = some 45 ∧
      (slugPart caseTable title)[i + 1]? = some 45) := by
  refine ⟨generateUrl_eq_slugPart caseTable t title filename, ?_⟩
  unfold slugPart
  exact truncate_hyphens (cleanSlug caseTable title) (cleanSlug_hyphens caseTable title)

/-! ## Decoding of concatenated texts -/

theorem decodeRune_width_le (s : GoString) : (decodeRune s).2 ≤ s.length := by
  rcases s with _ | ⟨b0, _ | ⟨b1, _ | ⟨b2, _ | ⟨b3, r⟩⟩⟩⟩
  · simp [decodeRune]
  all_goals
    simp only [decodeRune]
    split_ifs <;> simp

set_option maxHeartbeats 2000000 in
/-- Decoding looks at no byte beyond the rune it returns: bytes appended after the
rune do not change it. -/
theorem decodeRune_append (A Y : GoString) (hA : A ≠ [])
    (hw : (decodeRune (A ++ Y)).2 ≤ A.length) : decodeRune A = decodeRune (A ++ Y) := by
  rcases A with _ | ⟨b0, _ | ⟨a1, _ | ⟨a2, _ | ⟨a3, r⟩⟩⟩⟩
  · exact absurd rfl hA
  · rcases Y with _ | ⟨y1, _ | ⟨y2, _ | ⟨y3, r⟩⟩⟩ <;>
      simp only [decodeRune, List.cons_append, List.nil_append, List.length_singleton] at hw ⊢ <;>
      split_ifs at hw ⊢ <;> first | (exfalso; dsimp only at hw; omega) | rfl
  · rcases Y with _ | ⟨y1, _ | ⟨y2, r⟩⟩ <;>
      simp only [decodeRune, List.cons_append, List.nil_append, List.length_cons,
        List.length_nil] at hw ⊢ <;>
      split_ifs at hw ⊢ <;> first | (exfalso; dsimp only at hw; omega) | rfl
  · rcases Y with _ | ⟨y1, r⟩ <;>
      simp only [decodeRune, List.cons_append, List.nil_append, List.length_cons,
        List.length_nil] at hw ⊢ <;>
      split_ifs at hw ⊢ <;> first | (exfalso; dsimp only at hw; omega) | rfl
  · simp only [decodeRune, List.cons_append]


set_option maxHeartbeats 2000000 in
/-- A rune never extends over a following ASCII byte. -/
theorem decodeRune_before_ascii (A Y : GoString) (a : Nat) (hA : A ≠ []) (ha : a < 0x80) :
    (decodeRune (A ++ a :: Y)).2 ≤ A.length := by
  have hc : isCont a = false := by
    simp only [isCont, Bool.and_eq_false_imp, decide_eq_true_eq, decide_eq_false_iff_not]
    omega
  rcases A with _ | ⟨b0, _ | ⟨a1, _ | ⟨a2, _ | ⟨a3, r⟩⟩⟩⟩
  · exact absurd rfl hA
  · rcases Y with _ | ⟨y1, _ | ⟨y2, r⟩⟩ <;>
      simp only [decodeRune, List.cons_append, List.nil_append, List.length_singleton, hc,
        Bool.false_eq_true, if_false, and_false, false_and] <;>
      split_ifs <;> (dsimp only; omega)
  · rcases Y with _ | ⟨y1, r⟩ <;>
      simp only [decodeRune, List.cons_append, List.nil_append, List.length_cons,
        List.length_nil, hc, Bool.false_eq_true, if_false, and_false, false_and] <;>
      split_ifs <;> (dsimp only; omega)
  · simp only [decodeRune, List.cons_append, List.nil_append, List.length_cons,
        List.length_nil, hc, Bool.false_eq_true, if_false, and_false, false_and]
    split_ifs <;> (dsimp only; omega)
  · have h4 : (decodeRune (b0 :: a1 :: a2 :: a3 :: r ++ a :: Y)).2 ≤ 4 := by
      simp only [decodeRune, List.cons_append]
      split_ifs <;> simp
    simp only [List.length_cons, List.cons_append] at h4 ⊢
    omega


theorem runesAux_src_ne_nil (k : Nat) (s : GoString) : ∀ t ∈ runesAux k s, t.src ≠ [] := by
  induction s generalizing k with
  | nil => simp [runesAux]
  | cons b rest ih =>
    cases k with
    | succ k => simpa [runesAux] using ih k
    | zero =>
      intro t ht
      simp only [runesAux, List.mem_cons] at ht
      rcases ht with rfl | ht
      · have hw := decodeRune_width_pos b rest
        obtain ⟨n, hn⟩ : ∃ n, (decodeRune (b :: rest)).2 = n + 1 :=
          ⟨_, (Nat.sub_add_cancel hw).symm⟩
        simp [hn]
      · exact ih _ t ht

theorem unrunes_length_pos (ts : List Tok) (h : ∀ t ∈ ts, t.src ≠ []) (hne : ts ≠ []) :
    0 < (unrunes ts).length := by
  cases ts with
  | nil => exact absurd rfl hne
  | cons t ts =>
    have := List.length_pos.mpr (h t (List.mem_cons_self _ _))
    simp only [unrunes, List.flatMap_cons, List.length_append]
    omega

/-- Cutting a text at a rune boundary of its decoding leaves the decoding of the
part before the cut unchanged. -/
theorem runesAux_cut (X Y : GoString) (k : Nat) (ts us : List Tok)
    (h : runesAux k (X ++ Y) = ts ++ us) (hlen : (unrunes ts).length + k = X.length) :
    runesAux k X = ts := by
  induction X generalizing k ts with
  | nil =>
    simp only [List.length_nil, Nat.add_eq_zero] at hlen
    obtain ⟨hl, rfl⟩ := hlen
    by_cases hts : ts = []
    · simp [hts, runesAux]
    · have hsrc : ∀ t ∈ ts, t.src ≠ [] := fun t ht =>
        runesAux_src_ne_nil 0 ([] ++ Y) t (by rw [h]; exact List.mem_append_left _ ht)
      have := unrunes_length_pos ts hsrc hts
      omega
  | cons b X ih =>
    cases k with
    | succ k =>
      simp only [List.cons_append, runesAux, List.append_eq] at h ⊢
      exact ih k ts h (by simp only [List.length_cons] at hlen; omega)
    | zero =>
      simp only [List.cons_append, runesAux, List.append_eq] at h
      cases ts with
      | nil => simp [unrunes] at hlen
      | cons t ts =>
        simp only [List.cons_append, List.cons.injEq] at h
        obtain ⟨ht, hrest⟩ := h
        have hwle := decodeRune_width_le (b :: (X ++ Y))
        have hwpos := decodeRune_width_pos b (X ++ Y)
        have hsrc : t.src.length = (decodeRune (b :: (X ++ Y))).2 := by
          rw [← ht]
          simp only [List.length_take]
          omega
        simp only [unrunes, List.flatMap_cons, List.length_append, List.length_cons,
          Nat.add_zero] at hlen
        have hw : (decodeRune ((b :: X) ++ Y)).2 ≤ (b :: X).length := by
          simp only [List.cons_append, List.length_cons]
          omega
        have hd := decodeRune_append (b :: X) Y (by simp) hw
        simp only [List.cons_append] at hd
        have hih := ih ((decodeRune (b :: (X ++ Y))).2 - 1) ts hrest (by
          simp only [unrunes]
          omega)
        have htake : ∀ w, w ≤ (b :: X).length →
            List.take w (b :: (X ++ Y)) = List.take w (b :: X) := by
          intro w hw1
          rw [show b :: (X ++ Y) = (b :: X) ++ Y from rfl, List.take_append_of_le_length hw1]
        simp only [runesAux, hd, hih, List.cons.injEq, and_true, List.append_eq]
        rw [← ht]
        simp only [List.cons_append] at hw
        rw [htake _ hw]

/-- An ASCII byte of a text starts a rune of its decoding. -/
theorem runesAux_ascii_boundary (X Y : GoString) (a : Nat) (ha : a < 0x80) (k : Nat)
    (hk : k ≤ X.length) :
    ∃ ts, runesAux k (X ++ a :: Y) = ts ++ runesAux 0 (a :: Y) ∧
      (unrunes ts).length + k = X.length := by
  induction X generalizing k with
  | nil =>
    have : k = 0 := by simpa using hk
    subst this
    exact ⟨[], by simp, by simp [unrunes]⟩
  | cons b X ih =>
    cases k with
    | succ k =>
      obtain ⟨ts, h1, h2⟩ := ih k (by simp only [List.length_cons] at hk; omega)
      exact ⟨ts, by simpa [runesAux] using h1, by simp only [List.length_cons]; omega⟩
    | zero =>
      have hw := decodeRune_before_ascii (b :: X) Y a (by simp) ha
      have hwpos := decodeRune_width_pos b (X ++ a :: Y)
      simp only [List.cons_append, List.length_cons] at hw
      obtain ⟨ts, h1, h2⟩ := ih ((decodeRune (b :: (X ++ a :: Y))).2 - 1) (by omega)
      refine ⟨⟨(decodeRune (b :: (X ++ a :: Y))).1,
        List.take (decodeRune (b :: (X ++ a :: Y))).2 (b :: (X ++ a :: Y))⟩ :: ts,
        by simp only [List.cons_append, runesAux, List.append_eq, h1], ?_⟩
      simp only [unrunes] at h2
      simp only [unrunes, List.flatMap_cons, List.length_append, List.length_take,
        List.length_cons, List.length_append, Nat.add_zero]
      omega

/-- The decoding of a text splits at an ASCII byte. -/
theorem runes_append_ascii (X Y : GoString) (a : Nat) (ha : a < 0x80) :
    runes (X ++ a :: Y) = runes X ++ runes (a :: Y) := by
  obtain ⟨ts, h1, h2⟩ := runesAux_ascii_boundary X Y a ha 0 (Nat.zero_le _)
  have h3 := runesAux_cut X (a :: Y) 0 ts _ h1 h2
  simp only [runes, h1, h3]

theorem runes_cons_ascii (a : Nat) (ha : a < 0x80) (s : GoString) :
    runes (a :: s) = ⟨a, [a]⟩ :: runes s := by
  have hd : decodeRune (a :: s) = (a, 1) := by simp only [decodeRune, ha, if_true]
  simp [runes, runesAux, hd]

/-- The bytes of a prefix of the runes of a text decode to that prefix. -/
theorem runes_unrunes_of_append (s : GoString) (ts us : List Tok) (h : runes s = ts ++ us) :
    runes (unrunes ts) = ts := by
  have hs : s = unrunes ts ++ unrunes us := by
    rw [← unrunes_runes s, h]
    simp [unrunes]
  rw [hs] at h
  exact runesAux_cut (unrunes ts) (unrunes us) 0 ts us h (by simp)

/-! ## Trimming at both ends -/

theorem rdropWhile_append {α : Type} (p : α → Bool) (L M : List α) :
    (L ++ M).rdropWhile p = if M.all p = true then L.rdropWhile p else L ++ M.rdropWhile p := by
  induction M using List.reverseRecOn with
  | nil => simp
  | append_singleton M x ih =>
    rw [← List.append_assoc]
    by_cases hx : p x = true
    · rw [List.rdropWhile_concat_pos _ _ _ hx, List.rdropWhile_concat_pos _ _ _ hx, ih]
      simp [hx]
    · rw [List.rdropWhile_concat_neg _ _ _ hx, List.rdropWhile_concat_neg _ _ _ hx]
      simp [hx]

theorem rdropWhile_ne_nil_not_all {α : Type} (p : α → Bool) (l : List α)
    (h : l.rdropWhile p ≠ []) : ¬ ((l.rdropWhile p).all p = true) := by
  intro hall
  have hlast := List.rdropWhile_last_not p l h
  rw [List.all_eq_true] at hall
  exact hlast (hall _ (List.getLast_mem h))

theorem dropWhile_ne_nil_not_all {α : Type} (p : α → Bool) (l : List α)
    (h : l.dropWhile p ≠ []) : ¬ ((l.dropWhile p).all p = true) := by
  intro hall
  have hhead := List.head_dropWhile_not p l h
  rw [List.all_eq_true] at hall
  have := hall _ (List.head_mem h)
  rw [hhead] at this
  exact Bool.noConfusion this

/-- Trimming on the left and on the right commute. -/
theorem dropWhile_rdropWhile {α : Type} (p : α → Bool) (l : List α) :
    (l.rdropWhile p).dropWhile p = (l.dropWhile p).rdropWhile p := by
  by_cases hd : l.dropWhile p = []
  · have hall : ∀ x ∈ l, p x = true := by
      simpa [List.dropWhile_eq_nil_iff] using hd
    have hr : l.rdropWhile p = [] := List.rdropWhile_eq_nil_iff.mpr hall
    simp [hd, hr]
  · have hsplit := List.takeWhile_append_dropWhile p l
    have hnall := dropWhile_ne_nil_not_all p l hd
    have hr : l.rdropWhile p = l.takeWhile p ++ (l.dropWhile p).rdropWhile p := by
      conv_lhs => rw [← hsplit]
      rw [rdropWhile_append, if_neg hnall]
    rw [hr, List.dropWhile_append_of_pos (fun a ha => (List.mem_takeWhile_imp ha))]
    have hne : (l.dropWhile p).rdropWhile p ≠ [] := by
      intro h0
      rw [List.rdropWhile_eq_nil_iff] at h0
      exact hnall (List.all_eq_true.mpr h0)
    obtain ⟨r, hr2⟩ := List.rdropWhile_prefix p (l.dropWhile p)
    cases hx : (l.dropWhile p).rdropWhile p with
    | nil => exact absurd hx hne
    | cons a rest =>
      have hhead := List.head_dropWhile_not p l hd
      have ha : p a = false := by
        have e : (l.dropWhile p).head hd = a := by
          have : l.dropWhile p = a :: (rest ++ r) := by rw [← hr2, hx]; rfl
          simp [this]
        rw [← e]
        exact hhead
      simp [List.dropWhile_cons, ha]

/-! ## Splitting at `+++` -/

theorem Join_splitAux (sep : GoString) (hsep : sep ≠ []) (k : Nat) (cur s : GoString) :
    Join (splitAux sep k cur s) sep = cur.reverse ++ s.drop k := by
  induction s generalizing k cur with
  | nil => simp [splitAux, Join]
  | cons b rest ih =>
    cases k with
    | succ k => simpa [splitAux] using ih k cur
    | zero =>
      simp only [splitAux]
      split
      · rename_i hst
        rw [Join_cons_of_ne_nil _ _ _ (splitAux_ne_nil _ _ _ _), ih]
        have hpre : ∀ (p s : GoString), startsWith p s = true → s = p ++ s.drop p.length := by
          intro p
          induction p with
          | nil => intro s _; simp
          | cons a p ihp =>
            intro s hs
            cases s with
            | nil => simp [startsWith] at hs
            | cons c s =>
              simp only [startsWith, Bool.and_eq_true, beq_iff_eq] at hs
              have := ihp s hs.2
              simp only [List.length_cons, List.drop_succ_cons, List.cons_append, hs.1]
              rw [← this]
        have h1 := hpre sep (b :: rest) hst
        obtain ⟨n, hn⟩ : ∃ n, sep.length = n + 1 :=
          ⟨sep.length - 1, by have := List.length_pos.mpr hsep; omega⟩
        rw [hn] at h1
        simp only [List.drop_succ_cons] at h1
        simp only [List.reverse_nil, List.nil_append, List.drop_zero, hn, Nat.add_sub_cancel,
          List.append_assoc]
        rw [← h1]
      · rw [ih]
        simp

theorem splitAux_plus_of_not_mem (cur h : GoString) (hh : 43 ∉ h) :
    splitAux [43, 43, 43] 0 cur h = [cur.reverse ++ h] := by
  induction h generalizing cur with
  | nil => simp [splitAux]
  | cons b rest ih =>
    have hb : (43 == b) = false := by
      simp only [beq_eq_false_iff_ne, ne_eq]
      intro e
      exact hh (by simp [e])
    simp only [splitAux, startsWith, hb, Bool.false_and, Bool.false_eq_true, if_false]
    rw [ih _ (fun hm => hh (List.mem_cons_of_mem _ hm))]
    simp

theorem splitAux_plus_fence (cur h rest : GoString) (hh : 43 ∉ h) :
    splitAux [43, 43, 43] 0 cur (h ++ 43 :: 43 :: 43 :: rest)
      = (cur.reverse ++ h) :: splitAux [43, 43, 43] 0 [] rest := by
  induction h generalizing cur with
  | nil => simp [splitAux, startsWith]
  | cons b h ih =>
    have hb : (43 == b) = false := by
      simp only [beq_eq_false_iff_ne, ne_eq]
      intro e
      exact hh (by simp [e])
    simp only [List.cons_append, splitAux, startsWith, hb, Bool.false_and, Bool.false_eq_true,
      if_false, List.append_eq]
    rw [ih _ (fun hm => hh (List.mem_cons_of_mem _ hm))]
    simp

/-! ## A fenced file: header and body -/

theorem TrimSpace_eq (s : GoString) :
    TrimSpace s = unrunes (((runes s).dropWhile (fun t => isSpace t.rune)).rdropWhile
      (fun t => isSpace t.rune)) := rfl

theorem trimRightSpace_eq (s : GoString) :
    trimRightSpace s = unrunes ((runes s).rdropWhile (fun t => isSpace t.rune)) := rfl

theorem Trim_eq (s cutset : GoString) :
    Trim s cutset = (s.dropWhile (fun b => decide (b ∈ cutset))).rdropWhile
      (fun b => decide (b ∈ cutset)) := rfl

theorem unrunes_append (a b : List Tok) : unrunes (a ++ b) = unrunes a ++ unrunes b := by
  simp [unrunes]

theorem unrunes_eq_nil (ts : List Tok) (h : ∀ t ∈ ts, t.src ≠ []) (he : unrunes ts = []) :
    ts = [] := by
  by_contra hne
  have := unrunes_length_pos ts h hne
  rw [he] at this
  simp at this

theorem runes_src_ne_nil (s : GoString) : ∀ t ∈ runes s, t.src ≠ [] := runesAux_src_ne_nil 0 s

/-- The runes of a right-trimmed text are the right-trimmed runes. -/
theorem runes_trimRightSpace (s : GoString) :
    runes (trimRightSpace s) = (runes s).rdropWhile (fun t => isSpace t.rune) := by
  obtain ⟨us, hus⟩ := List.rdropWhile_prefix (fun t : Tok => isSpace t.rune) (runes s)
  exact runes_unrunes_of_append s _ us hus.symm

/-- Trimming a right-trimmed text gives the trimmed text. -/
theorem TrimSpace_trimRightSpace (s : GoString) : TrimSpace (trimRightSpace s) = TrimSpace s := by
  rw [TrimSpace_eq, TrimSpace_eq, runes_trimRightSpace, dropWhile_rdropWhile,
    List.rdropWhile_idempotent]

/-- A right-trimmed text is some white space followed by the trimmed text, and is
empty when the trimmed text is. -/
theorem trimRightSpace_split (s : GoString) :
    (∃ pre, trimRightSpace s = pre ++ TrimSpace s) ∧ (TrimSpace s = [] → trimRightSpace s = []) := by
  have hsplit := List.takeWhile_append_dropWhile (fun t : Tok => isSpace t.rune)
    ((runes s).rdropWhile (fun t => isSpace t.rune))
  have hT : TrimSpace s = unrunes (((runes s).rdropWhile (fun t => isSpace t.rune)).dropWhile
      (fun t => isSpace t.rune)) := by
    rw [TrimSpace_eq, dropWhile_rdropWhile]
  constructor
  · refine ⟨unrunes (((runes s).rdropWhile (fun t => isSpace t.rune)).takeWhile
      (fun t => isSpace t.rune)), ?_⟩
    rw [hT, ← unrunes_append, hsplit, trimRightSpace_eq]
  · intro he
    rw [hT] at he
    have hsub : ∀ t ∈ ((runes s).rdropWhile (fun t => isSpace t.rune)).dropWhile
        (fun t => isSpace t.rune), t.src ≠ [] := fun t ht =>
      runes_src_ne_nil s t (( List.rdropWhile_prefix _ _).subset
        ((List.dropWhile_sublist _).subset ht))
    have hnil := unrunes_eq_nil _ hsub he
    rw [trimRightSpace_eq]
    by_cases hr : (runes s).rdropWhile (fun t => isSpace t.rune) = []
    · rw [hr]; rfl
    · exfalso
      have hall : ∀ x ∈ (runes s).rdropWhile (fun t => isSpace t.rune),
          isSpace x.rune = true := by
        simpa [List.dropWhile_eq_nil_iff] using hnil
      exact rdropWhile_ne_nil_not_all _ _ hr (List.all_eq_true.mpr hall)

theorem str_fence : str "+++" = [43, 43, 43] := by decide

theorem str_plus : str "+" = [43] := by decide

theorem runes_fence (s : GoString) :
    runes (43 :: 43 :: 43 :: s) = plusTok :: plusTok :: plusTok :: runes s := by
  rw [runes_cons_ascii 43 (by decide), runes_cons_ascii 43 (by decide),
    runes_cons_ascii 43 (by decide)]
  rfl

theorem unrunes_plus (ts : List Tok) : unrunes (plusTok :: ts) = 43 :: unrunes ts := by
  simp [unrunes, plusTok]

theorem isSpace_plusTok : isSpace plusTok.rune = false := by decide

/-- The runes of a fenced file. -/
theorem runes_fenced (H B : GoString) :
    runes (fenced H B) =
      (plusTok :: plusTok :: plusTok :: (runes H ++ [plusTok, plusTok]) ++ [plusTok])
        ++ runes B := by
  have e : fenced H B = 43 :: 43 :: 43 :: (H ++ 43 :: 43 :: 43 :: B) := by
    simp [fenced, str_fence]
  rw [e, runes_fence, runes_append_ascii H _ 43 (by decide), runes_fence]
  simp

/-- First trim of a fenced file: only the white space at the end of the body goes. -/
theorem TrimSpace_fenced (H B : GoString) :
    TrimSpace (fenced H B) = 43 :: 43 :: 43 :: (H ++ 43 :: 43 :: 43 :: trimRightSpace B) := by
  have hL : (plusTok :: plusTok :: plusTok :: (runes H ++ [plusTok, plusTok])
      ++ [plusTok]).rdropWhile (fun t => isSpace t.rune)
      = plusTok :: plusTok :: plusTok :: (runes H ++ [plusTok, plusTok]) ++ [plusTok] :=
    List.rdropWhile_concat_neg _ _ _ (by simp [isSpace_plusTok])
  have hres : ((plusTok :: plusTok :: plusTok :: (runes H ++ [plusTok, plusTok]) ++ [plusTok])
      ++ runes B).rdropWhile (fun t => isSpace t.rune)
      = (plusTok :: plusTok :: plusTok :: (runes H ++ [plusTok, plusTok]) ++ [plusTok])
        ++ (runes B).rdropWhile (fun t => isSpace t.rune) := by
    rw [rdropWhile_append]
    split
    · rename_i hall
      rw [hL, List.rdropWhile_eq_nil_iff.mpr (List.all_eq_true.mp hall)]
      simp
    · rfl
  have hdrop : ((plusTok :: plusTok :: plusTok :: (runes H ++ [plusTok, plusTok]) ++ [plusTok])
      ++ runes B).dropWhile (fun t => isSpace t.rune)
      = (plusTok :: plusTok :: plusTok :: (runes H ++ [plusTok, plusTok]) ++ [plusTok])
        ++ runes B := by
    simp [List.dropWhile_cons, isSpace_plusTok]
  rw [TrimSpace_eq, runes_fenced, hdrop, hres, trimRightSpace_eq]
  simp only [unrunes_append, List.cons_append, unrunes_plus, unrunes_runes, List.nil_append,
    List.append_assoc]

/-- Second step on a fenced file: the `+` trim removes the opening fence, and the
closing fence too when nothing follows it. -/
theorem Trim_fenced (H R : GoString) (hplus : 43 ∉ H) (hH : H ≠ [])
    (hR : R.getLast? ≠ some 43) :
    Trim (43 :: 43 :: 43 :: (H ++ 43 :: 43 :: 43 :: R)) (str "+")
      = if R = [] then H else H ++ 43 :: 43 :: 43 :: R := by
  have hf : ∀ b : Nat, decide (b ∈ [43]) = true ↔ b = 43 := by
    intro b
    simp
  have hdrop : (43 :: 43 :: 43 :: (H ++ 43 :: 43 :: 43 :: R)).dropWhile
      (fun b => decide (b ∈ [43])) = H ++ 43 :: 43 :: 43 :: R := by
    cases H with
    | nil => exact absurd rfl hH
    | cons h0 H1 =>
      have h0ne : h0 ≠ 43 := fun e => hplus (by simp [e])
      simp [List.dropWhile_cons, h0ne]
  have hHlast : H.rdropWhile (fun b => decide (b ∈ [43])) = H := by
    rw [List.rdropWhile_eq_self_iff]
    intro hl hc
    rw [hf] at hc
    exact hplus (hc ▸ List.getLast_mem hl)
  rw [Trim_eq, str_plus, hdrop]
  by_cases hRn : R = []
  · rw [if_pos hRn, hRn]
    have e : H ++ [43, 43, 43] = ((H ++ [43]) ++ [43]) ++ [43] := by simp
    rw [e, List.rdropWhile_concat_pos _ _ _ (by simp), List.rdropWhile_concat_pos _ _ _ (by simp),
      List.rdropWhile_concat_pos _ _ _ (by simp), hHlast]
  · rw [if_neg hRn]
    have hRlast : R.rdropWhile (fun b => decide (b ∈ [43])) = R := by
      rw [List.rdropWhile_eq_self_iff]
      intro hl hc
      rw [hf] at hc
      apply hR
      rw [List.getLast?_eq_getLast _ hl, hc]
    have hnall : ¬ (R.all (fun b => decide (b ∈ [43])) = true) := by
      intro hall
      rw [List.all_eq_true] at hall
      have := hall _ (List.getLast_mem hRn)
      rw [hf] at this
      apply hR
      rw [List.getLast?_eq_getLast _ hRn, this]
    have e : H ++ 43 :: 43 :: 43 :: R = (H ++ [43, 43, 43]) ++ R := by simp
    rw [e, rdropWhile_append, if_neg hnall, hRlast]

/-- Third step on a fenced file with a non-blank header and a non-empty rest: the
white space in front of the header goes. -/
theorem TrimSpace_header_body (H B : GoString) (hH : TrimSpace H ≠ [])
    (hR : trimRightSpace B ≠ []) :
    TrimSpace (H ++ 43 :: 43 :: 43 :: trimRightSpace B)
      = trimLeftSpace H ++ 43 :: 43 :: 43 :: trimRightSpace B := by
  have hrunes : runes (H ++ 43 :: 43 :: 43 :: trimRightSpace B)
      = runes H ++ (plusTok :: plusTok :: plusTok ::
          (runes B).rdropWhile (fun t => isSpace t.rune)) := by
    rw [runes_append_ascii H _ 43 (by decide), runes_fence, runes_trimRightSpace]
  have hdH : (runes H).dropWhile (fun t => isSpace t.rune) ≠ [] := by
    intro h0
    apply hH
    rw [TrimSpace_eq, h0]
    rfl
  have hrt : (runes B).rdropWhile (fun t => isSpace t.rune) ≠ [] := by
    intro h0
    apply hR
    rw [trimRightSpace_eq, h0]
    rfl
  have hdrop : (runes H ++ (plusTok :: plusTok :: plusTok ::
      (runes B).rdropWhile (fun t => isSpace t.rune))).dropWhile (fun t => isSpace t.rune)
      = (runes H).dropWhile (fun t => isSpace t.rune) ++ (plusTok :: plusTok :: plusTok ::
          (runes B).rdropWhile (fun t => isSpace t.rune)) := by
    rw [List.dropWhile_append]
    split
    · rename_i he
      exact absurd (List.isEmpty_iff.mp he) hdH
    · rfl
  have e : (runes H).dropWhile (fun t => isSpace t.rune) ++ (plusTok :: plusTok :: plusTok ::
      (runes B).rdropWhile (fun t => isSpace t.rune))
      = ((runes H).dropWhile (fun t => isSpace t.rune) ++ [plusTok, plusTok, plusTok])
        ++ (runes B).rdropWhile (fun t => isSpace t.rune) := by simp
  rw [TrimSpace_eq, hrunes, hdrop, e, rdropWhile_append,
    if_neg (rdropWhile_ne_nil_not_all _ _ hrt), List.rdropWhile_idempotent]
  simp only [unrunes_append, unrunes_plus, trimLeftSpace, trimRightSpace_eq, List.append_assoc,
    List.cons_append, List.nil_append]

theorem TrimSpace_nil : TrimSpace [] = [] := by decide

theorem trimLeftSpace_subset (s : GoString) : ∀ b ∈ trimLeftSpace s, b ∈ s := by
  intro b hb
  simp only [trimLeftSpace, unrunes, List.mem_flatMap] at hb
  obtain ⟨t, ht, hbt⟩ := hb
  exact mem_of_mem_runes s t ((List.dropWhile_sublist _).subset ht) b hbt

theorem Split_fence (s : GoString) : Split s (str "+++") = splitAux [43, 43, 43] 0 [] s := by
  simp [Split, str_fence]

/-- The header and the body `validateItem` takes from a fenced file whose header
part has no `+` and is not blank, and whose trimmed body does not end in `+`. -/
theorem fenced_header_body (H B : GoString) (hplus : 43 ∉ H) (hH : TrimSpace H ≠ [])
    (hB : (TrimSpace B).getLast? ≠ some 43) :
    headerOf (fenced H B) = (if TrimSpace B = [] then TrimSpace H else trimLeftSpace H) ∧
    bodyOf (fenced H B) = TrimSpace B := by
  have hHne : H ≠ [] := by
    intro h0
    apply hH
    rw [h0]
    exact TrimSpace_nil
  obtain ⟨⟨pre, hpre⟩, hnil⟩ := trimRightSpace_split B
  have hRlast : (trimRightSpace B).getLast? ≠ some 43 := by
    intro hl
    by_cases hT : TrimSpace B = []
    · rw [hnil hT] at hl
      simp at hl
    · rw [hpre, List.getLast?_append_of_ne_nil _ hT] at hl
      exact hB hl
  have hclean : cleanContent (fenced H B)
      = if trimRightSpace B = [] then TrimSpace H
        else trimLeftSpace H ++ 43 :: 43 :: 43 :: trimRightSpace B := by
    rw [cleanContent, TrimSpace_fenced, Trim_fenced H _ hplus hHne hRlast]
    split
    · rfl
    · rename_i hR
      exact TrimSpace_header_body H B hH hR
  by_cases hT : TrimSpace B = []
  · have hR : trimRightSpace B = [] := hnil hT
    rw [if_pos hR] at hclean
    have hno : 43 ∉ TrimSpace H := fun hm => hplus (TrimSpace_subset H 43 hm)
    rw [if_pos hT]
    simp only [headerOf, bodyOf, hclean, Split_fence, splitAux_plus_of_not_mem [] _ hno]
    simp [Join, TrimSpace_nil, hT]
  · have hR : trimRightSpace B ≠ [] := by
      intro h0
      apply hT
      rw [← TrimSpace_trimRightSpace, h0]
      exact TrimSpace_nil
    rw [if_neg hR] at hclean
    have hno : 43 ∉ trimLeftSpace H := fun hm => hplus (trimLeftSpace_subset H 43 hm)
    rw [if_neg hT]
    simp only [headerOf, bodyOf, hclean, Split_fence, splitAux_plus_fence [] _ _ hno]
    refine ⟨by simp, ?_⟩
    simp only [List.drop_succ_cons, List.drop_zero, str_fence]
    rw [Join_splitAux _ (by simp), ← TrimSpace_trimRightSpace B]
    simp

set_option maxRecDepth 100000 in
/-- C14, as stated, fails: the example file is `+++` H `+++` B with a `+`-free H
holding a valid title and date, it is accepted, and the header `validateItem` uses
is not H: the line break in front of the title is gone. -/
theorem headerOf_hello_ne :
    helloFile = fenced helloHeader helloBody ∧ 43 ∉ helloHeader ∧
    (TrimSpace helloBody).getLast? ≠ some 43 ∧
    2 ≤ (titleMatchOf helloFile).length ∧
    (validateItem (oneFile helloFile) noCase (str "f")).err = none ∧
    headerOf helloFile ≠ helloHeader ∧
    headerOf helloFile = trimLeftSpace helloHeader := by
  decide

/-- C14, amended: for a file `+++` H `+++` B where H has no `+` and is not blank and
the trimmed B does not end in `+`, the header `validateItem` uses is H without its
leading white space (without its trailing white space too when B is blank), the
body it marshals is the trimmed B in full, whatever further `+++` B contains, and
when the title pattern matches and the file is accepted the content of the record
is the JSON-escaped trimmed B. -/
theorem validateItem_fenced (fs : FileSystem) (caseTable : Nat → Nat) (item H B : GoString)
    (hread : fs.ReadFile (str "./content/content/" ++ item) = .ok (fenced H B))
    (hplus : 43 ∉ H) (hH : TrimSpace H ≠ []) (hB : (TrimSpace B).getLast? ≠ some 43) :
    headerOf (fenced H B) = (if TrimSpace B = [] then TrimSpace H else trimLeftSpace H) ∧
    bodyOf (fenced H B) = TrimSpace B ∧
    (2 ≤ (titleMatchOf (fenced H B)).length → (validateItem fs caseTable item).err = none →
      (validateItem fs caseTable item).post.content = jsonEscape (TrimSpace B)) := by
  obtain ⟨h1, h2⟩ := fenced_header_body H B hplus hH hB
  refine ⟨h1, h2, ?_⟩
  intro ht hacc
  obtain ⟨t, _, _, hpost⟩ := validateItem_accepted fs caseTable item (fenced H B) hread ht hacc
  rw [hpost, h2]

set_option maxRecDepth 100000 in
theorem validateItem_fenced_witness :
    (oneFile (fenced helloHeader nestedBody)).ReadFile (str "./content/content/" ++ str "f")
      = .ok (fenced helloHeader nestedBody) ∧
    43 ∉ helloHeader ∧ TrimSpace helloHeader ≠ [] ∧
    (TrimSpace nestedBody).getLast? ≠ some 43 ∧
    2 ≤ (titleMatchOf (fenced helloHeader nestedBody)).length ∧
    (validateItem (oneFile (fenced helloHeader nestedBody)) noCase (str "f")).err = none ∧
    TrimSpace nestedBody = str "first +++ second +++ third" ∧
    (validateItem (oneFile (fenced helloHeader nestedBody)) noCase (str "f")).post.content
      = jsonEscape (TrimSpace nestedBody) :=
  ⟨rfl, by decide, by decide, by decide, by decide, by decide, by decide,
    (validateItem_fenced (oneFile (fenced helloHeader nestedBody)) noCase (str "f") helloHeader
      nestedBody rfl (by decide) (by decide) (by decide)).2.2 (by decide) (by decide)⟩

/-! ## Escaped text as a JSON string -/

set_option maxRecDepth 100000 in
/-- C11: the valid UTF-8 file without a title field is returned with a nil error
and an empty content, which as a JSON string denotes the empty string and not the
trimmed body `Some content` of the file. -/
theorem validateItem_untitled_content :
    validUTF8 untitledFile = true ∧
    (validateItem (oneFile untitledFile) noCase (str "f")).err = none ∧
    (validateItem (oneFile untitledFile) noCase (str "f")).post.content = [] ∧
    bodyOf untitledFile = str "Some content" ∧
    jsonUnquote (validateItem (oneFile untitledFile) noCase (str "f")).post.content
      ≠ some (bodyOf untitledFile) := by
  decide

theorem hexVal_hexDigit (x : Nat) (h : x < 16) : hexVal (hexDigit x) = some x := by
  interval_cases x <;> rfl

set_option maxHeartbeats 2000000 in
/-- The escape of an ASCII byte reads back as that byte. -/
theorem jsonUnquoteAux_escape_ascii (b : Nat) (hb : b < 0x80) (src : GoString) (hsrc : src = [b])
    (rune : Nat) (r : GoString) :
    jsonUnquoteAux 0 (escapeTok ⟨rune, src⟩ ++ r)
      = (jsonUnquoteAux 0 r).map (fun x => b :: x) := by
  subst hsrc
  interval_cases b <;>
    simp [escapeTok, jsonUnquoteAux, unescapeAt, hexVal, hexDigit, encodeRune]


set_option maxHeartbeats 2000000 in
theorem escapeTok_ascii_bytes (b : Nat) (hb : b < 0x80) (rune : Nat) :
    ∀ x ∈ escapeTok ⟨rune, [b]⟩, 0x20 ≤ x := by
  interval_cases b <;> simp [escapeTok, hexDigit]

/-- Bytes from 0x80 on stand for themselves. -/
theorem jsonUnquoteAux_raw (bs : GoString) (h : ∀ x ∈ bs, 0x80 ≤ x) (r : GoString) :
    jsonUnquoteAux 0 (bs ++ r) = (jsonUnquoteAux 0 r).map (fun x => bs ++ x) := by
  induction bs with
  | nil => simp
  | cons a bs ih =>
    have ha : 0x80 ≤ a := h a (List.mem_cons_self _ _)
    have h1 : ¬ a = 92 := by omega
    have h2 : ¬ (a < 0x20 ∨ a = 34) := by omega
    have ih2 := ih (fun x hx => h x (List.mem_cons_of_mem _ hx))
    simp only [List.cons_append, jsonUnquoteAux, h1, h2, if_false, List.append_eq]
    rw [ih2, Option.map_map]
    rfl

/-- The shapes of a decoded rune that is not ASCII: the error rune of width 1, or
a well-formed sequence of two, three or four bytes. -/
theorem decodeRune_class (b : Nat) (rest : GoString) (hb : ¬ b < 0x80) :
    decodeRune (b :: rest) = (RuneError, 1) ∨
    (∃ b1 r, rest = b1 :: r ∧ 0x80 ≤ b1 ∧ b1 ≤ 0xBF ∧
      decodeRune (b :: rest) = ((b - 0xC0) * 64 + (b1 - 0x80), 2) ∧ b ≤ 0xDF) ∨
    (∃ b1 b2 r, rest = b1 :: b2 :: r ∧ 0x80 ≤ b1 ∧ b1 ≤ 0xBF ∧ 0x80 ≤ b2 ∧ b2 ≤ 0xBF ∧
      0xE0 ≤ b ∧ b ≤ 0xEF ∧
      decodeRune (b :: rest) = ((b - 0xE0) * 4096 + (b1 - 0x80) * 64 + (b2 - 0x80), 3)) ∨
    (∃ b1 b2 b3 r, rest = b1 :: b2 :: b3 :: r ∧ 0x80 ≤ b1 ∧ 0x80 ≤ b2 ∧ 0x80 ≤ b3 ∧
      0xF0 ≤ b ∧ (b = 0xF0 → 0x90 ≤ b1) ∧
      decodeRune (b :: rest)
        = ((b - 0xF0) * 262144 + (b1 - 0x80) * 4096 + (b2 - 0x80) * 64 + (b3 - 0x80), 4)) := by
  have hcont : ∀ x, isCont x = true → 0x80 ≤ x ∧ x ≤ 0xBF := by
    intro x hx
    simpa [isCont] using hx
  by_cases h2 : 0xC2 ≤ b ∧ b ≤ 0xDF
  · rcases rest with _ | ⟨b1, r⟩
    · left; simp only [decodeRune, hb, h2, if_false, and_self, if_true]
    · by_cases hc : isCont b1 = true
      · right; left
        exact ⟨b1, r, rfl, (hcont b1 hc).1, (hcont b1 hc).2,
          by simp only [decodeRune, hb, h2, hc, if_false, and_self, if_true], h2.2⟩
      · left; simp only [decodeRune, hb, h2, hc, if_false, and_self, if_true, Bool.false_eq_true]
  by_cases h3 : 0xE0 ≤ b ∧ b ≤ 0xEF
  · rcases rest with _ | ⟨b1, _ | ⟨b2, r⟩⟩
    · left; simp only [decodeRune, hb, h2, h3, if_false, and_self, if_true]
    · left; simp only [decodeRune, hb, h2, h3, if_false, and_self, if_true]
    · by_cases hc : (if b = 0xE0 then 0xA0 else 0x80) ≤ b1 ∧
          b1 ≤ (if b = 0xED then 0x9F else 0xBF) ∧ isCont b2 = true
      · right; right; left
        have hb2 := hcont b2 hc.2.2
        have hlo : 0x80 ≤ b1 := by
          have := hc.1
          split_ifs at this <;> omega
        have hhi : b1 ≤ 0xBF := by
          have := hc.2.1
          split_ifs at this <;> omega
        exact ⟨b1, b2, r, rfl, hlo, hhi, hb2.1, hb2.2, h3.1, h3.2,
          by simp only [decodeRune, hb, h2, h3, hc, if_false, and_self, if_true]⟩
      · left; simp only [decodeRune, hb, h2, h3, hc, if_false, and_self, if_true]
  by_cases h4 : 0xF0 ≤ b ∧ b ≤ 0xF4
  · rcases rest with _ | ⟨b1, _ | ⟨b2, _ | ⟨b3, r⟩⟩⟩
    · left; simp only [decodeRune, hb, h2, h3, h4, if_false, and_self, if_true]
    · left; simp only [decodeRune, hb, h2, h3, h4, if_false, and_self, if_true]
    · left; simp only [decodeRune, hb, h2, h3, h4, if_false, and_self, if_true]
    · by_cases hc : (if b = 0xF0 then 0x90 else 0x80) ≤ b1 ∧
          b1 ≤ (if b = 0xF4 then 0x8F else 0xBF) ∧ isCont b2 = true ∧ isCont b3 = true
      · right; right; right
        have hb2 := hcont b2 hc.2.2.1
        have hb3 := hcont b3 hc.2.2.2
        have hlo : 0x80 ≤ b1 := by
          have := hc.1
          split_ifs at this <;> omega
        have hlo2 : b = 0xF0 → 0x90 ≤ b1 := by
          intro e
          have := hc.1
          rw [if_pos e] at this
          exact this
        exact ⟨b1, b2, b3, r, rfl, hlo, hb2.1, hb3.1, h4.1, hlo2,
          by simp only [decodeRune, hb, h2, h3, h4, hc, if_false, and_self, if_true]⟩
      · left; simp only [decodeRune, hb, h2, h3, h4, hc, if_false, and_self, if_true]
  · left; simp only [decodeRune, hb, h2, h3, h4, if_false]


/-- One decoded rune of valid text: its escaped form reads back as its source bytes
and holds no control character. -/
theorem escapeTok_decode (b : Nat) (rest : GoString)
    (hvalid : ¬ ((decodeRune (b :: rest)).1 = RuneError ∧
      ((b :: rest).take (decodeRune (b :: rest)).2).length = 1)) (r : GoString) :
    jsonUnquoteAux 0
        (escapeTok ⟨(decodeRune (b :: rest)).1, (b :: rest).take (decodeRune (b :: rest)).2⟩ ++ r)
      = (jsonUnquoteAux 0 r).map (fun x => (b :: rest).take (decodeRune (b :: rest)).2 ++ x) ∧
    ∀ x ∈ escapeTok ⟨(decodeRune (b :: rest)).1, (b :: rest).take (decodeRune (b :: rest)).2⟩,
      0x20 ≤ x := by
  by_cases hb : b < 0x80
  · have hd : decodeRune (b :: rest) = (b, 1) := by simp only [decodeRune, hb, if_true]
    rw [hd]
    refine ⟨?_, escapeTok_ascii_bytes b hb b⟩
    have := jsonUnquoteAux_escape_ascii b hb [b] rfl b r
    simpa using this
  · rcases decodeRune_class b rest hb with hd | ⟨b1, r1, rfl, h1, h1b, hd, hbb⟩ |
      ⟨b1, b2, r1, rfl, h1, h1b, h2, h2b, hlo, hhi, hd⟩ |
      ⟨b1, b2, b3, r1, rfl, h1, h2, h3, hlo, hx, hd⟩
    · exfalso
      apply hvalid
      rw [hd]
      exact ⟨rfl, rfl⟩
    · rw [hd]
      have hne : ¬ ((b - 0xC0) * 64 + (b1 - 0x80) = 0x2028 ∨
          (b - 0xC0) * 64 + (b1 - 0x80) = 0x2029) := by omega
      have he : escapeTok ⟨(b - 0xC0) * 64 + (b1 - 0x80), [b, b1]⟩ = [b, b1] := by
        simp only [escapeTok, hne, if_false]
      have hbytes : ∀ x ∈ [b, b1], 0x80 ≤ x := by
        intro x hx
        simp only [List.mem_cons, List.mem_singleton, List.not_mem_nil, or_false] at hx
        omega
      show jsonUnquoteAux 0 (escapeTok ⟨_, [b, b1]⟩ ++ r) = _ ∧ ∀ x ∈ escapeTok ⟨_, [b, b1]⟩, _
      rw [he]
      exact ⟨jsonUnquoteAux_raw _ hbytes r, fun x hx => le_trans (by decide) (hbytes x hx)⟩
    · rw [hd]
      show jsonUnquoteAux 0 (escapeTok ⟨_, [b, b1, b2]⟩ ++ r) = _ ∧
        ∀ x ∈ escapeTok ⟨_, [b, b1, b2]⟩, _
      by_cases e8 : (b - 0xE0) * 4096 + (b1 - 0x80) * 64 + (b2 - 0x80) = 0x2028
      · have hb0 : b = 226 := by omega
        have hb1 : b1 = 128 := by omega
        have hb2 : b2 = 168 := by omega
        subst hb0 hb1 hb2
        refine ⟨?_, ?_⟩
        · simp [escapeTok, jsonUnquoteAux, unescapeAt, hexVal, hexDigit, encodeRune]
        · simp [escapeTok, hexDigit]
      by_cases e9 : (b - 0xE0) * 4096 + (b1 - 0x80) * 64 + (b2 - 0x80) = 0x2029
      · have hb0 : b = 226 := by omega
        have hb1 : b1 = 128 := by omega
        have hb2 : b2 = 169 := by omega
        subst hb0 hb1 hb2
        refine ⟨?_, ?_⟩
        · simp [escapeTok, jsonUnquoteAux, unescapeAt, hexVal, hexDigit, encodeRune]
        · simp [escapeTok, hexDigit]
      have he : escapeTok ⟨(b - 0xE0) * 4096 + (b1 - 0x80) * 64 + (b2 - 0x80), [b, b1, b2]⟩
          = [b, b1, b2] := by
        simp only [escapeTok, e8, e9, or_self, if_false]
      have hbytes : ∀ x ∈ [b, b1, b2], 0x80 ≤ x := by
        intro x hx
        simp only [List.mem_cons, List.mem_singleton, List.not_mem_nil, or_false] at hx
        omega
      rw [he]
      exact ⟨jsonUnquoteAux_raw _ hbytes r, fun x hx => le_trans (by decide) (hbytes x hx)⟩
    · rw [hd]
      show jsonUnquoteAux 0 (escapeTok ⟨_, [b, b1, b2, b3]⟩ ++ r) = _ ∧
        ∀ x ∈ escapeTok ⟨_, [b, b1, b2, b3]⟩, _
      have hne : ¬ ((b - 0xF0) * 262144 + (b1 - 0x80) * 4096 + (b2 - 0x80) * 64 + (b3 - 0x80)
            = 0x2028 ∨
          (b - 0xF0) * 262144 + (b1 - 0x80) * 4096 + (b2 - 0x80) * 64 + (b3 - 0x80)
            = 0x2029) := by
        by_cases e : b = 0xF0
        · have := hx e
          omega
        · omega
      have he : escapeTok
          ⟨(b - 0xF0) * 262144 + (b1 - 0x80) * 4096 + (b2 - 0x80) * 64 + (b3 - 0x80),
            [b, b1, b2, b3]⟩ = [b, b1, b2, b3] := by
        simp only [escapeTok, hne, if_false]
      have hbytes : ∀ x ∈ [b, b1, b2, b3], 0x80 ≤ x := by
        intro x hx
        simp only [List.mem_cons, List.mem_singleton, List.not_mem_nil, or_false] at hx
        omega
      rw [he]
      exact ⟨jsonUnquoteAux_raw _ hbytes r, fun x hx => le_trans (by decide) (hbytes x hx)⟩


theorem jsonUnquoteAux_escape_runes (k : Nat) (s : GoString)
    (h : ∀ t ∈ runesAux k s, ¬ (t.rune = RuneError ∧ t.src.length = 1)) :
    jsonUnquoteAux 0 ((runesAux k s).flatMap escapeTok) = some (unrunes (runesAux k s)) ∧
    ∀ x ∈ (runesAux k s).flatMap escapeTok, 0x20 ≤ x := by
  induction s generalizing k with
  | nil => simp [runesAux, unrunes, jsonUnquoteAux]
  | cons b rest ih =>
    cases k with
    | succ k =>
      simp only [runesAux] at h ⊢
      exact ih k h
    | zero =>
      simp only [runesAux, List.mem_cons, forall_eq_or_imp] at h
      obtain ⟨h0, h1⟩ := h
      have ih1 := ih ((decodeRune (b :: rest)).2 - 1) h1
      have ht := escapeTok_decode b rest h0
        ((runesAux ((decodeRune (b :: rest)).2 - 1) rest).flatMap escapeTok)
      simp only [runesAux, List.flatMap_cons, unrunes]
      refine ⟨?_, ?_⟩
      · rw [ht.1, ih1.1]
        rfl
      · intro x hx
        rcases List.mem_append.1 hx with hx | hx
        · exact ht.2 x hx
        · exact ih1.2 x hx

/-- The escaped form of valid UTF-8 text is the inside of a well-formed JSON string
literal that denotes the text, and holds no control character. -/
theorem jsonUnquote_jsonEscape (s : GoString) (h : validUTF8 s = true) :
    jsonUnquote (jsonEscape s) = some s ∧ ∀ x ∈ jsonEscape s, 0x20 ≤ x := by
  have hv : ∀ t ∈ runesAux 0 s, ¬ (t.rune = RuneError ∧ t.src.length = 1) := by
    intro t ht
    have := (List.all_eq_true.1 h) t ht
    intro hc
    simp [hc.1, hc.2] at this
  have := jsonUnquoteAux_escape_runes 0 s hv
  rw [show unrunes (runesAux 0 s) = s from unrunes_runes s] at this
  exact this

theorem post_json (p : PostRequest) (a b c d e f : GoString)
    (hp : p = { filename := a, date := b, title := jsonEscape c, content := jsonEscape d,
                status := e, url := f })
    (hvt : validUTF8 c = true) (hvb : validUTF8 d = true) :
    jsonUnquote p.title = some c ∧ jsonUnquote p.content = some d ∧
    (∀ x ∈ p.title, 0x20 ≤ x) ∧ (∀ x ∈ p.content, 0x20 ≤ x) := by
  subst hp
  exact ⟨(jsonUnquote_jsonEscape _ hvt).1, (jsonUnquote_jsonEscape _ hvb).1,
    (jsonUnquote_jsonEscape _ hvt).2, (jsonUnquote_jsonEscape _ hvb).2⟩

/-- On the path with a matched title, an accepted file whose trimmed title and body
are valid UTF-8 gets a title and a content that denote them as JSON strings and
hold no control character. -/
theorem validateItem_titled_json (fs : FileSystem) (caseTable : Nat → Nat)
    (item file : GoString)
    (h : fs.ReadFile (str "./content/content/" ++ item) = .ok file)
    (ht : 2 ≤ (titleMatchOf file).length)
    (hacc : (validateItem fs caseTable item).err = none)
    (hvt : validUTF8 (titleOf file) = true) (hvb : validUTF8 (bodyOf file) = true) :
    jsonUnquote (validateItem fs caseTable item).post.title = some (titleOf file) ∧
    jsonUnquote (validateItem fs caseTable item).post.content = some (bodyOf file) ∧
    (∀ x ∈ (validateItem fs caseTable item).post.title, 0x20 ≤ x) ∧
    (∀ x ∈ (validateItem fs caseTable item).post.content, 0x20 ≤ x) := by
  obtain ⟨t, _, _, hpost⟩ := validateItem_accepted fs caseTable item file h ht hacc
  exact post_json _ _ _ _ _ _ _ hpost hvt hvb

end HugoToDirectus
